import Mathlib

/-!
# SmallMerge (aiksaurus 0.12-dev, `src/SmallMerge.cpp`)

A shallow embedding of `smallMerge(MeaningFamily& classes, MeaningFamily& output)`
and of the four globals it reads and writes.

Modelling decisions, each visible in the definitions below:

* a word is an element of a linearly ordered type `α` (for `std::string` the order is
  `operator<`); a family is a `List α`, a `MeaningFamily` a list of families;
* `std::sort` on a linear order has exactly one possible result, the sorted permutation;
  it is computed here by insertion sort;
* `std::binary_search` is the bisection of `std::lower_bound` followed by the equivalence
  test, not a membership oracle;
* `unsigned int` loop indices `i`, `j` of the pairwise loop and the two counters are natural
  numbers reduced modulo `2 ^ 32` after every increment and decrement;
* a `double` is the rational number it stands for; `double(n)` of a size is `n` itself
  (exact below `2 ^ 53`, and no vector has that many elements), and the quotient
  `double(a) / double(b)` is the exact quotient rounded to the nearest number with a
  53-bit significand, ties to even (`toDouble`); the exponent range is not bounded, which
  changes nothing for a quotient of two sizes or for a finite `double` threshold;
* the global `SMALLMERGE_RATIO` holds the `double` nearest to the rational number kept in
  `Globals`, that number itself when it is a `double`;
* reading `classes[i]` outside the vector, or exhausting the iteration budget that
  `smallMerge` hands to its loops, yields `none`;
* the first and the last loop and the loop over the words of `classes[j]` only read their
  index; they are the corresponding list traversals.
-/

namespace SmallMerge

set_option linter.unusedSectionVars false

variable {α : Type} [LinearOrder α]

/-- Number of values of an `unsigned int`. -/
def UINT_RANGE : Nat := 2 ^ 32

/-- The type `MeaningFamily` of `SmallMerge.h`: a vector of vectors of words. -/
abbrev MeaningFamily (α : Type) := List (List α)

/-- The four globals of `SmallMerge.cpp`. -/
structure Globals where
  SMALLMERGE_RATIO : ℚ
  PITHY_FILTER : Nat
  SUBSETS : Nat
  MERGES : Nat

/-- What the pairwise loop reads and writes: the two counters and `classes`. -/
structure LoopState (α : Type) where
  SUBSETS : Nat
  MERGES : Nat
  classes : MeaningFamily α

/-- Everything `smallMerge` leaves behind: the globals and its two reference arguments. -/
structure Result (α : Type) where
  globals : Globals
  classes : MeaningFamily α
  output : MeaningFamily α

/-- The call `sort(v.begin(), v.end())`. -/
def sort (v : List α) : List α := v.insertionSort (· ≤ ·)

/-- The bisection of `std::lower_bound` on the range `[first, first + count)` of `v`;
the first argument bounds the number of halvings. -/
def lower_bound : Nat → List α → α → Nat → Nat → Nat
  | 0, _, _, first, _ => first
  | fuel + 1, v, value, first, count =>
    if 0 < count then
      match v[first + count / 2]? with
      | some x =>
        if x < value then
          lower_bound fuel v value (first + count / 2 + 1) (count - (count / 2 + 1))
        else
          lower_bound fuel v value first (count / 2)
      | none => first
    else first

/-- The call `binary_search(v.begin(), v.end(), value)`: the lower bound is inside the
range and `value` is not less than the element found there. -/
def binary_search (v : List α) (value : α) : Bool :=
  match v[lower_bound v.length v value 0 v.length]? with
  | some x => !decide (value < x)
  | none => false

/-- Modelled from the spec: the merge scan behind `set_comparison` of `SetUtils.h`, which is
not among the sources. Both inputs are walked once from the front; the smaller head goes to
`left` or to `right`, equal heads go to `common`, and what remains of one input when the
other is exhausted goes to its own side. The first argument bounds the number of steps. -/
def set_comparison_scan : Nat → List α → List α → List α × List α × List α
  | 0, l, r => (l, r, [])
  | _ + 1, [], r => ([], r, [])
  | _ + 1, x :: l, [] => (x :: l, [], [])
  | fuel + 1, x :: l, y :: r =>
    if x < y then
      match set_comparison_scan fuel l (y :: r) with
      | (left, right, common) => (x :: left, right, common)
    else if y < x then
      match set_comparison_scan fuel (x :: l) r with
      | (left, right, common) => (left, y :: right, common)
    else
      match set_comparison_scan fuel l r with
      | (left, right, common) => (left, right, x :: common)

/-- Modelled from the spec: `set_comparison(left, right, common, l.begin(), l.end(),
r.begin(), r.end())` of `SetUtils.h`, returning `(left, right, common)`: the elements only
in the left input, only in the right input, and in both. -/
def set_comparison (l r : List α) : List α × List α × List α :=
  set_comparison_scan (l.length + r.length) l r

/-- Body of the first loop: a class of exactly two words is cleared, then the class is
sorted. -/
def normalize (c : List α) : List α :=
  sort (if c.length = 2 then [] else c)

/-- The first loop of `smallMerge`. -/
def phase1 (classes : MeaningFamily α) : MeaningFamily α :=
  classes.map normalize

/-- The loop over `k` of a merge: every word of `classes[j]` that `binary_search` does not
find in `classes[i]` is pushed to the back of `classes[i]`, which is sorted again at once. -/
def mergeWords (ci cj : List α) : List α :=
  cj.foldl (fun acc word => if binary_search acc word then acc else sort (acc ++ [word])) ci

/-- Rounding of a rational number to the nearest integer, a tie going to the even one. -/
def roundEven (m : ℚ) : ℤ :=
  if 1 < 2 * (m - ⌊m⌋) ∨ (2 * (m - ⌊m⌋) = 1 ∧ ⌊m⌋ % 2 = 1) then ⌊m⌋ + 1 else ⌊m⌋

/-- Rounding of a rational number to `double`: the number is scaled by a power of two so
that its magnitude lies in `[2 ^ 52, 2 ^ 53)`, rounded to the nearest integer with ties to
even, and scaled back. -/
def toDouble (q : ℚ) : ℚ :=
  if q = 0 then 0
  else (if q < 0 then -1 else 1)
    * (roundEven (|q| / (2 : ℚ) ^ (Int.log 2 |q| - 52)) : ℚ) * (2 : ℚ) ^ (Int.log 2 |q| - 52)

/-- The value of `double(common.size()) / double(common.size() + other.size())`, the
initialiser of `lratio` (with `left`) and of `rratio` (with `right`): the quotient of the two
sizes, rounded to `double`. -/
def ratio (common other : List α) : ℚ :=
  toDouble ((common.length : ℚ) / ((common.length + other.length : ℕ) : ℚ))

/-- The statements `SUBSETS++; classes[k].clear();` of both subset branches. -/
def eliminate (st : LoopState α) (k : Nat) : LoopState α :=
  { st with SUBSETS := (st.SUBSETS + 1) % UINT_RANGE, classes := st.classes.set k [] }

/-- The statements of the merge branch up to `classes[j].clear();`: `MERGES++`, the loop
over the words of `classes[j]`, and the clearing of `classes[j]`. -/
def absorb (st : LoopState α) (i j : Nat) (ci cj : List α) : LoopState α :=
  { st with MERGES := (st.MERGES + 1) % UINT_RANGE,
            classes := (st.classes.set i (mergeWords ci cj)).set j [] }

/-- The test `(rratio >= SMALLMERGE_RATIO) || (lratio >= SMALLMERGE_RATIO)`, a comparison
of `double`s: `toDouble t` is the value the global holds. -/
abbrev similar (t : ℚ) (left right common : List α) : Prop :=
  ratio common right ≥ toDouble t ∨ ratio common left ≥ toDouble t

/-- The inner loop `for (j = ...; j < classes.size(); ++j)` for a fixed `i`, started at `j`.
It returns the value of `i` on leaving the loop (changed only by `--i`) and the state. -/
def innerLoop (t : ℚ) : Nat → Nat → Nat → LoopState α → Option (Nat × LoopState α)
  | 0, _, _, _ => none
  | fuel + 1, i, j, st =>
    if j < st.classes.length then
      match st.classes[i]?, st.classes[j]? with
      | some ci, some cj =>
        if cj.isEmpty then
          innerLoop t fuel i ((j + 1) % UINT_RANGE) st
        else
          match set_comparison ci cj with
          | (left, right, common) =>
            if right.isEmpty then
              innerLoop t fuel i ((j + 1) % UINT_RANGE) (eliminate st j)
            else if left.isEmpty then
              some (i, eliminate st i)
            else if similar t left right common then
              some ((i + UINT_RANGE - 1) % UINT_RANGE, absorb st i j ci cj)
            else
              innerLoop t fuel i ((j + 1) % UINT_RANGE) st
      | _, _ => none
    else some (i, st)

/-- The outer loop `for (i = ...; i < classes.size(); ++i)`, started at `i`. -/
def outerLoop (t : ℚ) : Nat → Nat → LoopState α → Option (LoopState α)
  | 0, _, _ => none
  | fuel + 1, i, st =>
    if i < st.classes.length then
      match st.classes[i]? with
      | none => none
      | some ci =>
        if ci.isEmpty then
          outerLoop t fuel ((i + 1) % UINT_RANGE) st
        else
          match innerLoop t (st.classes.length + 1) i ((i + 1) % UINT_RANGE) st with
          | none => none
          | some (i', st') => outerLoop t fuel ((i' + 1) % UINT_RANGE) st'
    else some st

/-- The second loop nest of `smallMerge`, entered with both counters reset. -/
def phase2 (t : ℚ) (classes : MeaningFamily α) : Option (LoopState α) :=
  outerLoop t (2 * classes.length + 1) 0 { SUBSETS := 0, MERGES := 0, classes := classes }

/-- The last loop of `smallMerge`: the classes with more than `PITHY_FILTER` words, in
order. -/
def phase3 (pithy : Nat) (classes : MeaningFamily α) : MeaningFamily α :=
  classes.filter (fun c => decide (pithy < c.length))

/-- The function `smallMerge(classes, output)` run with globals `g`. -/
def smallMerge (g : Globals) (classes output : MeaningFamily α) : Option (Result α) :=
  match phase2 g.SMALLMERGE_RATIO (phase1 classes) with
  | none => none
  | some st =>
    some { globals := { g with SUBSETS := st.SUBSETS, MERGES := st.MERGES },
           classes := st.classes,
           output := output ++ phase3 g.PITHY_FILTER st.classes }

/-- The values the globals are initialised with: a ratio of `.5`, a pithy filter of `10`,
and both counters at zero. -/
def defaults : Globals :=
  { SMALLMERGE_RATIO := 1 / 2, PITHY_FILTER := 10, SUBSETS := 0, MERGES := 0 }

/-- The collection of the merge scenario: a class of two words and two classes that share
`feline` and `kitty`. -/
def catFamilies : MeaningFamily String :=
  [["cat", "dog"], ["cat", "feline", "kitty"], ["feline", "kitty", "tabby", "puss"]]

/-- The globals of the merge scenario: the default ratio and a pithy filter of `2`. -/
def catGlobals : Globals :=
  { defaults with PITHY_FILTER := 2 }

/-! ## Definitions used only in statements and proofs -/

/-- Number of classes that are not empty. -/
def nonEmptyCount (classes : MeaningFamily α) : Nat :=
  classes.countP (fun c => !c.isEmpty)

/-- One mutation of the pairwise loop, with the facts the loop has tested when it performs
it: for a pair `i < j` of non-empty classes, `classes[j]` is eliminated when `right` is
empty, `classes[i]` is eliminated when only `left` is empty, and `classes[j]` is merged into
`classes[i]` when neither is empty and one of the ratios reaches the threshold. -/
inductive Step (t : ℚ) : LoopState α → LoopState α → Prop
  | subsetJ (st : LoopState α) (i j : Nat) (ci cj left right common : List α) :
      i < j → st.classes[i]? = some ci → st.classes[j]? = some cj → ci ≠ [] → cj ≠ [] →
      set_comparison ci cj = (left, right, common) → right = [] →
      Step t st (eliminate st j)
  | subsetI (st : LoopState α) (i j : Nat) (ci cj left right common : List α) :
      i < j → st.classes[i]? = some ci → st.classes[j]? = some cj → ci ≠ [] → cj ≠ [] →
      set_comparison ci cj = (left, right, common) → right ≠ [] → left = [] →
      Step t st (eliminate st i)
  | merge (st : LoopState α) (i j : Nat) (ci cj left right common : List α) :
      i < j → st.classes[i]? = some ci → st.classes[j]? = some cj → ci ≠ [] → cj ≠ [] →
      set_comparison ci cj = (left, right, common) → right ≠ [] → left ≠ [] →
      similar t left right common →
      Step t st (absorb st i j ci cj)

/-- Any number of mutations of the pairwise loop, one after the other. -/
abbrev Steps (t : ℚ) : LoopState α → LoopState α → Prop :=
  Relation.ReflTransGen (Step t)

/-- Number of words of `A` that also occur in `B`. -/
def commonCount (A B : List α) : Nat :=
  (A.filter (fun w => decide (w ∈ B))).length

/-- No pair of non-empty classes `i < j` passes any of the three tests of the inner loop:
`right` and `left` are both non-empty and neither ratio reaches the threshold. -/
def Quiet (t : ℚ) (st : LoopState α) : Prop :=
  ∀ (i j : Nat) (ci cj : List α), i < j →
    st.classes[i]? = some ci → st.classes[j]? = some cj → ci ≠ [] → cj ≠ [] →
    (set_comparison ci cj).2.1 ≠ [] ∧ (set_comparison ci cj).1 ≠ [] ∧
      ¬ similar t (set_comparison ci cj).1 (set_comparison ci cj).2.1
          (set_comparison ci cj).2.2

/-- The tests and the mutation of the inner loop body, applied once to the classes `A` at
index `p` and `B` at index `q`. -/
def pairResult (t : ℚ) (st : LoopState α) (p q : Nat) (A B : List α) : LoopState α :=
  match set_comparison A B with
  | (left, right, common) =>
    if right.isEmpty then eliminate st q
    else if left.isEmpty then eliminate st p
    else if similar t left right common then absorb st p q A B
    else st

/-- Every class is strictly ascending. -/
def AllSorted (st : LoopState α) : Prop :=
  ∀ c ∈ st.classes, c.Sorted (· < ·)

/-- Every class that is not empty has all the words its index had in `first`. -/
def Grown (first : MeaningFamily α) (st : LoopState α) : Prop :=
  ∀ (k : Nat) (c0 c : List α), first[k]? = some c0 → st.classes[k]? = some c → c ≠ [] →
    ∀ w ∈ c0, w ∈ c

/-- The pair of `ca` at the lower and `cb` at the higher index is settled: `cb` is not
contained in `ca`, and when `cb` is still the class `orig` its index started with, `ca` is
not contained in `cb` either and the common words reach the share `t` in neither. -/
def Settled (t : ℚ) (orig : Option (List α)) (ca cb : List α) : Prop :=
  (¬ ∀ w ∈ cb, w ∈ ca) ∧
  (orig = some cb →
    (¬ ∀ w ∈ ca, w ∈ cb) ∧
    ¬ ((commonCount ca cb : ℚ) / (cb.length : ℚ) ≥ t ∨
        (commonCount ca cb : ℚ) / (ca.length : ℚ) ≥ t))

/-- Every pair of non-empty classes `a < b` the loops have left behind when the outer index
is `i` and the inner index is `j` (all pairs with `a < i`, and the pairs with `a = i` and
`b < j`) is settled with respect to the collection `first` the loops started from. -/
def Done (t : ℚ) (first : MeaningFamily α) (i j : Nat) (st : LoopState α) : Prop :=
  ∀ (a b : Nat) (ca cb : List α), a < b → (a < i ∨ (a = i ∧ b < j)) →
    st.classes[a]? = some ca → st.classes[b]? = some cb → ca ≠ [] → cb ≠ [] →
    Settled t first[b]? ca cb

/-- Every class is ascending, equal neighbours allowed. -/
def AllAscending (st : LoopState α) : Prop :=
  ∀ c ∈ st.classes, c.Sorted (· ≤ ·)

/-- Body of the loop over `k` of a merge, for one word of `classes[j]`. -/
def pushWord (acc : List α) (word : α) : List α :=
  if binary_search acc word then acc else sort (acc ++ [word])

/-- The loop over `k` of a merge with an assertion in front of every `binary_search`: the
range searched has to be ascending, otherwise the result is `none`. -/
def mergeWordsChecked (ci cj : List α) : Option (List α) :=
  cj.foldl
    (fun acc word =>
      acc.bind (fun a => if a.Sorted (· ≤ ·) then some (pushWord a word) else none))
    (some ci)

/-- The inner loop with an assertion in front of `set_comparison` (both ranges have to be
ascending) and with the checked loop over `k`; a failed assertion yields `none`. Everything
else is as in `innerLoop`. -/
def innerLoopChecked (t : ℚ) : Nat → Nat → Nat → LoopState α → Option (Nat × LoopState α)
  | 0, _, _, _ => none
  | fuel + 1, i, j, st =>
    if j < st.classes.length then
      match st.classes[i]?, st.classes[j]? with
      | some ci, some cj =>
        if cj.isEmpty then
          innerLoopChecked t fuel i ((j + 1) % UINT_RANGE) st
        else if ci.Sorted (· ≤ ·) ∧ cj.Sorted (· ≤ ·) then
          match set_comparison ci cj with
          | (left, right, common) =>
            if right.isEmpty then
              innerLoopChecked t fuel i ((j + 1) % UINT_RANGE) (eliminate st j)
            else if left.isEmpty then
              some (i, eliminate st i)
            else if similar t left right common then
              match mergeWordsChecked ci cj with
              | some _ => some ((i + UINT_RANGE - 1) % UINT_RANGE, absorb st i j ci cj)
              | none => none
            else
              innerLoopChecked t fuel i ((j + 1) % UINT_RANGE) st
        else none
      | _, _ => none
    else some (i, st)

/-- The outer loop over the checked inner loop. -/
def outerLoopChecked (t : ℚ) : Nat → Nat → LoopState α → Option (LoopState α)
  | 0, _, _ => none
  | fuel + 1, i, st =>
    if i < st.classes.length then
      match st.classes[i]? with
      | none => none
      | some ci =>
        if ci.isEmpty then
          outerLoopChecked t fuel ((i + 1) % UINT_RANGE) st
        else
          match innerLoopChecked t (st.classes.length + 1) i ((i + 1) % UINT_RANGE) st with
          | none => none
          | some (i', st') => outerLoopChecked t fuel ((i' + 1) % UINT_RANGE) st'
    else some st

/-- The function `smallMerge` run over the checked loops. -/
def smallMergeChecked (g : Globals) (classes output : MeaningFamily α) : Option (Result α) :=
  match outerLoopChecked g.SMALLMERGE_RATIO (2 * (phase1 classes).length + 1) 0
      { SUBSETS := 0, MERGES := 0, classes := phase1 classes } with
  | none => none
  | some st =>
    some { globals := { g with SUBSETS := st.SUBSETS, MERGES := st.MERGES },
           classes := st.classes,
           output := output ++ phase3 g.PITHY_FILTER st.classes }

/-- Every class outside the indices `iA` and `iB` is empty, or the threshold is positive and
the class shares no word with `B`. -/
def Bystanders (t : ℚ) (iA iB : Nat) (B : List α) (st : LoopState α) : Prop :=
  ∀ (k : Nat) (c : List α), k ≠ iA → k ≠ iB → st.classes[k]? = some c →
    c = [] ∨ (0 < t ∧ ∀ w ∈ c, w ∉ B)

/-- The classes `A` at `iA` and `B` at `iB` are both still in place, `A` non-empty. -/
def PairLive (iA iB : Nat) (A B : List α) (st : LoopState α) : Prop :=
  st.classes[iA]? = some A ∧ st.classes[iB]? = some B ∧ A ≠ []

/-- One of the indices `iA` and `iB` is empty and the other holds all words of `B`: either
`iA` is empty and `iB` holds `B`, or `iB` is empty and `iA` holds `A`, which then contains
`B`. -/
def PairSettled (iA iB : Nat) (A B : List α) (st : LoopState α) : Prop :=
  (st.classes[iA]? = some [] ∧ st.classes[iB]? = some B) ∨
  (st.classes[iB]? = some [] ∧ st.classes[iA]? = some A ∧ A ≠ [] ∧ ∀ w ∈ B, w ∈ A)

/-! ## Sorting -/

theorem sort_sorted (v : List α) : (sort v).Sorted (· ≤ ·) :=
  List.sorted_insertionSort (· ≤ ·) v

theorem sort_perm (v : List α) : (sort v).Perm v :=
  List.perm_insertionSort (· ≤ ·) v

theorem sort_length (v : List α) : (sort v).length = v.length :=
  (sort_perm v).length_eq

theorem mem_sort {v : List α} {w : α} : w ∈ sort v ↔ w ∈ v :=
  (sort_perm v).mem_iff

theorem sort_eq_self {v : List α} (h : v.Sorted (· ≤ ·)) : sort v = v :=
  List.Sorted.insertionSort_eq h

theorem sort_nil : sort ([] : List α) = [] := rfl

theorem sort_eq_nil {v : List α} : sort v = [] ↔ v = [] := by
  constructor
  · intro h
    have := sort_length v
    rw [h] at this
    exact List.length_eq_zero.mp this.symm
  · rintro rfl; rfl

theorem normalize_normalize (c : List α) : normalize (normalize c) = normalize c := by
  unfold normalize
  by_cases h : c.length = 2
  · simp [h, sort_nil]
  · have h2 : (sort c).length ≠ 2 := by rw [sort_length]; exact h
    simp only [h, h2, if_false]
    exact sort_eq_self (sort_sorted c)

/-- C9: the first loop is idempotent: running it on its own result changes nothing. -/
theorem phase1_idempotent (classes : MeaningFamily α) :
    phase1 (phase1 classes) = phase1 classes := by
  unfold phase1
  rw [List.map_map]
  exact List.map_congr_left (fun c _ => normalize_normalize c)

/-! ## Rounding to double precision -/

theorem floor_le_roundEven (m : ℚ) : ⌊m⌋ ≤ roundEven m := by
  unfold roundEven
  split <;> omega

theorem roundEven_le_floor_succ (m : ℚ) : roundEven m ≤ ⌊m⌋ + 1 := by
  unfold roundEven
  split <;> omega

theorem roundEven_mono {m₁ m₂ : ℚ} (h : m₁ ≤ m₂) : roundEven m₁ ≤ roundEven m₂ := by
  have hf : ⌊m₁⌋ ≤ ⌊m₂⌋ := Int.floor_mono h
  rcases lt_or_eq_of_le hf with hlt | heq
  · have h1 := roundEven_le_floor_succ m₁
    have h2 := floor_le_roundEven m₂
    omega
  · by_cases hc : 1 < 2 * (m₁ - ⌊m₁⌋) ∨ (2 * (m₁ - ⌊m₁⌋) = 1 ∧ ⌊m₁⌋ % 2 = 1)
    · have hc2 : 1 < 2 * (m₂ - ⌊m₂⌋) ∨ (2 * (m₂ - ⌊m₂⌋) = 1 ∧ ⌊m₂⌋ % 2 = 1) := by
        rw [← heq]
        rcases hc with h1 | ⟨h1, h2⟩
        · left; linarith
        · rcases lt_or_eq_of_le h with h3 | h3
          · left; linarith
          · right; exact ⟨by rw [← h3]; exact h1, h2⟩
      unfold roundEven
      rw [if_pos hc, if_pos hc2, heq]
    · have h2 := floor_le_roundEven m₂
      unfold roundEven at h2 ⊢
      rw [if_neg hc]
      omega

theorem le_roundEven {z : ℤ} {m : ℚ} (h : (z : ℚ) ≤ m) : z ≤ roundEven m :=
  le_trans (Int.le_floor.mpr h) (floor_le_roundEven m)

theorem roundEven_le {z : ℤ} {m : ℚ} (h : m ≤ (z : ℚ)) : roundEven m ≤ z := by
  rcases lt_or_eq_of_le h with hlt | heq
  · have : ⌊m⌋ < z := Int.floor_lt.mpr hlt
    have := roundEven_le_floor_succ m
    omega
  · subst heq
    unfold roundEven
    rw [if_neg (by simp)]
    simp

theorem scaled_bounds {q : ℚ} (hq : 0 < q) :
    (2 : ℚ) ^ (52 : ℤ) ≤ q / (2 : ℚ) ^ (Int.log 2 q - 52) ∧
      q / (2 : ℚ) ^ (Int.log 2 q - 52) ≤ (2 : ℚ) ^ (53 : ℤ) := by
  have h1 : ((2 : ℕ) : ℚ) ^ Int.log 2 q ≤ q := Int.zpow_log_le_self (by norm_num) hq
  have h2 : q < ((2 : ℕ) : ℚ) ^ (Int.log 2 q + 1) := Int.lt_zpow_succ_log_self (by norm_num) q
  have hpos : (0 : ℚ) < (2 : ℚ) ^ (Int.log 2 q - 52) := zpow_pos (by norm_num) _
  simp only [Nat.cast_ofNat] at h1 h2
  constructor
  · rw [le_div_iff₀ hpos, ← zpow_add₀ (by norm_num : (2 : ℚ) ≠ 0)]
    have : (52 : ℤ) + (Int.log 2 q - 52) = Int.log 2 q := by ring
    rw [this]
    exact h1
  · rw [div_le_iff₀ hpos, ← zpow_add₀ (by norm_num : (2 : ℚ) ≠ 0)]
    have : (53 : ℤ) + (Int.log 2 q - 52) = Int.log 2 q + 1 := by ring
    rw [this]
    exact le_of_lt h2

theorem toDouble_zero : toDouble 0 = 0 := by
  unfold toDouble
  rw [if_pos rfl]

theorem toDouble_of_pos {q : ℚ} (hq : 0 < q) :
    toDouble q = (roundEven (q / (2 : ℚ) ^ (Int.log 2 q - 52)) : ℚ)
      * (2 : ℚ) ^ (Int.log 2 q - 52) := by
  unfold toDouble
  rw [if_neg (ne_of_gt hq), if_neg (not_lt.mpr (le_of_lt hq)), abs_of_pos hq, one_mul]

theorem toDouble_bounds {q : ℚ} (hq : 0 < q) :
    (2 : ℚ) ^ Int.log 2 q ≤ toDouble q ∧ toDouble q ≤ (2 : ℚ) ^ (Int.log 2 q + 1) := by
  obtain ⟨h1, h2⟩ := scaled_bounds hq
  have hpos : (0 : ℚ) < (2 : ℚ) ^ (Int.log 2 q - 52) := zpow_pos (by norm_num) _
  have e1 : (2 : ℚ) ^ (52 : ℤ) = (((2 : ℤ) ^ 52 : ℤ) : ℚ) := by norm_num
  have e2 : (2 : ℚ) ^ (53 : ℤ) = (((2 : ℤ) ^ 53 : ℤ) : ℚ) := by norm_num
  rw [e1] at h1
  rw [e2] at h2
  have r1 : ((2 : ℤ) ^ 52 : ℤ) ≤ roundEven (q / (2 : ℚ) ^ (Int.log 2 q - 52)) := le_roundEven h1
  have r2 : roundEven (q / (2 : ℚ) ^ (Int.log 2 q - 52)) ≤ ((2 : ℤ) ^ 53 : ℤ) := roundEven_le h2
  have c1 : (((2 : ℤ) ^ 52 : ℤ) : ℚ) ≤ (roundEven (q / (2 : ℚ) ^ (Int.log 2 q - 52)) : ℚ) :=
    Int.cast_le.mpr r1
  have c2 : (roundEven (q / (2 : ℚ) ^ (Int.log 2 q - 52)) : ℚ) ≤ (((2 : ℤ) ^ 53 : ℤ) : ℚ) :=
    Int.cast_le.mpr r2
  rw [← e1] at c1
  rw [← e2] at c2
  rw [toDouble_of_pos hq]
  constructor
  · have : (2 : ℚ) ^ Int.log 2 q = (2 : ℚ) ^ (52 : ℤ) * (2 : ℚ) ^ (Int.log 2 q - 52) := by
      rw [← zpow_add₀ (by norm_num : (2 : ℚ) ≠ 0)]
      congr 1
      ring
    rw [this]
    exact mul_le_mul_of_nonneg_right c1 (le_of_lt hpos)
  · have : (2 : ℚ) ^ (Int.log 2 q + 1) = (2 : ℚ) ^ (53 : ℤ) * (2 : ℚ) ^ (Int.log 2 q - 52) := by
      rw [← zpow_add₀ (by norm_num : (2 : ℚ) ≠ 0)]
      congr 1
      ring
    rw [this]
    exact mul_le_mul_of_nonneg_right c2 (le_of_lt hpos)

theorem toDouble_pos {q : ℚ} (hq : 0 < q) : 0 < toDouble q :=
  lt_of_lt_of_le (zpow_pos (by norm_num) _) (toDouble_bounds hq).1

theorem toDouble_nonneg {q : ℚ} (hq : 0 ≤ q) : 0 ≤ toDouble q := by
  rcases lt_or_eq_of_le hq with h | h
  · exact le_of_lt (toDouble_pos h)
  · rw [← h, toDouble_zero]

theorem toDouble_neg (q : ℚ) : toDouble (-q) = -toDouble q := by
  unfold toDouble
  by_cases h0 : q = 0
  · simp [h0]
  · have h0' : -q ≠ 0 := neg_ne_zero.mpr h0
    rw [if_neg h0, if_neg h0', abs_neg]
    rcases lt_or_gt_of_ne h0 with h | h
    · rw [if_pos h, if_neg (by linarith : ¬ -q < 0)]
      ring
    · rw [if_neg (by linarith : ¬ q < 0), if_pos (by linarith : -q < 0)]
      ring

theorem toDouble_nonpos {q : ℚ} (hq : q ≤ 0) : toDouble q ≤ 0 := by
  have := toDouble_nonneg (q := -q) (by linarith)
  rw [toDouble_neg] at this
  linarith

theorem toDouble_mono_pos {q₁ q₂ : ℚ} (h₁ : 0 < q₁) (h : q₁ ≤ q₂) :
    toDouble q₁ ≤ toDouble q₂ := by
  have h₂ : 0 < q₂ := lt_of_lt_of_le h₁ h
  have hlog : Int.log 2 q₁ ≤ Int.log 2 q₂ := Int.log_mono_right h₁ h
  rcases lt_or_eq_of_le hlog with hlt | heq
  · have b1 := (toDouble_bounds h₁).2
    have b2 := (toDouble_bounds h₂).1
    have : (2 : ℚ) ^ (Int.log 2 q₁ + 1) ≤ (2 : ℚ) ^ Int.log 2 q₂ :=
      zpow_le_zpow_right₀ (by norm_num) (by omega)
    linarith
  · rw [toDouble_of_pos h₁, toDouble_of_pos h₂, heq]
    have hpos : (0 : ℚ) < (2 : ℚ) ^ (Int.log 2 q₂ - 52) := zpow_pos (by norm_num) _
    apply mul_le_mul_of_nonneg_right _ (le_of_lt hpos)
    exact Int.cast_le.mpr (roundEven_mono (div_le_div_of_nonneg_right h (le_of_lt hpos)))

/-- Rounding keeps the order between any number and a non-negative one above it. -/
theorem toDouble_le_of_le {t q : ℚ} (hq : 0 ≤ q) (h : t ≤ q) : toDouble t ≤ toDouble q := by
  rcases le_or_lt t 0 with ht | ht
  · exact le_trans (toDouble_nonpos ht) (toDouble_nonneg hq)
  · exact toDouble_mono_pos ht h

/-! ## The comparison scan -/

theorem scan_lengths : ∀ (fuel : Nat) (l r : List α), l.length + r.length ≤ fuel →
    (set_comparison_scan fuel l r).2.2.length + (set_comparison_scan fuel l r).1.length
        = l.length ∧
    (set_comparison_scan fuel l r).2.2.length + (set_comparison_scan fuel l r).2.1.length
        = r.length := by
  intro fuel
  induction fuel with
  | zero =>
    intro l r h
    have hl : l = [] := List.length_eq_zero.mp (by omega)
    have hr : r = [] := List.length_eq_zero.mp (by omega)
    subst hl; subst hr
    simp [set_comparison_scan]
  | succ fuel ih =>
    intro l r h
    cases l with
    | nil => simp [set_comparison_scan]
    | cons x l =>
      cases r with
      | nil => simp [set_comparison_scan]
      | cons y r =>
        simp only [List.length_cons] at h
        unfold set_comparison_scan
        by_cases hxy : x < y
        · have := ih l (y :: r) (by simp only [List.length_cons]; omega)
          rcases hrec : set_comparison_scan fuel l (y :: r) with ⟨a, b, c⟩
          rw [hrec] at this
          simp only [hxy, if_true, List.length_cons] at this ⊢
          omega
        · by_cases hyx : y < x
          · have := ih (x :: l) r (by simp only [List.length_cons]; omega)
            rcases hrec : set_comparison_scan fuel (x :: l) r with ⟨a, b, c⟩
            rw [hrec] at this
            simp only [hxy, hyx, if_true, if_false, List.length_cons] at this ⊢
            omega
          · have := ih l r (by omega)
            rcases hrec : set_comparison_scan fuel l r with ⟨a, b, c⟩
            rw [hrec] at this
            simp only [hxy, hyx, if_false, List.length_cons] at this ⊢
            omega

theorem scan_eq_filter : ∀ (fuel : Nat) (l r : List α), l.length + r.length ≤ fuel →
    l.Sorted (· < ·) → r.Sorted (· < ·) →
    set_comparison_scan fuel l r =
      (l.filter (fun w => decide (w ∉ r)), r.filter (fun w => decide (w ∉ l)),
        l.filter (fun w => decide (w ∈ r))) := by
  intro fuel
  induction fuel with
  | zero =>
    intro l r h _ _
    have hl : l = [] := List.length_eq_zero.mp (by omega)
    have hr : r = [] := List.length_eq_zero.mp (by omega)
    subst hl; subst hr
    simp [set_comparison_scan]
  | succ fuel ih =>
    intro l r h hl hr
    cases l with
    | nil => simp [set_comparison_scan]
    | cons x l =>
      cases r with
      | nil => simp [set_comparison_scan]
      | cons y r =>
        simp only [List.length_cons] at h
        have hxl : ∀ w ∈ l, x < w := List.rel_of_sorted_cons hl
        have hyr : ∀ w ∈ r, y < w := List.rel_of_sorted_cons hr
        have hl' : l.Sorted (· < ·) := hl.of_cons
        have hr' : r.Sorted (· < ·) := hr.of_cons
        unfold set_comparison_scan
        by_cases hxy : x < y
        · rw [ih l (y :: r) (by simp only [List.length_cons]; omega) hl' hr]
          have hx : x ∉ y :: r := by
            intro hm
            rcases List.mem_cons.mp hm with h1 | h1
            · exact absurd (h1 ▸ hxy) (lt_irrefl _)
            · exact absurd (lt_trans hxy (hyr x h1)) (lt_irrefl _)
          simp only [hxy, if_true]
          refine Prod.ext ?_ (Prod.ext ?_ ?_)
          · exact (List.filter_cons_of_pos (p := fun w => decide (w ∉ y :: r))
              (by simpa using hx)).symm
          · apply List.filter_congr
            intro w hw
            have hne : w ≠ x := by
              rintro rfl
              exact hx hw
            simp [hne]
          · exact (List.filter_cons_of_neg (p := fun w => decide (w ∈ y :: r))
              (by simpa using hx)).symm
        · by_cases hyx : y < x
          · rw [ih (x :: l) r (by simp only [List.length_cons]; omega) hl hr']
            have hy : y ∉ x :: l := by
              intro hm
              rcases List.mem_cons.mp hm with h1 | h1
              · exact absurd (h1 ▸ hyx) (lt_irrefl _)
              · exact absurd (lt_trans hyx (hxl y h1)) (lt_irrefl _)
            simp only [hxy, hyx, if_true, if_false]
            refine Prod.ext ?_ (Prod.ext ?_ ?_)
            · apply List.filter_congr
              intro w hw
              have hne : w ≠ y := by
                rintro rfl
                exact hy hw
              simp [hne]
            · exact (List.filter_cons_of_pos (p := fun w => decide (w ∉ x :: l))
                (by simpa using hy)).symm
            · apply List.filter_congr
              intro w hw
              have hne : w ≠ y := by
                rintro rfl
                exact hy hw
              simp [hne]
          · have hxe : x = y := le_antisymm (not_lt.mp hyx) (not_lt.mp hxy)
            subst hxe
            rw [ih l r (by omega) hl' hr']
            have hxl' : x ∉ l := fun hm => absurd (hxl x hm) (lt_irrefl _)
            have hxr' : x ∉ r := fun hm => absurd (hyr x hm) (lt_irrefl _)
            simp only [hxy, if_false]
            refine Prod.ext ?_ (Prod.ext ?_ ?_)
            · rw [List.filter_cons_of_neg (p := fun w => decide (w ∉ x :: r)) (by simp)]
              apply List.filter_congr
              intro w hw
              have hne : w ≠ x := by
                rintro rfl
                exact hxl' hw
              simp [hne]
            · rw [List.filter_cons_of_neg (p := fun w => decide (w ∉ x :: l)) (by simp)]
              apply List.filter_congr
              intro w hw
              have hne : w ≠ x := by
                rintro rfl
                exact hxr' hw
              simp [hne]
            · rw [List.filter_cons_of_pos (p := fun w => decide (w ∈ x :: r)) (by simp)]
              show x :: List.filter (fun w => decide (w ∈ r)) l
                = x :: List.filter (fun w => decide (w ∈ x :: r)) l
              congr 1
              apply List.filter_congr
              intro w hw
              have hne : w ≠ x := by
                rintro rfl
                exact hxl' hw
              simp [hne]

/-! ## Binary search -/

theorem sorted_getElem_le {v : List α} (hv : v.Sorted (· ≤ ·)) {a b : Nat}
    (ha : a < v.length) (hb : b < v.length) (hab : a ≤ b) : v[a] ≤ v[b] := by
  rcases Nat.eq_or_lt_of_le hab with h | h
  · subst h; exact le_refl _
  · exact List.pairwise_iff_getElem.mp hv a b ha hb h

theorem lower_bound_spec {v : List α} (hv : v.Sorted (· ≤ ·)) (value : α) :
    ∀ (fuel first count : Nat), count ≤ fuel → first + count ≤ v.length →
      (∀ k (hk : k < v.length), k < first → v[k] < value) →
      (∀ k (hk : k < v.length), first + count ≤ k → value ≤ v[k]) →
      lower_bound fuel v value first count ≤ v.length ∧
      (∀ k (hk : k < v.length), k < lower_bound fuel v value first count → v[k] < value) ∧
      (∀ k (hk : k < v.length), lower_bound fuel v value first count ≤ k → value ≤ v[k]) := by
  intro fuel
  induction fuel with
  | zero =>
    intro first count hc hlen hlo hhi
    have : count = 0 := by omega
    subst this
    exact ⟨by simpa [lower_bound] using hlen, fun k hk h => hlo k hk (by simpa [lower_bound] using h),
      fun k hk h => hhi k hk (by simpa [lower_bound] using h)⟩
  | succ fuel ih =>
    intro first count hc hlen hlo hhi
    unfold lower_bound
    by_cases hpos : 0 < count
    · have hmid : first + count / 2 < v.length := by
        have : count / 2 < count := Nat.div_lt_self hpos (by decide)
        omega
      simp only [hpos, if_true, List.getElem?_eq_getElem hmid]
      by_cases hlt : v[first + count / 2] < value
      · simp only [hlt, if_true]
        apply ih
        · omega
        · have : count / 2 < count := Nat.div_lt_self hpos (by decide)
          omega
        · intro k hk hk'
          exact lt_of_le_of_lt (sorted_getElem_le hv hk hmid (by omega)) hlt
        · intro k hk hk'
          apply hhi k hk
          have : count / 2 < count := Nat.div_lt_self hpos (by decide)
          omega
      · simp only [hlt, if_false]
        apply ih
        · have : count / 2 < count := Nat.div_lt_self hpos (by decide)
          omega
        · omega
        · exact hlo
        · intro k hk hk'
          exact le_trans (not_lt.mp hlt) (sorted_getElem_le hv hmid hk hk')
    · have : count = 0 := by omega
      subst this
      simp only [lt_irrefl, if_false]
      exact ⟨by omega, hlo, fun k hk h => hhi k hk (by omega)⟩

theorem binary_search_iff {v : List α} (hv : v.Sorted (· ≤ ·)) (value : α) :
    binary_search v value = true ↔ value ∈ v := by
  obtain ⟨hle, hlo, hhi⟩ := lower_bound_spec hv value v.length 0 v.length (le_refl _)
    (by omega) (fun k _ h => absurd h (Nat.not_lt_zero k)) (fun k hk h => by omega)
  unfold binary_search
  constructor
  · intro h
    by_cases hr : lower_bound v.length v value 0 v.length < v.length
    · rw [List.getElem?_eq_getElem hr] at h
      simp only [Bool.not_eq_true', decide_eq_false_iff_not, not_lt] at h
      have := le_antisymm h (hhi _ hr (le_refl _))
      exact this ▸ List.getElem_mem hr
    · rw [List.getElem?_eq_none (by omega)] at h
      exact absurd h (by simp)
  · intro h
    obtain ⟨k, hk, rfl⟩ := List.mem_iff_getElem.mp h
    have hrk : lower_bound v.length v v[k] 0 v.length ≤ k := by
      by_contra hcon
      exact absurd (hlo k hk (by omega)) (lt_irrefl _)
    have hr : lower_bound v.length v v[k] 0 v.length < v.length := by omega
    rw [List.getElem?_eq_getElem hr]
    simp only [Bool.not_eq_true', decide_eq_false_iff_not, not_lt]
    exact sorted_getElem_le hv hr hk hrk

theorem binary_search_eq_false {v : List α} (hv : v.Sorted (· ≤ ·)) (value : α) :
    binary_search v value = false ↔ value ∉ v := by
  rw [← binary_search_iff hv value]
  simp

/-! ## The merge of `classes[j]` into `classes[i]` -/

theorem sorted_lt_push {acc : List α} (hacc : acc.Sorted (· < ·)) {w : α} (hw : w ∉ acc) :
    (sort (acc ++ [w])).Sorted (· < ·) := by
  apply (sort_sorted _).lt_of_le
  apply (sort_perm _).nodup_iff.mpr
  rw [List.nodup_append]
  refine ⟨hacc.nodup, List.nodup_singleton w, ?_⟩
  intro a ha hb
  rw [List.mem_singleton] at hb
  exact hw (hb ▸ ha)

theorem mergeWords_nil (ci : List α) : mergeWords ci [] = ci := rfl

theorem mergeWords_cons (ci cj : List α) (x : α) :
    mergeWords ci (x :: cj)
      = mergeWords (if binary_search ci x then ci else sort (ci ++ [x])) cj := rfl

theorem mergeWords_spec : ∀ (cj ci : List α), ci.Sorted (· < ·) →
    (mergeWords ci cj).Sorted (· < ·) ∧ ∀ w, w ∈ mergeWords ci cj ↔ w ∈ ci ∨ w ∈ cj := by
  intro cj
  induction cj with
  | nil =>
    intro ci hci
    simp [mergeWords_nil, hci]
  | cons x cj ih =>
    intro ci hci
    rw [mergeWords_cons]
    by_cases hx : binary_search ci x = true
    · have hmem : x ∈ ci := (binary_search_iff hci.le_of_lt x).mp hx
      rw [if_pos hx]
      obtain ⟨h1, h2⟩ := ih ci hci
      refine ⟨h1, fun w => ?_⟩
      rw [h2 w, List.mem_cons]
      constructor
      · rintro (h | h)
        · exact Or.inl h
        · exact Or.inr (Or.inr h)
      · rintro (h | h | h)
        · exact Or.inl h
        · exact Or.inl (h ▸ hmem)
        · exact Or.inr h
    · have hmem : x ∉ ci := fun hm => hx ((binary_search_iff hci.le_of_lt x).mpr hm)
      rw [if_neg hx]
      obtain ⟨h1, h2⟩ := ih (sort (ci ++ [x])) (sorted_lt_push hci hmem)
      refine ⟨h1, fun w => ?_⟩
      rw [h2 w, mem_sort, List.mem_append, List.mem_singleton, List.mem_cons]
      tauto

theorem mergeWords_ne_nil : ∀ (cj ci : List α), ci ≠ [] → mergeWords ci cj ≠ [] := by
  intro cj
  induction cj with
  | nil => intro ci h; exact h
  | cons x cj ih =>
    intro ci h
    rw [mergeWords_cons]
    apply ih
    by_cases hx : binary_search ci x = true
    · rw [if_pos hx]; exact h
    · rw [if_neg hx]
      intro hs
      have := sort_eq_nil.mp hs
      simp at this

/-! ## The comparison of two sorted classes -/

theorem set_comparison_eq {l r : List α} (hl : l.Sorted (· < ·)) (hr : r.Sorted (· < ·)) :
    set_comparison l r =
      (l.filter (fun w => decide (w ∉ r)), r.filter (fun w => decide (w ∉ l)),
        l.filter (fun w => decide (w ∈ r))) :=
  scan_eq_filter _ l r (le_refl _) hl hr

theorem set_comparison_lengths (l r : List α) :
    (set_comparison l r).2.2.length + (set_comparison l r).1.length = l.length ∧
    (set_comparison l r).2.2.length + (set_comparison l r).2.1.length = r.length :=
  scan_lengths _ l r (le_refl _)

theorem set_comparison_right_nil {l r : List α} (hl : l.Sorted (· < ·))
    (hr : r.Sorted (· < ·)) : (set_comparison l r).2.1 = [] ↔ ∀ w ∈ r, w ∈ l := by
  rw [set_comparison_eq hl hr]
  simp [List.filter_eq_nil_iff]

theorem set_comparison_left_nil {l r : List α} (hl : l.Sorted (· < ·))
    (hr : r.Sorted (· < ·)) : (set_comparison l r).1 = [] ↔ ∀ w ∈ l, w ∈ r := by
  rw [set_comparison_eq hl hr]
  simp [List.filter_eq_nil_iff]

theorem scan_disjoint : ∀ (fuel : Nat) (l r : List α), l.length + r.length ≤ fuel →
    (∀ w ∈ l, w ∉ r) → set_comparison_scan fuel l r = (l, r, []) := by
  intro fuel
  induction fuel with
  | zero =>
    intro l r _ _
    rfl
  | succ fuel ih =>
    intro l r h hd
    cases l with
    | nil => rfl
    | cons x l =>
      cases r with
      | nil => rfl
      | cons y r =>
        simp only [List.length_cons] at h
        have hne : x ≠ y := by
          rintro rfl
          exact hd x (List.mem_cons_self _ _) (List.mem_cons_self _ _)
        unfold set_comparison_scan
        by_cases hxy : x < y
        · rw [if_pos hxy, ih l (y :: r) (by simp only [List.length_cons]; omega)
            (fun w hw => hd w (List.mem_cons_of_mem _ hw))]
        · have hyx : y < x := lt_of_le_of_ne (not_lt.mp hxy) (Ne.symm hne)
          rw [if_neg hxy, if_pos hyx, ih (x :: l) r (by simp only [List.length_cons]; omega)
            (fun w hw hr => hd w hw (List.mem_cons_of_mem _ hr))]

theorem set_comparison_disjoint {l r : List α} (hd : ∀ w ∈ l, w ∉ r) :
    set_comparison l r = (l, r, []) :=
  scan_disjoint _ l r (le_refl _) hd

/-! ## Proof rules for the two loops -/

theorem uint_succ {j n : Nat} (hn : n < UINT_RANGE) (hj : j < n) :
    (j + 1) % UINT_RANGE = j + 1 :=
  Nat.mod_eq_of_lt (by omega)

theorem uint_pred_succ {i : Nat} (hi : i < UINT_RANGE) :
    ((i + UINT_RANGE - 1) % UINT_RANGE + 1) % UINT_RANGE = i := by
  unfold UINT_RANGE at *
  omega

theorem eliminate_length (st : LoopState α) (k : Nat) :
    (eliminate st k).classes.length = st.classes.length := by
  simp [eliminate]

theorem absorb_length (st : LoopState α) (i j : Nat) (ci cj : List α) :
    (absorb st i j ci cj).classes.length = st.classes.length := by
  simp [absorb]

/-- Total-correctness rule for the inner loop at a fixed `i`: `Q j st` is the invariant at
the loop head, `R` the condition on leaving the loop. -/
theorem innerLoop_rule (t : ℚ) (n i : Nat) (hn : n < UINT_RANGE) (hi : i < n)
    (Q : Nat → LoopState α → Prop) (R : Nat × LoopState α → Prop)
    (hlen : ∀ j st, Q j st → st.classes.length = n)
    (hskip : ∀ j st, Q j st → i < j → j < n → st.classes[j]? = some [] → Q (j + 1) st)
    (hsubJ : ∀ j st ci cj left right common, Q j st → i < j → j < n →
      st.classes[i]? = some ci → st.classes[j]? = some cj → cj ≠ [] →
      set_comparison ci cj = (left, right, common) → right = [] →
      Q (j + 1) (eliminate st j))
    (hsubI : ∀ j st ci cj left right common, Q j st → i < j → j < n →
      st.classes[i]? = some ci → st.classes[j]? = some cj → cj ≠ [] →
      set_comparison ci cj = (left, right, common) → right ≠ [] → left = [] →
      R (i, eliminate st i))
    (hmerge : ∀ j st ci cj left right common, Q j st → i < j → j < n →
      st.classes[i]? = some ci → st.classes[j]? = some cj → cj ≠ [] →
      set_comparison ci cj = (left, right, common) → right ≠ [] → left ≠ [] →
      similar t left right common →
      R ((i + UINT_RANGE - 1) % UINT_RANGE, absorb st i j ci cj))
    (hnext : ∀ j st ci cj left right common, Q j st → i < j → j < n →
      st.classes[i]? = some ci → st.classes[j]? = some cj → cj ≠ [] →
      set_comparison ci cj = (left, right, common) → right ≠ [] → left ≠ [] →
      ¬ similar t left right common → Q (j + 1) st)
    (hexit : ∀ st, Q n st → R (i, st)) :
    ∀ (fuel j : Nat) (st : LoopState α), i < j → j ≤ n → n < fuel + j → Q j st →
      ∃ r, innerLoop t fuel i j st = some r ∧ R r := by
  intro fuel
  induction fuel with
  | zero =>
    intro j st _ hjn hf _
    omega
  | succ fuel ih =>
    intro j st hij hjn hf hQ
    have hl := hlen j st hQ
    unfold innerLoop
    by_cases hj : j < n
    · have hi' : i < st.classes.length := by omega
      have hj' : j < st.classes.length := by omega
      rw [if_pos hj', List.getElem?_eq_getElem hi', List.getElem?_eq_getElem hj',
        uint_succ hn hj]
      simp only []
      have hci := List.getElem?_eq_getElem hi'
      have hcj := List.getElem?_eq_getElem hj'
      by_cases hcje : st.classes[j].isEmpty = true
      · rw [if_pos hcje]
        have : st.classes[j] = [] := List.isEmpty_iff.mp hcje
        exact ih (j + 1) st (by omega) (by omega) (by omega)
          (hskip j st hQ hij hj (this ▸ hcj))
      · rw [if_neg hcje]
        have hcjne : st.classes[j] ≠ [] := fun h => hcje (List.isEmpty_iff.mpr h)
        rcases hsc : set_comparison st.classes[i] st.classes[j] with ⟨left, right, common⟩
        simp only []
        by_cases hr : right.isEmpty = true
        · rw [if_pos hr]
          exact ih (j + 1) _ (by omega) (by omega) (by omega)
            (hsubJ j st _ _ left right common hQ hij hj hci hcj hcjne hsc
              (List.isEmpty_iff.mp hr))
        · rw [if_neg hr]
          have hrne : right ≠ [] := fun h => hr (List.isEmpty_iff.mpr h)
          by_cases hle : left.isEmpty = true
          · rw [if_pos hle]
            exact ⟨_, rfl, hsubI j st _ _ left right common hQ hij hj hci hcj hcjne hsc hrne
              (List.isEmpty_iff.mp hle)⟩
          · rw [if_neg hle]
            have hlne : left ≠ [] := fun h => hle (List.isEmpty_iff.mpr h)
            by_cases hs : similar t left right common
            · rw [if_pos hs]
              exact ⟨_, rfl, hmerge j st _ _ left right common hQ hij hj hci hcj hcjne hsc
                hrne hlne hs⟩
            · rw [if_neg hs]
              exact ih (j + 1) st (by omega) (by omega) (by omega)
                (hnext j st _ _ left right common hQ hij hj hci hcj hcjne hsc hrne hlne hs)
    · have hjn' : j = n := by omega
      subst hjn'
      rw [if_neg (by omega)]
      exact ⟨_, rfl, hexit st hQ⟩

/-! ## Mutations of the pairwise loop -/

theorem nonEmptyCount_set_nil {classes : MeaningFamily α} {k : Nat} {c : List α}
    (hk : classes[k]? = some c) (hc : c ≠ []) :
    nonEmptyCount (classes.set k []) + 1 = nonEmptyCount classes := by
  obtain ⟨hlt, hget⟩ := List.getElem?_eq_some.mp hk
  unfold nonEmptyCount
  rw [List.countP_set _ _ _ _ hlt, hget]
  have hpos : 0 < List.countP (fun c : List α => !c.isEmpty) classes := by
    apply List.countP_pos_iff.mpr
    exact ⟨c, hget ▸ List.getElem_mem hlt, by simpa using hc⟩
  have h1 : (!c.isEmpty) = true := by simpa using hc
  simp only [h1, if_true, List.isEmpty_nil, Bool.not_true, Bool.false_eq_true, if_false]
  omega

theorem nonEmptyCount_set_keep {classes : MeaningFamily α} {k : Nat} {c c' : List α}
    (hk : classes[k]? = some c) (hc : c ≠ []) (hc' : c' ≠ []) :
    nonEmptyCount (classes.set k c') = nonEmptyCount classes := by
  obtain ⟨hlt, hget⟩ := List.getElem?_eq_some.mp hk
  unfold nonEmptyCount
  rw [List.countP_set _ _ _ _ hlt, hget]
  have hpos : 0 < List.countP (fun c : List α => !c.isEmpty) classes := by
    apply List.countP_pos_iff.mpr
    exact ⟨c, hget ▸ List.getElem_mem hlt, by simpa using hc⟩
  have h1 : (!c.isEmpty) = true := by simpa using hc
  have h2 : (!c'.isEmpty) = true := by simpa using hc'
  simp only [h1, h2, if_true]
  omega

theorem step_length_eq {t : ℚ} {st st' : LoopState α} (h : Step t st st') :
    st'.classes.length = st.classes.length := by
  cases h <;> simp [eliminate, absorb]

theorem step_nonEmptyCount_succ {t : ℚ} {st st' : LoopState α} (h : Step t st st') :
    nonEmptyCount st'.classes + 1 = nonEmptyCount st.classes := by
  cases h with
  | subsetJ i j ci cj left right common hij hci hcj hcin hcjn hsc hr =>
    exact nonEmptyCount_set_nil hcj hcjn
  | subsetI i j ci cj left right common hij hci hcj hcin hcjn hsc hr hl =>
    exact nonEmptyCount_set_nil hci hcin
  | merge i j ci cj left right common hij hci hcj hcin hcjn hsc hr hl hs =>
    have h1 : (st.classes.set i (mergeWords ci cj))[j]? = some cj := by
      rw [List.getElem?_set_ne (by omega)]; exact hcj
    have := nonEmptyCount_set_nil h1 hcjn
    rw [nonEmptyCount_set_keep hci hcin (mergeWords_ne_nil cj ci hcin)] at this
    exact this

theorem steps_length_eq {t : ℚ} {st st' : LoopState α} (h : Steps t st st') :
    st'.classes.length = st.classes.length := by
  induction h with
  | refl => rfl
  | tail _ hs ih => rw [step_length_eq hs, ih]

theorem steps_nonEmptyCount_le {t : ℚ} {st st' : LoopState α} (h : Steps t st st') :
    nonEmptyCount st'.classes ≤ nonEmptyCount st.classes := by
  induction h with
  | refl => exact le_refl _
  | tail _ hs ih => have := step_nonEmptyCount_succ hs; omega

/-- The inner loop for a non-empty `classes[i]` always leaves with a state reached by
mutations of the loop; it leaves with `i` unchanged or, after a merge, with `i`
decremented. -/
theorem innerLoop_steps (t : ℚ) {n i : Nat} (hn : n < UINT_RANGE) (hi : i < n)
    {st : LoopState α} (hlen : st.classes.length = n) {ci : List α}
    (hci : st.classes[i]? = some ci) (hne : ci ≠ []) :
    ∃ r, innerLoop t (n + 1) i (i + 1) st = some r ∧ Steps t st r.2 ∧
      (r.1 = i ∨ (r.1 = (i + UINT_RANGE - 1) % UINT_RANGE ∧
        nonEmptyCount r.2.classes < nonEmptyCount st.classes)) := by
  apply innerLoop_rule t n i hn hi
    (fun _ s => s.classes.length = n ∧ s.classes[i]? = some ci ∧ Steps t st s)
    (fun r => Steps t st r.2 ∧
      (r.1 = i ∨ (r.1 = (i + UINT_RANGE - 1) % UINT_RANGE ∧
        nonEmptyCount r.2.classes < nonEmptyCount st.classes)))
  · intro j s h; exact h.1
  · intro j s h _ _ _; exact h
  · intro j s ci' cj left right common ⟨h1, h2, h3⟩ hij hj hci' hcj hcjn hsc hr
    have hce : ci' = ci := Option.some.inj (hci'.symm.trans h2)
    subst hce
    refine ⟨by rw [eliminate_length]; exact h1, ?_, ?_⟩
    · show (s.classes.set j [])[i]? = some ci'
      rw [List.getElem?_set_ne (by omega)]; exact h2
    · exact h3.tail (Step.subsetJ s i j ci' cj left right common hij hci' hcj hne hcjn hsc hr)
  · intro j s ci' cj left right common ⟨h1, h2, h3⟩ hij hj hci' hcj hcjn hsc hr hl
    have hce : ci' = ci := Option.some.inj (hci'.symm.trans h2)
    subst hce
    exact ⟨h3.tail (Step.subsetI s i j ci' cj left right common hij hci' hcj hne hcjn hsc
      hr hl), Or.inl rfl⟩
  · intro j s ci' cj left right common ⟨h1, h2, h3⟩ hij hj hci' hcj hcjn hsc hr hl hs
    have hce : ci' = ci := Option.some.inj (hci'.symm.trans h2)
    subst hce
    have hstep := Step.merge s i j ci' cj left right common hij hci' hcj hne hcjn hsc hr hl hs
    refine ⟨h3.tail hstep, Or.inr ⟨rfl, ?_⟩⟩
    have := step_nonEmptyCount_succ hstep
    have := steps_nonEmptyCount_le h3
    show nonEmptyCount (absorb s i j ci' cj).classes < nonEmptyCount st.classes
    omega
  · intro j s ci' cj left right common h _ _ _ _ _ _ _ _ _; exact h
  · intro s h; exact ⟨h.2.2, Or.inl rfl⟩
  · omega
  · omega
  · omega
  · exact ⟨hlen, hci, Relation.ReflTransGen.refl⟩

/-- Total-correctness rule for the outer loop: `I i st` is the invariant at the loop head.
The budget has to exceed the number of non-empty classes plus the indices still to visit. -/
theorem outerLoop_rule (t : ℚ) (n : Nat) (hn : n < UINT_RANGE)
    (I : Nat → LoopState α → Prop)
    (hlen : ∀ i st, I i st → st.classes.length = n)
    (hskip : ∀ i st, I i st → i < n → st.classes[i]? = some [] → I (i + 1) st)
    (hbody : ∀ i st ci r, I i st → i < n → st.classes[i]? = some ci → ci ≠ [] →
      innerLoop t (n + 1) i (i + 1) st = some r → I ((r.1 + 1) % UINT_RANGE) r.2) :
    ∀ (fuel i : Nat) (st : LoopState α), i ≤ n →
      nonEmptyCount st.classes + (n - i) < fuel → I i st →
      ∃ st', outerLoop t fuel i st = some st' ∧ I n st' := by
  intro fuel
  induction fuel with
  | zero => intro i st _ hf _; omega
  | succ fuel ih =>
    intro i st hin hf hI
    have hl := hlen i st hI
    unfold outerLoop
    by_cases hi : i < n
    · have hi' : i < st.classes.length := by omega
      have hci := List.getElem?_eq_getElem hi'
      rw [if_pos hi', hci, uint_succ hn hi, hl]
      simp only []
      by_cases hce : st.classes[i].isEmpty = true
      · rw [if_pos hce]
        have : st.classes[i] = [] := List.isEmpty_iff.mp hce
        exact ih (i + 1) st (by omega) (by omega) (hskip i st hI hi (this ▸ hci))
      · rw [if_neg hce]
        have hne : st.classes[i] ≠ [] := fun h => hce (List.isEmpty_iff.mpr h)
        obtain ⟨r, hr, hsteps, hidx⟩ := innerLoop_steps t hn hi hl hci hne
        have hnext := hbody i st _ r hI hi hci hne hr
        rw [hr]
        simp only []
        have hle := steps_nonEmptyCount_le hsteps
        rcases hidx with h | ⟨h, hlt⟩
        · rw [h, uint_succ hn hi] at hnext ⊢
          exact ih (i + 1) r.2 (by omega) (by omega) hnext
        · rw [h, uint_pred_succ (by omega)] at hnext ⊢
          exact ih i r.2 (by omega) (by omega) hnext
    · have : i = n := by omega
      subst this
      rw [if_neg (by omega)]
      exact ⟨st, rfl, hI⟩

/-! ## The whole pairwise loop -/

theorem nonEmptyCount_le_length (classes : MeaningFamily α) :
    nonEmptyCount classes ≤ classes.length :=
  List.countP_le_length _

/-- The pairwise loop returns for every collection whose size fits the index type, and what
it returns is reached from the initial state by mutations of the loop. -/
theorem phase2_steps (t : ℚ) (classes : MeaningFamily α) (hsize : classes.length < UINT_RANGE) :
    ∃ st, phase2 t classes = some st ∧
      Steps t { SUBSETS := 0, MERGES := 0, classes := classes } st := by
  have := outerLoop_rule t classes.length hsize
    (fun _ s => s.classes.length = classes.length ∧
      Steps t { SUBSETS := 0, MERGES := 0, classes := classes } s)
    (fun _ _ h => h.1) (fun _ _ h _ _ => h)
    (by
      intro i s ci r ⟨h1, h2⟩ hi hci hne hr
      obtain ⟨r', hr', hs, _⟩ := innerLoop_steps t hsize hi h1 hci hne
      rw [hr] at hr'
      cases hr'
      exact ⟨by rw [steps_length_eq hs, h1], h2.trans hs⟩)
    (2 * classes.length + 1) 0 { SUBSETS := 0, MERGES := 0, classes := classes }
    (Nat.zero_le _)
    (by have := nonEmptyCount_le_length classes; simp only []; omega)
    ⟨rfl, Relation.ReflTransGen.refl⟩
  obtain ⟨st', h1, _, h3⟩ := this
  exact ⟨st', h1, h3⟩

theorem phase1_length (classes : MeaningFamily α) : (phase1 classes).length = classes.length := by
  simp [phase1]

/-- The call returns for every collection whose size fits the index type; the state it
leaves is the one the pairwise loop reaches from the normalised collection, followed by the
filter. -/
theorem smallMerge_eq (g : Globals) (classes output : MeaningFamily α)
    (hsize : classes.length < UINT_RANGE) :
    ∃ st, Steps g.SMALLMERGE_RATIO { SUBSETS := 0, MERGES := 0, classes := phase1 classes } st ∧
      phase2 g.SMALLMERGE_RATIO (phase1 classes) = some st ∧
      smallMerge g classes output =
        some { globals := { g with SUBSETS := st.SUBSETS, MERGES := st.MERGES },
               classes := st.classes,
               output := output ++ phase3 g.PITHY_FILTER st.classes } := by
  obtain ⟨st, h1, h2⟩ := phase2_steps g.SMALLMERGE_RATIO (phase1 classes)
    (by rw [phase1_length]; exact hsize)
  refine ⟨st, h2, h1, ?_⟩
  unfold smallMerge
  rw [h1]

/-- C1: called with an empty `output`, `smallMerge` returns, and `output` is then the list of
the classes of the final collection with more than `PITHY_FILTER` words, in the order of
the collection: a final class of `PITHY_FILTER + 1` words is emitted, a final class of
`PITHY_FILTER` words is not, and neither is an empty one. -/
theorem smallMerge_output_filter (g : Globals) (classes : MeaningFamily α)
    (hsize : classes.length < UINT_RANGE) :
    ∃ r, smallMerge g classes [] = some r ∧
      r.output = r.classes.filter (fun c => decide (g.PITHY_FILTER < c.length)) ∧
      r.output.Sublist r.classes ∧
      (∀ c, c ∈ r.output ↔ c ∈ r.classes ∧ g.PITHY_FILTER < c.length) ∧
      (∀ c ∈ r.classes, c.length = g.PITHY_FILTER + 1 → c ∈ r.output) ∧
      (∀ c ∈ r.output, c.length ≠ g.PITHY_FILTER ∧ c ≠ []) := by
  obtain ⟨st, _, _, h⟩ := smallMerge_eq g classes [] hsize
  refine ⟨_, h, ?_, ?_, ?_, ?_, ?_⟩
  · simp [phase3]
  · simp only [List.nil_append, phase3]
    exact List.filter_sublist _
  · intro c
    simp [phase3]
  · intro c hc hlen
    simp only [List.nil_append, phase3, List.mem_filter, decide_eq_true_eq]
    exact ⟨hc, by omega⟩
  · intro c hc
    simp only [List.nil_append, phase3, List.mem_filter, decide_eq_true_eq] at hc
    refine ⟨by omega, ?_⟩
    rintro rfl
    simp at hc

/-- Instance of `smallMerge_output_filter`: a class of 11 words is emitted under the default
filter of 10, a class of 10 words is not. -/
theorem smallMerge_output_filter_witness :
    ([[1, 2, 3, 4, 5, 6, 7, 8, 9, 10, 11], [1, 2, 3, 4, 5, 6, 7, 8, 9, 10]] :
        MeaningFamily Nat).length < UINT_RANGE ∧
    ∃ r, smallMerge defaults
        [[1, 2, 3, 4, 5, 6, 7, 8, 9, 10, 11], [1, 2, 3, 4, 5, 6, 7, 8, 9, 10]] [] = some r ∧
      r.output = r.classes.filter (fun c => decide (defaults.PITHY_FILTER < c.length)) ∧
      r.output.Sublist r.classes ∧
      (∀ c, c ∈ r.output ↔ c ∈ r.classes ∧ defaults.PITHY_FILTER < c.length) ∧
      (∀ c ∈ r.classes, c.length = defaults.PITHY_FILTER + 1 → c ∈ r.output) ∧
      (∀ c ∈ r.output, c.length ≠ defaults.PITHY_FILTER ∧ c ≠ []) :=
  ⟨by decide, smallMerge_output_filter defaults _ (by decide)⟩

/-! ## Invariants of the mutations -/

theorem mem_eliminate {st : LoopState α} {k : Nat} {c : List α}
    (h : c ∈ (eliminate st k).classes) : c ∈ st.classes ∨ c = [] :=
  List.mem_or_eq_of_mem_set h

theorem mem_absorb {st : LoopState α} {i j : Nat} {ci cj c : List α}
    (h : c ∈ (absorb st i j ci cj).classes) :
    c ∈ st.classes ∨ c = mergeWords ci cj ∨ c = [] := by
  rcases List.mem_or_eq_of_mem_set h with h | h
  · rcases List.mem_or_eq_of_mem_set h with h | h
    · exact Or.inl h
    · exact Or.inr (Or.inl h)
  · exact Or.inr (Or.inr h)

theorem step_sorted {t : ℚ} {st st' : LoopState α} (h : Step t st st')
    (hs : ∀ c ∈ st.classes, c.Sorted (· < ·)) : ∀ c ∈ st'.classes, c.Sorted (· < ·) := by
  cases h with
  | subsetJ i j ci cj left right common hij hci hcj hcin hcjn hsc hr =>
    intro c hc
    rcases mem_eliminate hc with h | h
    · exact hs c h
    · subst h; exact List.sorted_nil
  | subsetI i j ci cj left right common hij hci hcj hcin hcjn hsc hr hl =>
    intro c hc
    rcases mem_eliminate hc with h | h
    · exact hs c h
    · subst h; exact List.sorted_nil
  | merge i j ci cj left right common hij hci hcj hcin hcjn hsc hr hl hsim =>
    intro c hc
    rcases mem_absorb hc with h | h | h
    · exact hs c h
    · subst h
      exact (mergeWords_spec cj ci (hs ci (List.getElem?_mem hci))).1
    · subst h; exact List.sorted_nil

theorem steps_sorted {t : ℚ} {st st' : LoopState α} (h : Steps t st st')
    (hs : ∀ c ∈ st.classes, c.Sorted (· < ·)) : ∀ c ∈ st'.classes, c.Sorted (· < ·) := by
  induction h with
  | refl => exact hs
  | tail _ hstep ih => exact step_sorted hstep ih

theorem normalize_sorted {c : List α} (hc : c.Nodup) : (normalize c).Sorted (· < ·) := by
  unfold normalize
  apply (sort_sorted _).lt_of_le
  apply (sort_perm _).nodup_iff.mpr
  split
  · exact List.nodup_nil
  · exact hc

theorem phase1_sorted {classes : MeaningFamily α} (hd : ∀ c ∈ classes, c.Nodup) :
    ∀ c ∈ phase1 classes, c.Sorted (· < ·) := by
  intro c hc
  obtain ⟨c0, hc0, rfl⟩ := List.mem_map.mp hc
  exact normalize_sorted (hd c0 hc0)

/-- C2: when every input class consists of distinct words, `smallMerge` returns and every
class it appends to `output` is strictly ascending (sorted and free of duplicates) and has
at least `PITHY_FILTER + 1` words. -/
theorem smallMerge_output_sorted (g : Globals) (classes output : MeaningFamily α)
    (hsize : classes.length < UINT_RANGE) (hd : ∀ c ∈ classes, c.Nodup) :
    ∃ r emitted, smallMerge g classes output = some r ∧ r.output = output ++ emitted ∧
      ∀ c ∈ emitted, c.Sorted (· < ·) ∧ c.Nodup ∧ g.PITHY_FILTER + 1 ≤ c.length := by
  obtain ⟨st, hsteps, _, h⟩ := smallMerge_eq g classes output hsize
  refine ⟨_, phase3 g.PITHY_FILTER st.classes, h, rfl, ?_⟩
  intro c hc
  simp only [phase3, List.mem_filter, decide_eq_true_eq] at hc
  have hs := steps_sorted hsteps (phase1_sorted hd) c hc.1
  exact ⟨hs, hs.nodup, hc.2⟩

/-- Instance of `smallMerge_output_sorted` on three classes of distinct words. -/
theorem smallMerge_output_sorted_witness :
    ([["cat", "dog"], ["cat", "feline", "kitty"], ["feline", "kitty", "tabby", "puss"]] :
        MeaningFamily String).length < UINT_RANGE ∧
    (∀ c ∈ ([["cat", "dog"], ["cat", "feline", "kitty"],
        ["feline", "kitty", "tabby", "puss"]] : MeaningFamily String), c.Nodup) ∧
    ∃ r emitted, smallMerge { defaults with PITHY_FILTER := 2 }
        [["cat", "dog"], ["cat", "feline", "kitty"], ["feline", "kitty", "tabby", "puss"]]
        [] = some r ∧ r.output = [] ++ emitted ∧
      ∀ c ∈ emitted, c.Sorted (· < ·) ∧ c.Nodup ∧
        ({ defaults with PITHY_FILTER := 2 } : Globals).PITHY_FILTER + 1 ≤ c.length :=
  ⟨by decide, by decide,
    smallMerge_output_sorted _ _ _ (by decide) (by decide)⟩

theorem getElem?_set_nil_of_nil {classes : MeaningFamily α} {k : Nat} (k' : Nat)
    (h : classes[k]? = some []) : (classes.set k' [])[k]? = some [] := by
  rw [List.getElem?_set]
  split
  · next hkk =>
    subst hkk
    have : k' < classes.length := (List.getElem?_eq_some.mp h).1
    rw [if_pos this]
  · exact h

theorem step_empty_stays {t : ℚ} {st st' : LoopState α} (h : Step t st st') {k : Nat}
    (hk : st.classes[k]? = some []) : st'.classes[k]? = some [] := by
  cases h with
  | subsetJ i j ci cj left right common hij hci hcj hcin hcjn hsc hr =>
    exact getElem?_set_nil_of_nil j hk
  | subsetI i j ci cj left right common hij hci hcj hcin hcjn hsc hr hl =>
    exact getElem?_set_nil_of_nil i hk
  | merge i j ci cj left right common hij hci hcj hcin hcjn hsc hr hl hsim =>
    apply getElem?_set_nil_of_nil j
    have hik : i ≠ k := by
      rintro rfl
      rw [hk] at hci
      exact hcin (Option.some.inj hci).symm
    rw [List.getElem?_set_ne hik]
    exact hk

theorem steps_empty_stays {t : ℚ} {st st' : LoopState α} (h : Steps t st st') {k : Nat}
    (hk : st.classes[k]? = some []) : st'.classes[k]? = some [] := by
  induction h with
  | refl => exact hk
  | tail _ hstep ih => exact step_empty_stays hstep ih

theorem filter_eraseIdx {β : Type} (p : β → Bool) : ∀ (l : List β) (k : Nat) (b : β),
    l[k]? = some b → p b = false → (l.eraseIdx k).filter p = l.filter p := by
  intro l
  induction l with
  | nil => intro k b h; simp at h
  | cons a l ih =>
    intro k b h hp
    cases k with
    | zero =>
      simp only [List.getElem?_cons_zero, Option.some.injEq] at h
      subst h
      simp [List.filter_cons, hp]
    | succ k =>
      simp only [List.getElem?_cons_succ] at h
      simp only [List.eraseIdx_cons_succ, List.filter_cons, ih k b h hp]

/-- C6: a class that has exactly two words on entry is empty in the collection after the
call, and `output` receives exactly what the filter emits from the other indices of the
final collection. -/
theorem smallMerge_two_words (g : Globals) (classes output : MeaningFamily α)
    (hsize : classes.length < UINT_RANGE) (k : Nat) (c : List α)
    (hk : classes[k]? = some c) (hc : c.length = 2) :
    ∃ r, smallMerge g classes output = some r ∧ r.classes[k]? = some [] ∧
      r.output = output ++
        (r.classes.eraseIdx k).filter (fun c => decide (g.PITHY_FILTER < c.length)) := by
  obtain ⟨st, hsteps, _, h⟩ := smallMerge_eq g classes output hsize
  have h0 : (phase1 classes)[k]? = some [] := by
    simp [phase1, List.getElem?_map, hk, normalize, hc, sort_nil]
  have hfin := steps_empty_stays hsteps (k := k) h0
  refine ⟨_, h, hfin, ?_⟩
  show output ++ phase3 g.PITHY_FILTER st.classes = _
  rw [phase3, filter_eraseIdx _ st.classes k [] hfin (by simp)]

/-- Instance of `smallMerge_two_words`: the class `cat, dog` at index 0. -/
theorem smallMerge_two_words_witness :
    ([["cat", "dog"], ["cat", "feline", "kitty"], ["feline", "kitty", "tabby", "puss"]] :
        MeaningFamily String).length < UINT_RANGE ∧
    ([["cat", "dog"], ["cat", "feline", "kitty"], ["feline", "kitty", "tabby", "puss"]] :
        MeaningFamily String)[0]? = some ["cat", "dog"] ∧
    ["cat", "dog"].length = 2 ∧
    ∃ r, smallMerge defaults
        [["cat", "dog"], ["cat", "feline", "kitty"], ["feline", "kitty", "tabby", "puss"]]
        [] = some r ∧ r.classes[0]? = some [] ∧
      r.output = [] ++
        (r.classes.eraseIdx 0).filter (fun c => decide (defaults.PITHY_FILTER < c.length)) :=
  ⟨by decide, rfl, rfl, smallMerge_two_words defaults _ [] (by decide) 0 _ rfl rfl⟩

/-- C8: a merge of `classes[j]` into a strictly ascending `classes[i]` leaves at index `i`
a class whose words are exactly the words of the two classes before the merge. -/
theorem absorb_union (st : LoopState α) (i j : Nat) (ci cj : List α) (hij : i < j)
    (hci : st.classes[i]? = some ci) (_hcj : st.classes[j]? = some cj)
    (hsi : ci.Sorted (· < ·)) :
    ∃ c, (absorb st i j ci cj).classes[i]? = some c ∧ ∀ w, w ∈ c ↔ w ∈ ci ∨ w ∈ cj := by
  refine ⟨mergeWords ci cj, ?_, (mergeWords_spec cj ci hsi).2⟩
  show ((st.classes.set i (mergeWords ci cj)).set j [])[i]? = _
  rw [List.getElem?_set_ne (by omega), List.getElem?_set_self (List.getElem?_eq_some.mp hci).1]

/-- Instance of `absorb_union`: the merge of `2, 3, 4, 5` into `1, 2, 3`. -/
theorem absorb_union_witness :
    0 < 1 ∧
    (⟨0, 0, [[1, 2, 3], [2, 3, 4, 5]]⟩ : LoopState Nat).classes[0]? = some [1, 2, 3] ∧
    (⟨0, 0, [[1, 2, 3], [2, 3, 4, 5]]⟩ : LoopState Nat).classes[1]? = some [2, 3, 4, 5] ∧
    [1, 2, 3].Sorted (· < ·) ∧
    ∃ c, (absorb (⟨0, 0, [[1, 2, 3], [2, 3, 4, 5]]⟩ : LoopState Nat) 0 1
        [1, 2, 3] [2, 3, 4, 5]).classes[0]? = some c ∧
      ∀ w, w ∈ c ↔ w ∈ [1, 2, 3] ∨ w ∈ [2, 3, 4, 5] :=
  ⟨by decide, rfl, rfl, by decide,
    absorb_union _ 0 1 _ _ (by decide) rfl rfl (by decide)⟩

/-! ## Collections on which the pairwise loop changes nothing -/

theorem innerLoop_quiet {t : ℚ} {st : LoopState α} (hq : Quiet t st) {n i : Nat}
    (hn : n < UINT_RANGE) (hi : i < n) (hlen : st.classes.length = n) {ci : List α}
    (hci : st.classes[i]? = some ci) (hne : ci ≠ []) :
    innerLoop t (n + 1) i (i + 1) st = some (i, st) := by
  have := innerLoop_rule t n i hn hi (fun _ s => s = st) (fun r => r = (i, st))
    (by intro j s h; rw [h]; exact hlen)
    (by intro j s h _ _ _; exact h)
    (by
      intro j s ci' cj left right common h hij hj hci' hcj hcjn hsc hr
      subst h
      have hce : ci' = ci := Option.some.inj (hci'.symm.trans hci)
      subst hce
      have := (hq i j ci' cj hij hci hcj hne hcjn).1
      rw [hsc] at this
      exact absurd hr this)
    (by
      intro j s ci' cj left right common h hij hj hci' hcj hcjn hsc hr hl
      subst h
      have hce : ci' = ci := Option.some.inj (hci'.symm.trans hci)
      subst hce
      have := (hq i j ci' cj hij hci hcj hne hcjn).2.1
      rw [hsc] at this
      exact absurd hl this)
    (by
      intro j s ci' cj left right common h hij hj hci' hcj hcjn hsc hr hl hs
      subst h
      have hce : ci' = ci := Option.some.inj (hci'.symm.trans hci)
      subst hce
      have := (hq i j ci' cj hij hci hcj hne hcjn).2.2
      rw [hsc] at this
      exact absurd hs this)
    (by intro j s ci' cj left right common h _ _ _ _ _ _ _ _ _; exact h)
    (by intro s h; rw [h])
    (n + 1) (i + 1) st (by omega) (by omega) (by omega) rfl
  obtain ⟨r, h1, h2⟩ := this
  rw [h1, h2]

theorem outerLoop_quiet {t : ℚ} {st : LoopState α} (hq : Quiet t st) {n : Nat}
    (hn : n < UINT_RANGE) (hlen : st.classes.length = n) (fuel i : Nat) (hi : i ≤ n)
    (hf : nonEmptyCount st.classes + (n - i) < fuel) :
    outerLoop t fuel i st = some st := by
  have := outerLoop_rule t n hn (fun _ s => s = st)
    (by intro j s h; rw [h]; exact hlen)
    (by intro j s h _ _; exact h)
    (by
      intro j s ci r h hj hci hne hr
      subst h
      rw [innerLoop_quiet hq hn hj hlen hci hne] at hr
      cases hr
      rfl)
    fuel i st hi hf rfl
  obtain ⟨r, h1, h2⟩ := this
  rw [h1, h2]

theorem phase2_quiet {t : ℚ} {classes : MeaningFamily α}
    (hq : Quiet t { SUBSETS := 0, MERGES := 0, classes := classes })
    (hsize : classes.length < UINT_RANGE) :
    phase2 t classes = some { SUBSETS := 0, MERGES := 0, classes := classes } := by
  unfold phase2
  apply outerLoop_quiet hq hsize rfl
  · exact Nat.zero_le _
  · have := nonEmptyCount_le_length classes
    simp only []
    omega

theorem ratio_nil_left (other : List α) : ratio ([] : List α) other = 0 := by
  simp [ratio, toDouble_zero]

theorem not_similar_nil {t : ℚ} (ht : 0 < t) (left right : List α) :
    ¬ similar t left right [] := by
  unfold similar
  rw [ratio_nil_left, ratio_nil_left]
  have := toDouble_pos ht
  intro h
  rcases h with h | h <;> linarith

theorem mem_normalize {c : List α} {w : α} (h : w ∈ normalize c) : w ∈ c := by
  unfold normalize at h
  rw [mem_sort] at h
  split at h
  · simp at h
  · exact h

theorem phase1_getElem? (classes : MeaningFamily α) (k : Nat) :
    (phase1 classes)[k]? = (classes[k]?).map normalize := by
  simp [phase1, List.getElem?_map]

theorem quiet_of_disjoint {t : ℚ} (ht : 0 < t) {classes : MeaningFamily α}
    (hd : classes.Pairwise (fun a b => ∀ w ∈ a, w ∉ b)) :
    Quiet t { SUBSETS := 0, MERGES := 0, classes := phase1 classes } := by
  intro i j ci cj hij hci hcj hcin hcjn
  simp only [phase1_getElem?] at hci hcj
  obtain ⟨a, ha, rfl⟩ := Option.map_eq_some'.mp hci
  obtain ⟨b, hb, rfl⟩ := Option.map_eq_some'.mp hcj
  obtain ⟨hi, rfl⟩ := List.getElem?_eq_some.mp ha
  obtain ⟨hj, rfl⟩ := List.getElem?_eq_some.mp hb
  have hdis := List.pairwise_iff_getElem.mp hd i j hi hj hij
  rw [set_comparison_disjoint (fun w hw hw' => hdis w (mem_normalize hw) (mem_normalize hw'))]
  exact ⟨hcjn, hcin, not_similar_nil ht _ _⟩

theorem phase3_phase1 (m : Nat) (classes : MeaningFamily α) :
    phase3 m (phase1 classes)
      = (classes.filter (fun c => decide (c.length ≠ 2 ∧ m < c.length))).map sort := by
  unfold phase3 phase1
  induction classes with
  | nil => rfl
  | cons c classes ih =>
    rw [List.map_cons, List.filter_cons, List.filter_cons, ih]
    by_cases h2 : c.length = 2
    · simp [normalize, h2, sort_nil]
    · by_cases hm : m < c.length
      · simp [normalize, h2, hm, sort_length]
      · simp [normalize, h2, hm, sort_length]

/-- C7: with a positive threshold and classes that pairwise share no word, the pairwise loop
changes nothing: the final collection is the normalised one, both counters are zero, and
`output` receives, in order and each as a class of its own, the sorted input classes whose
size is not 2 and exceeds `PITHY_FILTER`. -/
theorem smallMerge_disjoint (g : Globals) (classes output : MeaningFamily α)
    (hsize : classes.length < UINT_RANGE) (ht : 0 < g.SMALLMERGE_RATIO)
    (hd : classes.Pairwise (fun a b => ∀ w ∈ a, w ∉ b)) :
    ∃ r, smallMerge g classes output = some r ∧ r.classes = phase1 classes ∧
      r.globals.SUBSETS = 0 ∧ r.globals.MERGES = 0 ∧
      r.output = output ++
        (classes.filter (fun c => decide (c.length ≠ 2 ∧ g.PITHY_FILTER < c.length))).map
          sort := by
  have h := phase2_quiet (quiet_of_disjoint ht hd) (by rw [phase1_length]; exact hsize)
  refine ⟨_, by unfold smallMerge; rw [h], rfl, rfl, rfl, ?_⟩
  show output ++ phase3 g.PITHY_FILTER (phase1 classes) = _
  rw [phase3_phase1]

/-- Instance of `smallMerge_disjoint`: two disjoint classes of 15 words each, ratio `.5`,
pithy filter `10`. -/
theorem smallMerge_disjoint_witness :
    ([[1, 2, 3, 4, 5, 6, 7, 8, 9, 10, 11, 12, 13, 14, 15],
      [16, 17, 18, 19, 20, 21, 22, 23, 24, 25, 26, 27, 28, 29, 30]] :
        MeaningFamily Nat).length < UINT_RANGE ∧
    0 < defaults.SMALLMERGE_RATIO ∧
    ([[1, 2, 3, 4, 5, 6, 7, 8, 9, 10, 11, 12, 13, 14, 15],
      [16, 17, 18, 19, 20, 21, 22, 23, 24, 25, 26, 27, 28, 29, 30]] :
        MeaningFamily Nat).Pairwise (fun a b => ∀ w ∈ a, w ∉ b) ∧
    ∃ r, smallMerge defaults
        [[1, 2, 3, 4, 5, 6, 7, 8, 9, 10, 11, 12, 13, 14, 15],
          [16, 17, 18, 19, 20, 21, 22, 23, 24, 25, 26, 27, 28, 29, 30]] [] = some r ∧
      r.classes = phase1 [[1, 2, 3, 4, 5, 6, 7, 8, 9, 10, 11, 12, 13, 14, 15],
          [16, 17, 18, 19, 20, 21, 22, 23, 24, 25, 26, 27, 28, 29, 30]] ∧
      r.globals.SUBSETS = 0 ∧ r.globals.MERGES = 0 ∧
      r.output = [] ++
        (([[1, 2, 3, 4, 5, 6, 7, 8, 9, 10, 11, 12, 13, 14, 15],
          [16, 17, 18, 19, 20, 21, 22, 23, 24, 25, 26, 27, 28, 29, 30]] :
            MeaningFamily Nat).filter
          (fun c => decide (c.length ≠ 2 ∧ defaults.PITHY_FILTER < c.length))).map sort :=
  ⟨by decide, by decide!, by decide,
    smallMerge_disjoint defaults _ [] (by decide) (by decide!) (by decide)⟩

/-! ## Collections with two non-empty classes -/

theorem pairResult_cases (t : ℚ) (st : LoopState α) (p q : Nat) (A B : List α) :
    ((set_comparison A B).2.1 = [] ∧ pairResult t st p q A B = eliminate st q) ∨
    ((set_comparison A B).2.1 ≠ [] ∧ (set_comparison A B).1 = [] ∧
      pairResult t st p q A B = eliminate st p) ∨
    ((set_comparison A B).2.1 ≠ [] ∧ (set_comparison A B).1 ≠ [] ∧
      similar t (set_comparison A B).1 (set_comparison A B).2.1 (set_comparison A B).2.2 ∧
      pairResult t st p q A B = absorb st p q A B) ∨
    ((set_comparison A B).2.1 ≠ [] ∧ (set_comparison A B).1 ≠ [] ∧
      ¬ similar t (set_comparison A B).1 (set_comparison A B).2.1 (set_comparison A B).2.2 ∧
      pairResult t st p q A B = st) := by
  unfold pairResult
  rcases set_comparison A B with ⟨left, right, common⟩
  simp only []
  by_cases hr : right.isEmpty = true
  · rw [if_pos hr]
    exact Or.inl ⟨List.isEmpty_iff.mp hr, rfl⟩
  · rw [if_neg hr]
    have hrne : right ≠ [] := fun h => hr (List.isEmpty_iff.mpr h)
    by_cases hl : left.isEmpty = true
    · rw [if_pos hl]
      exact Or.inr (Or.inl ⟨hrne, List.isEmpty_iff.mp hl, rfl⟩)
    · rw [if_neg hl]
      have hlne : left ≠ [] := fun h => hl (List.isEmpty_iff.mpr h)
      by_cases hs : similar t left right common
      · rw [if_pos hs]
        exact Or.inr (Or.inr (Or.inl ⟨hrne, hlne, hs, rfl⟩))
      · rw [if_neg hs]
        exact Or.inr (Or.inr (Or.inr ⟨hrne, hlne, hs, rfl⟩))

theorem pairResult_length (t : ℚ) (st : LoopState α) (p q : Nat) (A B : List α) :
    (pairResult t st p q A B).classes.length = st.classes.length := by
  rcases pairResult_cases t st p q A B with ⟨_, h⟩ | ⟨_, _, h⟩ | ⟨_, _, _, h⟩ | ⟨_, _, _, h⟩
    <;> rw [h]
  · exact eliminate_length st q
  · exact eliminate_length st p
  · exact absorb_length st p q A B

theorem pairResult_other (t : ℚ) (st : LoopState α) (p q : Nat) (A B : List α) {k : Nat}
    (hp : k ≠ p) (hq : k ≠ q) :
    (pairResult t st p q A B).classes[k]? = st.classes[k]? := by
  rcases pairResult_cases t st p q A B with ⟨_, h⟩ | ⟨_, _, h⟩ | ⟨_, _, _, h⟩ | ⟨_, _, _, h⟩
    <;> rw [h]
  · exact List.getElem?_set_ne (Ne.symm hq)
  · exact List.getElem?_set_ne (Ne.symm hp)
  · show ((st.classes.set p (mergeWords A B)).set q [])[k]? = _
    rw [List.getElem?_set_ne (Ne.symm hq), List.getElem?_set_ne (Ne.symm hp)]

/-- After the loop body has treated the only two non-empty classes, no pair passes a test. -/
theorem pairResult_quiet (t : ℚ) {st : LoopState α} {p q : Nat} {A B : List α}
    (hpq : p < q) (hA : st.classes[p]? = some A) (hB : st.classes[q]? = some B)
    (hrest : ∀ (k : Nat) (c : List α), k ≠ p → k ≠ q → st.classes[k]? = some c → c = []) :
    Quiet t (pairResult t st p q A B) := by
  have hqlt : q < st.classes.length := (List.getElem?_eq_some.mp hB).1
  have hplt : p < st.classes.length := (List.getElem?_eq_some.mp hA).1
  have hidx : ∀ (k : Nat) (c : List α), (pairResult t st p q A B).classes[k]? = some c →
      c ≠ [] → k = p ∨ k = q := by
    intro k c hk hc
    by_contra hcon
    push_neg at hcon
    rw [pairResult_other t st p q A B hcon.1 hcon.2] at hk
    exact hc (hrest k c hcon.1 hcon.2 hk)
  intro i j ci cj hij hci hcj hcin hcjn
  have hi := hidx i ci hci hcin
  have hj := hidx j cj hcj hcjn
  have hip : i = p := by omega
  have hjq : j = q := by omega
  subst hip; subst hjq
  rcases pairResult_cases t st i j A B with ⟨_, h⟩ | ⟨_, _, h⟩ | ⟨_, _, _, h⟩ | ⟨h1, h2, h3, h⟩
  · rw [h] at hcj
    have : (eliminate st j).classes[j]? = some [] := List.getElem?_set_self hqlt
    rw [this] at hcj
    exact absurd (Option.some.inj hcj).symm hcjn
  · rw [h] at hci
    have : (eliminate st i).classes[i]? = some [] := List.getElem?_set_self hplt
    rw [this] at hci
    exact absurd (Option.some.inj hci).symm hcin
  · rw [h] at hcj
    have : (absorb st i j A B).classes[j]? = some [] :=
      List.getElem?_set_self (by rw [List.length_set]; exact hqlt)
    rw [this] at hcj
    exact absurd (Option.some.inj hcj).symm hcjn
  · rw [h] at hci hcj
    have e1 : ci = A := Option.some.inj (hci.symm.trans hA)
    have e2 : cj = B := Option.some.inj (hcj.symm.trans hB)
    subst e1; subst e2
    exact ⟨h1, h2, h3⟩

theorem innerLoop_pair (t : ℚ) {n : Nat} (hn : n < UINT_RANGE) {st : LoopState α}
    (hlen : st.classes.length = n) {p q : Nat} {A B : List α}
    (hpq : p < q) (hA : st.classes[p]? = some A) (hB : st.classes[q]? = some B)
    (hBne : B ≠ [])
    (hrest : ∀ (k : Nat) (c : List α), k ≠ p → k ≠ q → st.classes[k]? = some c → c = []) :
    ∃ r, innerLoop t (n + 1) p (p + 1) st = some r ∧ r.2 = pairResult t st p q A B := by
  have hqlt : q < n := hlen ▸ (List.getElem?_eq_some.mp hB).1
  have hjq : ∀ (j : Nat) (cj : List α), p < j → j ≤ q → st.classes[j]? = some cj → cj ≠ [] →
      j = q := by
    intro j cj hpj _ hcj hcjn
    by_contra hne
    exact hcjn (hrest j cj (by omega) hne hcj)
  have hafter : ∀ (j : Nat) (cj : List α), q < j →
      (pairResult t st p q A B).classes[j]? = some cj → cj = [] := by
    intro j cj hqj hcj
    rw [pairResult_other t st p q A B (by omega) (by omega)] at hcj
    exact hrest j cj (by omega) (by omega) hcj
  apply innerLoop_rule t n p hn (by omega)
    (fun j s => (j ≤ q ∧ s = st) ∨ (q < j ∧ s = pairResult t st p q A B))
    (fun r => r.2 = pairResult t st p q A B)
  · rintro j s (⟨_, rfl⟩ | ⟨_, rfl⟩)
    · exact hlen
    · rw [pairResult_length]; exact hlen
  · rintro j s (⟨hj, rfl⟩ | ⟨hj, rfl⟩) hpj _ hcj
    · have : j ≠ q := by
        rintro rfl
        rw [hB] at hcj
        exact hBne (Option.some.inj hcj)
      exact Or.inl ⟨by omega, rfl⟩
    · exact Or.inr ⟨by omega, rfl⟩
  · rintro j s ci cj left right common (⟨hj, rfl⟩ | ⟨hj, rfl⟩) hpj _ hci hcj hcjn hsc hr
    · have := hjq j cj hpj hj hcj hcjn
      subst this
      have e1 : ci = A := Option.some.inj (hci.symm.trans hA)
      have e2 : cj = B := Option.some.inj (hcj.symm.trans hB)
      subst e1; subst e2
      refine Or.inr ⟨by omega, ?_⟩
      rcases pairResult_cases t s p j ci cj with ⟨_, h⟩ | ⟨h, _⟩ | ⟨h, _⟩ | ⟨h, _⟩
      · exact h.symm
      · rw [hsc] at h; exact absurd hr h
      · rw [hsc] at h; exact absurd hr h
      · rw [hsc] at h; exact absurd hr h
    · exact absurd (hafter j cj hj hcj) hcjn
  · rintro j s ci cj left right common (⟨hj, rfl⟩ | ⟨hj, rfl⟩) hpj _ hci hcj hcjn hsc hr hl
    · have := hjq j cj hpj hj hcj hcjn
      subst this
      have e1 : ci = A := Option.some.inj (hci.symm.trans hA)
      have e2 : cj = B := Option.some.inj (hcj.symm.trans hB)
      subst e1; subst e2
      rcases pairResult_cases t s p j ci cj with ⟨h, _⟩ | ⟨_, _, h⟩ | ⟨_, h, _⟩ | ⟨_, h, _⟩
      · rw [hsc] at h; exact absurd h hr
      · exact h.symm
      · rw [hsc] at h; exact absurd hl h
      · rw [hsc] at h; exact absurd hl h
    · exact absurd (hafter j cj hj hcj) hcjn
  · rintro j s ci cj left right common (⟨hj, rfl⟩ | ⟨hj, rfl⟩) hpj _ hci hcj hcjn hsc hr hl hs
    · have := hjq j cj hpj hj hcj hcjn
      subst this
      have e1 : ci = A := Option.some.inj (hci.symm.trans hA)
      have e2 : cj = B := Option.some.inj (hcj.symm.trans hB)
      subst e1; subst e2
      rcases pairResult_cases t s p j ci cj with ⟨h, _⟩ | ⟨_, h, _⟩ | ⟨_, _, _, h⟩ | ⟨_, _, h, _⟩
      · rw [hsc] at h; exact absurd h hr
      · rw [hsc] at h; exact absurd h hl
      · exact h.symm
      · rw [hsc] at h; exact absurd hs h
    · exact absurd (hafter j cj hj hcj) hcjn
  · rintro j s ci cj left right common (⟨hj, rfl⟩ | ⟨hj, rfl⟩) hpj _ hci hcj hcjn hsc hr hl hs
    · have := hjq j cj hpj hj hcj hcjn
      subst this
      have e1 : ci = A := Option.some.inj (hci.symm.trans hA)
      have e2 : cj = B := Option.some.inj (hcj.symm.trans hB)
      subst e1; subst e2
      refine Or.inr ⟨by omega, ?_⟩
      rcases pairResult_cases t s p j ci cj with ⟨h, _⟩ | ⟨_, h, _⟩ | ⟨_, _, h, _⟩ | ⟨_, _, _, h⟩
      · rw [hsc] at h; exact absurd h hr
      · rw [hsc] at h; exact absurd h hl
      · rw [hsc] at h; exact absurd h hs
      · exact h.symm
    · exact absurd (hafter j cj hj hcj) hcjn
  · rintro s (⟨hj, rfl⟩ | ⟨hj, rfl⟩)
    · omega
    · rfl
  · omega
  · omega
  · omega
  · exact Or.inl ⟨by omega, rfl⟩

/-- When `A` at `p` and `B` at `q` are the only non-empty classes, the pairwise loop does
to the collection what one pass of the inner loop body does to that pair. -/
theorem outerLoop_pair (t : ℚ) {n : Nat} (hn : n < UINT_RANGE) {st : LoopState α}
    (hlen : st.classes.length = n) {p q : Nat} {A B : List α}
    (hpq : p < q) (hA : st.classes[p]? = some A) (hB : st.classes[q]? = some B)
    (hAne : A ≠ []) (hBne : B ≠ [])
    (hrest : ∀ (k : Nat) (c : List α), k ≠ p → k ≠ q → st.classes[k]? = some c → c = [])
    (fuel : Nat) (hf : nonEmptyCount st.classes + n < fuel) :
    outerLoop t fuel 0 st = some (pairResult t st p q A B) := by
  have hqlt : q < n := hlen ▸ (List.getElem?_eq_some.mp hB).1
  have hquiet := pairResult_quiet t hpq hA hB hrest
  have := outerLoop_rule t n hn
    (fun i s => (i ≤ p ∧ s = st) ∨ s = pairResult t st p q A B)
    (by
      rintro i s (⟨_, rfl⟩ | rfl)
      · exact hlen
      · rw [pairResult_length]; exact hlen)
    (by
      rintro i s (⟨hi, rfl⟩ | rfl) _ hci
      · have : i ≠ p := by
          rintro rfl
          rw [hA] at hci
          exact hAne (Option.some.inj hci)
        exact Or.inl ⟨by omega, rfl⟩
      · exact Or.inr rfl)
    (by
      rintro i s ci r (⟨hi, rfl⟩ | rfl) hin hci hcin hr
      · have hip : i = p := by
          by_contra hne
          exact hcin (hrest i ci hne (by omega) hci)
        subst hip
        obtain ⟨r', hr', h2⟩ := innerLoop_pair t hn hlen hpq hA hB hBne hrest
        rw [hr] at hr'
        cases hr'
        exact Or.inr h2
      · rw [innerLoop_quiet hquiet hn hin (by rw [pairResult_length]; exact hlen) hci hcin]
          at hr
        cases hr
        exact Or.inr rfl)
    fuel 0 st (Nat.zero_le _) (by omega) (Or.inl ⟨Nat.zero_le _, rfl⟩)
  obtain ⟨r, h1, h2⟩ := this
  rcases h2 with ⟨h, _⟩ | h
  · omega
  · rw [h1, h]

theorem sorted_lt_of_nodup {c : List α} (hs : c.Sorted (· ≤ ·)) (hd : c.Nodup) :
    c.Sorted (· < ·) := hs.lt_of_le hd

/-- For strictly ascending classes the test of the merge branch compares the rounded share
of the common words in `B` and in `A` with the rounded threshold. -/
theorem similar_iff (t : ℚ) {A B : List α} (hA : A.Sorted (· < ·)) (hB : B.Sorted (· < ·)) :
    similar t (set_comparison A B).1 (set_comparison A B).2.1 (set_comparison A B).2.2 ↔
      (toDouble ((commonCount A B : ℚ) / (B.length : ℚ)) ≥ toDouble t ∨
        toDouble ((commonCount A B : ℚ) / (A.length : ℚ)) ≥ toDouble t) := by
  have hlen := set_comparison_lengths A B
  have hc : (set_comparison A B).2.2 = A.filter (fun w => decide (w ∈ B)) := by
    rw [set_comparison_eq hA hB]
  unfold similar ratio commonCount
  rw [hlen.1, hlen.2, hc]

/-- An exact quotient of two sizes that reaches the threshold reaches it after rounding. -/
theorem toDouble_share_ge {t : ℚ} {a b : Nat} (h : (a : ℚ) / (b : ℚ) ≥ t) :
    toDouble ((a : ℚ) / (b : ℚ)) ≥ toDouble t :=
  toDouble_le_of_le (div_nonneg (Nat.cast_nonneg a) (Nat.cast_nonneg b)) h

/-- The pairwise loop on a normalised collection with exactly two non-empty classes. -/
theorem phase2_pair (t : ℚ) {classes : MeaningFamily α} (hsize : classes.length < UINT_RANGE)
    {p q : Nat} {A B : List α} (hpq : p < q)
    (hA : classes[p]? = some A) (hB : classes[q]? = some B) (hAne : A ≠ []) (hBne : B ≠ [])
    (hrest : ∀ (k : Nat) (c : List α), k ≠ p → k ≠ q → classes[k]? = some c → c = []) :
    phase2 t classes
      = some (pairResult t { SUBSETS := 0, MERGES := 0, classes := classes } p q A B) := by
  unfold phase2
  apply outerLoop_pair t hsize rfl hpq hA hB hAne hBne hrest
  have := nonEmptyCount_le_length classes
  simp only []
  omega

/-- C3 fails as stated. Let `SMALLMERGE_RATIO` hold the `double` written `0.1`, which is
`3602879701896397 / 2 ^ 55` and lies above one tenth. The classes `1, ..., 10` and
`10, ..., 30` share one word, exactly `1 / 10` of the first and `1 / 21` of the second, both
below the threshold as exact fractions, and neither class contains the other. Yet the
quotient `1 / 10` rounds to the threshold itself, the test of the merge branch passes and
the two classes are merged. -/
theorem exact_ratio_claim_counterexample :
    toDouble (3602879701896397 / 36028797018963968)
      = 3602879701896397 / 36028797018963968 ∧
    (commonCount [1, 2, 3, 4, 5, 6, 7, 8, 9, 10]
        [10, 11, 12, 13, 14, 15, 16, 17, 18, 19, 20, 21, 22, 23, 24, 25, 26, 27, 28, 29, 30]
          : ℚ) / (([1, 2, 3, 4, 5, 6, 7, 8, 9, 10] : List Nat).length : ℚ)
      < 3602879701896397 / 36028797018963968 ∧
    (commonCount [1, 2, 3, 4, 5, 6, 7, 8, 9, 10]
        [10, 11, 12, 13, 14, 15, 16, 17, 18, 19, 20, 21, 22, 23, 24, 25, 26, 27, 28, 29, 30]
          : ℚ) / (([10, 11, 12, 13, 14, 15, 16, 17, 18, 19, 20, 21, 22, 23, 24, 25, 26, 27,
            28, 29, 30] : List Nat).length : ℚ)
      < 3602879701896397 / 36028797018963968 ∧
    (smallMerge { defaults with SMALLMERGE_RATIO := 3602879701896397 / 36028797018963968 }
        [[1, 2, 3, 4, 5, 6, 7, 8, 9, 10],
          [10, 11, 12, 13, 14, 15, 16, 17, 18, 19, 20, 21, 22, 23, 24, 25, 26, 27, 28, 29,
            30]] []).map (fun r => (r.classes, r.globals.MERGES, r.globals.SUBSETS))
      = some ([[1, 2, 3, 4, 5, 6, 7, 8, 9, 10, 11, 12, 13, 14, 15, 16, 17, 18, 19, 20, 21, 22,
          23, 24, 25, 26, 27, 28, 29, 30], []], 1, 0) :=
  ⟨by decide!, by decide!, by decide!, by decide!⟩

/-- C3 (amended): let `A` at `p` and `B` at `q > p` be the only non-empty classes after the
first loop, each with distinct words and neither containing the other. If the share of the
common words in `A` or in `B`, rounded to `double` as the division of the code rounds it,
reaches the `double` held by `SMALLMERGE_RATIO`, the call leaves at `p` the strictly
ascending class with exactly the words of `A` and `B`, leaves `q` empty, and counts one merge
and no subset; otherwise it leaves the normalised collection untouched and both counters at
zero. An exact share that reaches the threshold reaches it after rounding as well. -/
theorem smallMerge_pair_similar (g : Globals) (classes output : MeaningFamily α)
    (hsize : classes.length < UINT_RANGE) (p q : Nat) (A B : List α) (hpq : p < q)
    (hA : (phase1 classes)[p]? = some A) (hB : (phase1 classes)[q]? = some B)
    (hAne : A ≠ []) (hBne : B ≠ [])
    (hrest : ∀ (k : Nat) (c : List α), k ≠ p → k ≠ q →
      (phase1 classes)[k]? = some c → c = [])
    (hAd : A.Nodup) (hBd : B.Nodup)
    (hAB : ¬ ∀ w ∈ A, w ∈ B) (hBA : ¬ ∀ w ∈ B, w ∈ A) :
    ∃ r, smallMerge g classes output = some r ∧
      ((toDouble ((commonCount A B : ℚ) / (A.length : ℚ)) ≥ toDouble g.SMALLMERGE_RATIO ∨
          toDouble ((commonCount A B : ℚ) / (B.length : ℚ))
            ≥ toDouble g.SMALLMERGE_RATIO) →
        (∃ u, r.classes = ((phase1 classes).set p u).set q [] ∧ r.classes[p]? = some u ∧
          u.Sorted (· < ·) ∧ ∀ w, w ∈ u ↔ w ∈ A ∨ w ∈ B) ∧
        r.classes[q]? = some [] ∧ r.globals.MERGES = 1 ∧ r.globals.SUBSETS = 0) ∧
      (¬ (toDouble ((commonCount A B : ℚ) / (A.length : ℚ)) ≥ toDouble g.SMALLMERGE_RATIO ∨
          toDouble ((commonCount A B : ℚ) / (B.length : ℚ))
            ≥ toDouble g.SMALLMERGE_RATIO) →
        r.classes = phase1 classes ∧ r.globals.MERGES = 0 ∧ r.globals.SUBSETS = 0) ∧
      (((commonCount A B : ℚ) / (A.length : ℚ) ≥ g.SMALLMERGE_RATIO ∨
          (commonCount A B : ℚ) / (B.length : ℚ) ≥ g.SMALLMERGE_RATIO) →
        (toDouble ((commonCount A B : ℚ) / (A.length : ℚ)) ≥ toDouble g.SMALLMERGE_RATIO ∨
          toDouble ((commonCount A B : ℚ) / (B.length : ℚ))
            ≥ toDouble g.SMALLMERGE_RATIO)) := by
  have hsize' : (phase1 classes).length < UINT_RANGE := by rw [phase1_length]; exact hsize
  have hAs : A.Sorted (· < ·) := by
    obtain ⟨a, _, rfl⟩ := Option.map_eq_some'.mp ((phase1_getElem? classes p).symm.trans hA)
    exact sorted_lt_of_nodup (sort_sorted _) hAd
  have hBs : B.Sorted (· < ·) := by
    obtain ⟨b, _, rfl⟩ := Option.map_eq_some'.mp ((phase1_getElem? classes q).symm.trans hB)
    exact sorted_lt_of_nodup (sort_sorted _) hBd
  have hplt : p < (phase1 classes).length := (List.getElem?_eq_some.mp hA).1
  have hqlt : q < (phase1 classes).length := (List.getElem?_eq_some.mp hB).1
  have h2 := phase2_pair g.SMALLMERGE_RATIO hsize' hpq hA hB hAne hBne hrest
  have hr : (set_comparison A B).2.1 ≠ [] := fun h =>
    hBA ((set_comparison_right_nil hAs hBs).mp h)
  have hl : (set_comparison A B).1 ≠ [] := fun h =>
    hAB ((set_comparison_left_nil hAs hBs).mp h)
  have hsim := similar_iff g.SMALLMERGE_RATIO hAs hBs
  refine ⟨_, by unfold smallMerge; rw [h2], ?_, ?_, ?_⟩
  · intro hcond
    have hs := hsim.mpr (Or.symm hcond)
    rcases pairResult_cases g.SMALLMERGE_RATIO
        ({ SUBSETS := 0, MERGES := 0, classes := phase1 classes } : LoopState α) p q A B
      with ⟨h, _⟩ | ⟨_, h, _⟩ | ⟨_, _, _, h⟩ | ⟨_, _, h, _⟩
    · exact absurd h hr
    · exact absurd h hl
    · rw [h]
      refine ⟨⟨mergeWords A B, rfl, ?_, (mergeWords_spec B A hAs).1,
        (mergeWords_spec B A hAs).2⟩, ?_, rfl, rfl⟩
      · show (((phase1 classes).set p (mergeWords A B)).set q [])[p]? = _
        rw [List.getElem?_set_ne (by omega), List.getElem?_set_self hplt]
      · show (((phase1 classes).set p (mergeWords A B)).set q [])[q]? = _
        rw [List.getElem?_set_self (by rw [List.length_set]; exact hqlt)]
    · exact absurd hs h
  · intro hcond
    have hs : ¬ similar g.SMALLMERGE_RATIO (set_comparison A B).1 (set_comparison A B).2.1
        (set_comparison A B).2.2 := fun h => hcond (Or.symm (hsim.mp h))
    rcases pairResult_cases g.SMALLMERGE_RATIO
        ({ SUBSETS := 0, MERGES := 0, classes := phase1 classes } : LoopState α) p q A B
      with ⟨h, _⟩ | ⟨_, h, _⟩ | ⟨_, _, h, _⟩ | ⟨_, _, _, h⟩
    · exact absurd h hr
    · exact absurd h hl
    · exact absurd h hs
    · rw [h]
      exact ⟨rfl, rfl, rfl⟩
  · intro hcond
    exact hcond.imp toDouble_share_ge toDouble_share_ge

/-- Instance of `smallMerge_pair_similar` on the merge scenario, together with the output
of the call there: the single class `cat, feline, kitty, puss, tabby`. -/
theorem smallMerge_pair_similar_witness :
    catFamilies.length < UINT_RANGE ∧ 1 < 2 ∧
    (phase1 catFamilies)[1]? = some ["cat", "feline", "kitty"] ∧
    (phase1 catFamilies)[2]? = some ["feline", "kitty", "puss", "tabby"] ∧
    ["cat", "feline", "kitty"] ≠ [] ∧ ["feline", "kitty", "puss", "tabby"] ≠ [] ∧
    (∀ (k : Nat) (c : List String), k ≠ 1 → k ≠ 2 →
      (phase1 catFamilies)[k]? = some c → c = []) ∧
    ["cat", "feline", "kitty"].Nodup ∧ ["feline", "kitty", "puss", "tabby"].Nodup ∧
    (¬ ∀ w ∈ ["cat", "feline", "kitty"], w ∈ ["feline", "kitty", "puss", "tabby"]) ∧
    (¬ ∀ w ∈ ["feline", "kitty", "puss", "tabby"], w ∈ ["cat", "feline", "kitty"]) ∧
    (smallMerge catGlobals catFamilies []).map (fun r => r.output)
      = some [["cat", "feline", "kitty", "puss", "tabby"]] ∧
    ∃ r, smallMerge catGlobals catFamilies [] = some r ∧
      ((toDouble
            ((commonCount ["cat", "feline", "kitty"] ["feline", "kitty", "puss", "tabby"] : ℚ)
              / ((["cat", "feline", "kitty"] : List String).length : ℚ))
            ≥ toDouble catGlobals.SMALLMERGE_RATIO ∨
          toDouble
            ((commonCount ["cat", "feline", "kitty"] ["feline", "kitty", "puss", "tabby"] : ℚ)
              / ((["feline", "kitty", "puss", "tabby"] : List String).length : ℚ))
            ≥ toDouble catGlobals.SMALLMERGE_RATIO) →
        (∃ u, r.classes = ((phase1 catFamilies).set 1 u).set 2 [] ∧
          r.classes[1]? = some u ∧ u.Sorted (· < ·) ∧
          ∀ w, w ∈ u ↔ w ∈ ["cat", "feline", "kitty"] ∨
            w ∈ ["feline", "kitty", "puss", "tabby"]) ∧
        r.classes[2]? = some [] ∧ r.globals.MERGES = 1 ∧ r.globals.SUBSETS = 0) ∧
      (¬ (toDouble
            ((commonCount ["cat", "feline", "kitty"] ["feline", "kitty", "puss", "tabby"] : ℚ)
              / ((["cat", "feline", "kitty"] : List String).length : ℚ))
            ≥ toDouble catGlobals.SMALLMERGE_RATIO ∨
          toDouble
            ((commonCount ["cat", "feline", "kitty"] ["feline", "kitty", "puss", "tabby"] : ℚ)
              / ((["feline", "kitty", "puss", "tabby"] : List String).length : ℚ))
            ≥ toDouble catGlobals.SMALLMERGE_RATIO) →
        r.classes = phase1 catFamilies ∧ r.globals.MERGES = 0 ∧ r.globals.SUBSETS = 0) ∧
      (((commonCount ["cat", "feline", "kitty"] ["feline", "kitty", "puss", "tabby"] : ℚ)
            / ((["cat", "feline", "kitty"] : List String).length : ℚ)
              ≥ catGlobals.SMALLMERGE_RATIO ∨
          (commonCount ["cat", "feline", "kitty"] ["feline", "kitty", "puss", "tabby"] : ℚ)
            / ((["feline", "kitty", "puss", "tabby"] : List String).length : ℚ)
              ≥ catGlobals.SMALLMERGE_RATIO) →
        (toDouble
            ((commonCount ["cat", "feline", "kitty"] ["feline", "kitty", "puss", "tabby"] : ℚ)
              / ((["cat", "feline", "kitty"] : List String).length : ℚ))
            ≥ toDouble catGlobals.SMALLMERGE_RATIO ∨
          toDouble
            ((commonCount ["cat", "feline", "kitty"] ["feline", "kitty", "puss", "tabby"] : ℚ)
              / ((["feline", "kitty", "puss", "tabby"] : List String).length : ℚ))
            ≥ toDouble catGlobals.SMALLMERGE_RATIO)) :=
  have hp : phase1 catFamilies
      = [[], ["cat", "feline", "kitty"], ["feline", "kitty", "puss", "tabby"]] := by decide!
  have hrest : ∀ (k : Nat) (c : List String), k ≠ 1 → k ≠ 2 →
      (phase1 catFamilies)[k]? = some c → c = [] := by
    intro k c h1 h2 h
    rw [hp] at h
    match k, h1, h2, h with
    | 0, _, _, h => exact (Option.some.inj h).symm
    | k + 3, _, _, h => simp at h
  have hA : (phase1 catFamilies)[1]? = some ["cat", "feline", "kitty"] := by rw [hp]; rfl
  have hB : (phase1 catFamilies)[2]? = some ["feline", "kitty", "puss", "tabby"] := by
    rw [hp]; rfl
  have hAd : ["cat", "feline", "kitty"].Nodup := by decide!
  have hBd : ["feline", "kitty", "puss", "tabby"].Nodup := by decide!
  have hAB : ¬ ∀ w ∈ ["cat", "feline", "kitty"], w ∈ ["feline", "kitty", "puss", "tabby"] := by
    decide!
  have hBA : ¬ ∀ w ∈ ["feline", "kitty", "puss", "tabby"], w ∈ ["cat", "feline", "kitty"] := by
    decide!
  ⟨by decide, by decide, hA, hB, List.cons_ne_nil _ _, List.cons_ne_nil _ _, hrest,
    hAd, hBd, hAB, hBA, by decide!,
    smallMerge_pair_similar catGlobals catFamilies [] (by decide)
      1 2 ["cat", "feline", "kitty"] ["feline", "kitty", "puss", "tabby"] (by decide) hA hB
      (List.cons_ne_nil _ _) (List.cons_ne_nil _ _) hrest hAd hBd hAB hBA⟩

theorem normalize_of_ne_two {c : List α} (h : c.length ≠ 2) : normalize c = sort c := by
  unfold normalize
  rw [if_neg h]

theorem normalize_of_two {c : List α} (h : c.length = 2) : normalize c = [] := by
  unfold normalize
  rw [if_pos h]
  rfl

theorem sort_sorted_lt {c : List α} (hd : c.Nodup) : (sort c).Sorted (· < ·) :=
  (sort_sorted c).lt_of_le ((sort_perm c).nodup_iff.mpr hd)

/-- C4: for the collection `[A, B]` of two classes with distinct words, neither of exactly
two words, `B` non-empty and every word of `B` in `A`, the call leaves `B` empty, leaves at
index 0 the strictly ascending arrangement of the words of `A`, and counts one subset and no
merge. -/
theorem smallMerge_subset_pair (g : Globals) (A B : List α) (output : MeaningFamily α)
    (hAd : A.Nodup) (hBd : B.Nodup) (hA2 : A.length ≠ 2) (hB2 : B.length ≠ 2)
    (hBne : B ≠ []) (hBA : ∀ w ∈ B, w ∈ A) :
    ∃ r a, smallMerge g [A, B] output = some r ∧ r.classes = [a, []] ∧
      a.Sorted (· < ·) ∧ a.Perm A ∧ r.globals.SUBSETS = 1 ∧ r.globals.MERGES = 0 := by
  have hp : phase1 [A, B] = [sort A, sort B] := by
    simp [phase1, normalize_of_ne_two hA2, normalize_of_ne_two hB2]
  have hAne : A ≠ [] := by
    obtain ⟨w, hw⟩ := List.exists_mem_of_ne_nil B hBne
    exact List.ne_nil_of_mem (hBA w hw)
  have hsA : sort A ≠ [] := fun h => hAne (sort_eq_nil.mp h)
  have hsB : sort B ≠ [] := fun h => hBne (sort_eq_nil.mp h)
  have h2 := @phase2_pair α _ g.SMALLMERGE_RATIO [sort A, sort B]
    (show 2 < UINT_RANGE by decide) 0 1 (sort A) (sort B) (by decide) rfl rfl hsA hsB
    (by
      intro k c h0 h1 h
      match k, h0, h1, h with
      | k + 2, _, _, h => simp at h)
  have hr : (set_comparison (sort A) (sort B)).2.1 = [] :=
    (set_comparison_right_nil (sort_sorted_lt hAd) (sort_sorted_lt hBd)).mpr
      (fun w hw => mem_sort.mpr (hBA w (mem_sort.mp hw)))
  rcases pairResult_cases g.SMALLMERGE_RATIO
      ({ SUBSETS := 0, MERGES := 0, classes := [sort A, sort B] } : LoopState α) 0 1
      (sort A) (sort B) with ⟨_, h⟩ | ⟨h, _⟩ | ⟨h, _⟩ | ⟨h, _⟩
  · rw [h] at h2
    refine ⟨_, sort A, by unfold smallMerge; rw [hp, h2], rfl, sort_sorted_lt hAd,
      sort_perm A, rfl, rfl⟩
  · exact absurd hr h
  · exact absurd hr h
  · exact absurd hr h

/-- Instance of `smallMerge_subset_pair`: the classes `a, b, c, d, e` and `a, b, c`. -/
theorem smallMerge_subset_pair_witness :
    ["a", "b", "c", "d", "e"].Nodup ∧ ["a", "b", "c"].Nodup ∧
    ["a", "b", "c", "d", "e"].length ≠ 2 ∧ ["a", "b", "c"].length ≠ 2 ∧
    ["a", "b", "c"] ≠ [] ∧ (∀ w ∈ ["a", "b", "c"], w ∈ ["a", "b", "c", "d", "e"]) ∧
    ∃ r a, smallMerge defaults [["a", "b", "c", "d", "e"], ["a", "b", "c"]] [] = some r ∧
      r.classes = [a, []] ∧ a.Sorted (· < ·) ∧ a.Perm ["a", "b", "c", "d", "e"] ∧
      r.globals.SUBSETS = 1 ∧ r.globals.MERGES = 0 :=
  have hAd : ["a", "b", "c", "d", "e"].Nodup := by decide!
  have hBd : ["a", "b", "c"].Nodup := by decide!
  have hBA : ∀ w ∈ ["a", "b", "c"], w ∈ ["a", "b", "c", "d", "e"] := by decide!
  ⟨hAd, hBd, by decide, by decide, List.cons_ne_nil _ _, hBA,
    smallMerge_subset_pair defaults ["a", "b", "c", "d", "e"] ["a", "b", "c"] [] hAd hBd
      (by decide) (by decide) (List.cons_ne_nil _ _) hBA⟩

/-! ## What the pairwise loop has settled when it ends -/

theorem settled_of_test (t : ℚ) (orig : Option (List α)) {ca cb left right common : List α}
    (hsa : ca.Sorted (· < ·)) (hsb : cb.Sorted (· < ·))
    (hsc : set_comparison ca cb = (left, right, common))
    (hr : right ≠ []) (hl : left ≠ []) (hs : ¬ similar t left right common) :
    Settled t orig ca cb := by
  have h1 := set_comparison_right_nil hsa hsb
  have h2 := set_comparison_left_nil hsa hsb
  have h3 := similar_iff t hsa hsb
  rw [hsc] at h1 h2 h3
  exact ⟨fun h => hr (h1.mpr h), fun _ => ⟨fun h => hl (h2.mpr h),
    fun h => hs (h3.mpr (h.imp toDouble_share_ge toDouble_share_ge))⟩⟩

theorem settled_grow {t : ℚ} {orig : Option (List α)} {ca cb cb' : List α}
    (h : Settled t orig ca cb) (hsub : ∀ w ∈ cb, w ∈ cb') (hne : orig ≠ some cb') :
    Settled t orig ca cb' :=
  ⟨fun hc => h.1 (fun w hw => hc w (hsub w hw)), fun ho => absurd ho hne⟩

theorem done_transfer {t : ℚ} {first : MeaningFamily α} {i j : Nat} {s s' : LoopState α}
    (hd : Done t first i j s)
    (hlow : ∀ a b : Nat, a < b → (a < i ∨ (a = i ∧ b < j)) →
      s'.classes[a]? = s.classes[a]?)
    (hhigh : ∀ (b : Nat) (cb' : List α), s'.classes[b]? = some cb' → cb' ≠ [] →
      ∃ cb, s.classes[b]? = some cb ∧ cb ≠ [] ∧
        (cb' = cb ∨ ((∀ w ∈ cb, w ∈ cb') ∧ first[b]? ≠ some cb'))) :
    Done t first i j s' := by
  intro a b ca cb' hab hcase hca hcb' hcan hcbn
  rw [hlow a b hab hcase] at hca
  obtain ⟨cb, hcb, hcbn', h⟩ := hhigh b cb' hcb' hcbn
  have := hd a b ca cb hab hcase hca hcb hcan hcbn'
  rcases h with rfl | ⟨hsub, hne⟩
  · exact this
  · exact settled_grow this hsub hne

theorem done_weaken {t : ℚ} {first : MeaningFamily α} {i j : Nat} {s : LoopState α}
    (hd : Done t first i j s) : Done t first i 0 s := by
  intro a b ca cb hab hcase
  rcases hcase with h | ⟨_, h⟩
  · exact hd a b ca cb hab (Or.inl h)
  · omega

theorem done_start {t : ℚ} {first : MeaningFamily α} {i : Nat} {s : LoopState α}
    (hd : Done t first i 0 s) : Done t first i (i + 1) s := by
  intro a b ca cb hab hcase
  rcases hcase with h | ⟨h1, h2⟩
  · exact hd a b ca cb hab (Or.inl h)
  · omega

theorem done_extend {t : ℚ} {first : MeaningFamily α} {i j : Nat} {s : LoopState α}
    (hd : Done t first i j s)
    (hj : ∀ ci cj : List α, s.classes[i]? = some ci → s.classes[j]? = some cj →
      ci ≠ [] → cj ≠ [] → Settled t first[j]? ci cj) :
    Done t first i (j + 1) s := by
  intro a b ca cb hab hcase hca hcb hcan hcbn
  rcases hcase with h | ⟨h1, h2⟩
  · exact hd a b ca cb hab (Or.inl h) hca hcb hcan hcbn
  · by_cases hbj : b = j
    · subst hbj; subst h1
      exact hj ca cb hca hcb hcan hcbn
    · exact hd a b ca cb hab (Or.inr ⟨h1, by omega⟩) hca hcb hcan hcbn

theorem done_succ {t : ℚ} {first : MeaningFamily α} {i j : Nat} {s : LoopState α}
    (hd : Done t first i j s)
    (hrest : ∀ (b : Nat) (ci cb : List α), i < b → j ≤ b → s.classes[i]? = some ci →
      s.classes[b]? = some cb → ci ≠ [] → cb ≠ [] → Settled t first[b]? ci cb) :
    Done t first (i + 1) 0 s := by
  intro a b ca cb hab hcase hca hcb hcan hcbn
  rcases hcase with h | ⟨_, h⟩
  · by_cases hai : a = i
    · subst hai
      by_cases hbj : b < j
      · exact hd a b ca cb hab (Or.inr ⟨rfl, hbj⟩) hca hcb hcan hcbn
      · exact hrest b ca cb hab (by omega) hca hcb hcan hcbn
    · exact hd a b ca cb hab (Or.inl (by omega)) hca hcb hcan hcbn
  · omega

theorem high_eliminate (first : MeaningFamily α) (s : LoopState α) (k : Nat) :
    ∀ (b : Nat) (cb' : List α), (eliminate s k).classes[b]? = some cb' → cb' ≠ [] →
      ∃ cb, s.classes[b]? = some cb ∧ cb ≠ [] ∧
        (cb' = cb ∨ ((∀ w ∈ cb, w ∈ cb') ∧ first[b]? ≠ some cb')) := by
  intro b cb' h hne
  have h' : (s.classes.set k [])[b]? = some cb' := h
  rw [List.getElem?_set] at h'
  split at h'
  · split at h'
    · exact absurd (Option.some.inj h').symm hne
    · exact absurd h' (by simp)
  · exact ⟨cb', h', hne, Or.inl rfl⟩

theorem high_absorb {first : MeaningFamily α} {s : LoopState α} {i j : Nat}
    {ci cj : List α} (hci : s.classes[i]? = some ci)
    (hcin : ci ≠ []) (hsi : ci.Sorted (· < ·)) (hsub : ¬ ∀ w ∈ cj, w ∈ ci)
    (hg : Grown first s) :
    ∀ (b : Nat) (cb' : List α), (absorb s i j ci cj).classes[b]? = some cb' → cb' ≠ [] →
      ∃ cb, s.classes[b]? = some cb ∧ cb ≠ [] ∧
        (cb' = cb ∨ ((∀ w ∈ cb, w ∈ cb') ∧ first[b]? ≠ some cb')) := by
  intro b cb' h hne
  have h' : ((s.classes.set i (mergeWords ci cj)).set j [])[b]? = some cb' := h
  rw [List.getElem?_set] at h'
  split at h'
  · split at h'
    · exact absurd (Option.some.inj h').symm hne
    · exact absurd h' (by simp)
  · rw [List.getElem?_set] at h'
    split at h'
    · next hib =>
      subst hib
      split at h'
      · have hm : cb' = mergeWords ci cj := (Option.some.inj h').symm
        subst hm
        have hspec := (mergeWords_spec cj ci hsi).2
        refine ⟨ci, hci, hcin, Or.inr ⟨fun w hw => (hspec w).mpr (Or.inl hw), ?_⟩⟩
        intro hf
        apply hsub
        intro w hw
        exact hg i (mergeWords ci cj) ci hf hci hcin w ((hspec w).mpr (Or.inr hw))
      · exact absurd h' (by simp)
    · exact ⟨cb', h', hne, Or.inl rfl⟩

theorem step_grown {t : ℚ} {first : MeaningFamily α} {s s' : LoopState α}
    (h : Step t s s') (hs : AllSorted s) (hg : Grown first s) : Grown first s' := by
  intro k c0 c hc0 hc hcn w hw
  cases h with
  | subsetJ i j ci cj left right common hij hci hcj hcin hcjn hsc hr =>
    obtain ⟨cb, hcb, hcbn, h⟩ := high_eliminate first s j k c hc hcn
    rcases h with rfl | ⟨hsub, _⟩
    · exact hg k c0 c hc0 hcb hcn w hw
    · exact hsub w (hg k c0 cb hc0 hcb hcbn w hw)
  | subsetI i j ci cj left right common hij hci hcj hcin hcjn hsc hr hl =>
    obtain ⟨cb, hcb, hcbn, h⟩ := high_eliminate first s i k c hc hcn
    rcases h with rfl | ⟨hsub, _⟩
    · exact hg k c0 c hc0 hcb hcn w hw
    · exact hsub w (hg k c0 cb hc0 hcb hcbn w hw)
  | merge i j ci cj left right common hij hci hcj hcin hcjn hsc hr hl hsim =>
    have hsi := hs ci (List.getElem?_mem hci)
    have hsj := hs cj (List.getElem?_mem hcj)
    have hsub : ¬ ∀ w ∈ cj, w ∈ ci := by
      intro hall
      have := (set_comparison_right_nil hsi hsj).mpr hall
      rw [hsc] at this
      exact hr this
    obtain ⟨cb, hcb, hcbn, h⟩ := high_absorb hci hcin hsi hsub hg k c hc hcn
    rcases h with rfl | ⟨hsub', _⟩
    · exact hg k c0 c hc0 hcb hcn w hw
    · exact hsub' w (hg k c0 cb hc0 hcb hcbn w hw)

theorem eliminate_getElem?_ne (s : LoopState α) {k a : Nat} (h : k ≠ a) :
    (eliminate s k).classes[a]? = s.classes[a]? :=
  List.getElem?_set_ne h

theorem absorb_getElem?_ne (s : LoopState α) {i j a : Nat} (ci cj : List α)
    (hi : i ≠ a) (hj : j ≠ a) : (absorb s i j ci cj).classes[a]? = s.classes[a]? := by
  show ((s.classes.set i (mergeWords ci cj)).set j [])[a]? = _
  rw [List.getElem?_set_ne hj, List.getElem?_set_ne hi]

/-- One run of the inner loop for a non-empty `classes[i]` keeps every class strictly
ascending and grown, and leaves settled all pairs the outer loop will not visit again. -/
theorem innerLoop_done (t : ℚ) (first : MeaningFamily α) {n i : Nat} (hn : n < UINT_RANGE)
    (hi : i < n) {s : LoopState α} (hlen : s.classes.length = n) (hs : AllSorted s)
    (hg : Grown first s) (hd : Done t first i 0 s) {ci : List α}
    (hci : s.classes[i]? = some ci) (hcin : ci ≠ []) :
    ∃ r, innerLoop t (n + 1) i (i + 1) s = some r ∧ r.2.classes.length = n ∧
      AllSorted r.2 ∧ Grown first r.2 ∧ Done t first ((r.1 + 1) % UINT_RANGE) 0 r.2 := by
  apply innerLoop_rule t n i hn hi
    (fun j x => x.classes.length = n ∧ AllSorted x ∧ Grown first x ∧ Done t first i j x ∧
      x.classes[i]? = some ci)
    (fun r => r.2.classes.length = n ∧ AllSorted r.2 ∧ Grown first r.2 ∧
      Done t first ((r.1 + 1) % UINT_RANGE) 0 r.2)
  · intro j x h; exact h.1
  · rintro j x ⟨h1, h2, h3, h4, h5⟩ hij hj hcj
    refine ⟨h1, h2, h3, done_extend h4 ?_, h5⟩
    intro ci' cj' _ hcj' _ hne
    rw [hcj] at hcj'
    exact absurd (Option.some.inj hcj').symm hne
  · rintro j x ci' cj left right common ⟨h1, h2, h3, h4, h5⟩ hij hj hci' hcj hcjn hsc hr
    have hce : ci' = ci := Option.some.inj (hci'.symm.trans h5)
    subst hce
    have hstep := Step.subsetJ (t := t) x i j ci' cj left right common hij hci' hcj hcin hcjn
      hsc hr
    refine ⟨by rw [eliminate_length]; exact h1, step_sorted hstep h2, step_grown hstep h2 h3,
      done_extend (done_transfer h4 ?_ (high_eliminate first x j)) ?_, ?_⟩
    · intro a b hab hcase
      exact eliminate_getElem?_ne x (by omega)
    · intro ca cb _ hcb _ hne
      have : (eliminate x j).classes[j]? = some [] :=
        List.getElem?_set_self (by omega)
      rw [this] at hcb
      exact absurd (Option.some.inj hcb).symm hne
    · rw [eliminate_getElem?_ne x (by omega)]; exact hci'
  · rintro j x ci' cj left right common ⟨h1, h2, h3, h4, h5⟩ hij hj hci' hcj hcjn hsc hr hl
    have hce : ci' = ci := Option.some.inj (hci'.symm.trans h5)
    subst hce
    have hstep := Step.subsetI (t := t) x i j ci' cj left right common hij hci' hcj hcin hcjn
      hsc hr hl
    refine ⟨by rw [eliminate_length]; exact h1, step_sorted hstep h2, step_grown hstep h2 h3,
      ?_⟩
    rw [uint_succ hn hi]
    apply done_succ (j := 0) (done_transfer (done_weaken h4) ?_ (high_eliminate first x i))
    · intro b ca cb _ _ hca _ hne
      have : (eliminate x i).classes[i]? = some [] :=
        List.getElem?_set_self (by omega)
      rw [this] at hca
      exact absurd (Option.some.inj hca).symm hne
    · intro a b hab hcase
      exact eliminate_getElem?_ne x (by omega)
  · rintro j x ci' cj left right common ⟨h1, h2, h3, h4, h5⟩ hij hj hci' hcj hcjn hsc hr hl
      hsim
    have hce : ci' = ci := Option.some.inj (hci'.symm.trans h5)
    subst hce
    have hstep := Step.merge (t := t) x i j ci' cj left right common hij hci' hcj hcin hcjn
      hsc hr hl hsim
    have hsi := h2 ci' (List.getElem?_mem hci')
    have hsj := h2 cj (List.getElem?_mem hcj)
    have hsub : ¬ ∀ w ∈ cj, w ∈ ci' := by
      intro hall
      have := (set_comparison_right_nil hsi hsj).mpr hall
      rw [hsc] at this
      exact hr this
    refine ⟨by rw [absorb_length]; exact h1, step_sorted hstep h2, step_grown hstep h2 h3,
      ?_⟩
    rw [uint_pred_succ (by omega)]
    apply done_transfer (done_weaken h4) ?_ (high_absorb hci' hcin hsi hsub h3)
    intro a b hab hcase
    exact absorb_getElem?_ne x ci' cj (by omega) (by omega)
  · rintro j x ci' cj left right common ⟨h1, h2, h3, h4, h5⟩ hij hj hci' hcj hcjn hsc hr hl
      hsim
    refine ⟨h1, h2, h3, done_extend h4 ?_, h5⟩
    intro ca cb hca hcb _ _
    have e1 : ca = ci' := Option.some.inj (hca.symm.trans hci')
    have e2 : cb = cj := Option.some.inj (hcb.symm.trans hcj)
    subst e1; subst e2
    exact settled_of_test t _ (h2 ca (List.getElem?_mem hci')) (h2 cb (List.getElem?_mem hcj))
      hsc hr hl hsim
  · rintro x ⟨h1, h2, h3, h4, h5⟩
    refine ⟨h1, h2, h3, ?_⟩
    rw [uint_succ hn hi]
    apply done_succ h4
    intro b ca cb _ hnb _ hcb _ _
    have := (List.getElem?_eq_some.mp hcb).1
    omega
  · omega
  · omega
  · omega
  · exact ⟨hlen, hs, hg, done_start hd, hci⟩

/-- The pairwise loop, started on a collection of strictly ascending classes, ends with
every pair of non-empty classes settled. -/
theorem phase2_done (t : ℚ) (classes : MeaningFamily α) (hsize : classes.length < UINT_RANGE)
    (hs : ∀ c ∈ classes, c.Sorted (· < ·)) :
    ∃ st, phase2 t classes = some st ∧ Done t classes classes.length 0 st := by
  have := outerLoop_rule t classes.length hsize
    (fun i x => x.classes.length = classes.length ∧ AllSorted x ∧ Grown classes x ∧
      Done t classes i 0 x)
    (fun _ _ h => h.1)
    (by
      rintro i x ⟨h1, h2, h3, h4⟩ hi hci
      refine ⟨h1, h2, h3, done_succ h4 ?_⟩
      intro b ca cb _ _ hca _ hne
      rw [hci] at hca
      exact absurd (Option.some.inj hca).symm hne)
    (by
      rintro i x ci r ⟨h1, h2, h3, h4⟩ hi hci hcin hr
      obtain ⟨r', hr', h⟩ := innerLoop_done t classes hsize hi h1 h2 h3 h4 hci hcin
      rw [hr] at hr'
      cases hr'
      exact h)
    (2 * classes.length + 1) 0 { SUBSETS := 0, MERGES := 0, classes := classes }
    (Nat.zero_le _)
    (by have := nonEmptyCount_le_length classes; simp only []; omega)
    ⟨rfl, hs, ?_, ?_⟩
  · obtain ⟨st, h1, _, _, _, h5⟩ := this
    exact ⟨st, h1, h5⟩
  · intro k c0 c hc0 hc _ w hw
    have : c0 = c := Option.some.inj (hc0.symm.trans hc)
    exact this ▸ hw
  · intro a b ca cb hab hcase
    rcases hcase with h | ⟨_, h⟩ <;> omega

/-- C10 fails as stated. With the default ratio `.5` the classes at indices 1 and 2 of the
first collection merge, after which the class at index 0 shares 4 of its 6 words with the
merged class, yet index 0 is not visited again: both stay in the final collection. In the
second collection, for the ratio `.6`, the class at index 0 ends up contained in the class
at index 1. -/
theorem fixpoint_claim_counterexample :
    ((smallMerge defaults
        [[1, 2, 3, 4, 5, 6], [1, 2, 10, 11, 12, 13, 14], [3, 4, 10, 11, 12, 13, 15]] []).map
          (fun r => r.classes)
        = some [[1, 2, 3, 4, 5, 6], [1, 2, 3, 4, 10, 11, 12, 13, 14, 15], []] ∧
      (commonCount [1, 2, 3, 4, 5, 6] [1, 2, 3, 4, 10, 11, 12, 13, 14, 15] : ℚ)
        / (([1, 2, 3, 4, 5, 6] : List Nat).length : ℚ) ≥ defaults.SMALLMERGE_RATIO) ∧
    ((smallMerge { defaults with SMALLMERGE_RATIO := 3 / 5 }
        [[1, 2, 3, 4], [1, 2, 10, 11, 12, 13, 14, 15, 16, 17, 18, 19],
          [3, 4, 10, 11, 12, 13, 14, 15, 16, 17, 18, 19]] []).map (fun r => r.classes)
        = some [[1, 2, 3, 4], [1, 2, 3, 4, 10, 11, 12, 13, 14, 15, 16, 17, 18, 19], []] ∧
      ∀ w ∈ [1, 2, 3, 4], w ∈ [1, 2, 3, 4, 10, 11, 12, 13, 14, 15, 16, 17, 18, 19]) :=
  ⟨⟨by decide!, by decide!⟩, ⟨by decide!, by decide⟩⟩

/-- C10 (amended): when every input class has distinct words, the call returns a collection
in which, for every pair of non-empty classes at indices `i < j`, the class at `j` is not
contained in the class at `i`; and if the class at `j` is still the one the first loop
produced, the class at `i` is not contained in it either and the common words make up less
than the fraction `SMALLMERGE_RATIO` of each of the two. -/
theorem smallMerge_settled (g : Globals) (classes output : MeaningFamily α)
    (hsize : classes.length < UINT_RANGE) (hd : ∀ c ∈ classes, c.Nodup) :
    ∃ r, smallMerge g classes output = some r ∧
      ∀ (i j : Nat) (ci cj : List α), i < j →
        r.classes[i]? = some ci → r.classes[j]? = some cj → ci ≠ [] → cj ≠ [] →
        (¬ ∀ w ∈ cj, w ∈ ci) ∧
        ((phase1 classes)[j]? = some cj →
          (¬ ∀ w ∈ ci, w ∈ cj) ∧
          (commonCount ci cj : ℚ) / (ci.length : ℚ) < g.SMALLMERGE_RATIO ∧
          (commonCount ci cj : ℚ) / (cj.length : ℚ) < g.SMALLMERGE_RATIO) := by
  obtain ⟨st, h1, h2⟩ := phase2_done g.SMALLMERGE_RATIO (phase1 classes)
    (by rw [phase1_length]; exact hsize) (phase1_sorted hd)
  refine ⟨_, by unfold smallMerge; rw [h1], ?_⟩
  intro i j ci cj hij hci hcj hcin hcjn
  have hi : i < (phase1 classes).length := by
    have := (List.getElem?_eq_some.mp hcj).1
    have hl : st.classes.length = (phase1 classes).length := by
      obtain ⟨st', e1, e2⟩ := phase2_steps g.SMALLMERGE_RATIO (phase1 classes)
        (by rw [phase1_length]; exact hsize)
      rw [h1] at e1
      cases e1
      exact steps_length_eq e2
    have : j < st.classes.length := this
    omega
  have := h2 i j ci cj hij (Or.inl hi) hci hcj hcin hcjn
  refine ⟨this.1, fun ho => ?_⟩
  obtain ⟨h3, h4⟩ := this.2 ho
  refine ⟨h3, ?_, ?_⟩
  · exact not_le.mp (fun h => h4 (Or.inr h))
  · exact not_le.mp (fun h => h4 (Or.inl h))

/-- Instance of `smallMerge_settled` on three overlapping classes. -/
theorem smallMerge_settled_witness :
    ([[1, 2, 3, 4, 5, 6], [1, 2, 10, 11, 12, 13, 14], [3, 4, 10, 11, 12, 13, 15]] :
        MeaningFamily Nat).length < UINT_RANGE ∧
    (∀ c ∈ ([[1, 2, 3, 4, 5, 6], [1, 2, 10, 11, 12, 13, 14], [3, 4, 10, 11, 12, 13, 15]] :
        MeaningFamily Nat), c.Nodup) ∧
    ∃ r, smallMerge defaults
        [[1, 2, 3, 4, 5, 6], [1, 2, 10, 11, 12, 13, 14], [3, 4, 10, 11, 12, 13, 15]] []
          = some r ∧
      ∀ (i j : Nat) (ci cj : List Nat), i < j →
        r.classes[i]? = some ci → r.classes[j]? = some cj → ci ≠ [] → cj ≠ [] →
        (¬ ∀ w ∈ cj, w ∈ ci) ∧
        ((phase1 [[1, 2, 3, 4, 5, 6], [1, 2, 10, 11, 12, 13, 14],
            [3, 4, 10, 11, 12, 13, 15]])[j]? = some cj →
          (¬ ∀ w ∈ ci, w ∈ cj) ∧
          (commonCount ci cj : ℚ) / (ci.length : ℚ) < defaults.SMALLMERGE_RATIO ∧
          (commonCount ci cj : ℚ) / (cj.length : ℚ) < defaults.SMALLMERGE_RATIO) :=
  ⟨by decide, by decide, smallMerge_settled defaults _ [] (by decide) (by decide)⟩

/-! ## Dependence on the order of the input -/

/-- C11: the result depends on the order of the input. With ratio `.5` and pithy filter `2`
the collection below yields two classes, of 6 and of 10 words; with the same three classes
in another order everything is merged into one class of 12 words. -/
theorem smallMerge_order_sensitive :
    ∃ (classes permuted : MeaningFamily Nat) (g : Globals) (r1 r2 : Result Nat),
      classes.Perm permuted ∧
      smallMerge g classes [] = some r1 ∧ smallMerge g permuted [] = some r2 ∧
      ¬ ∀ c, c ∈ r1.output ↔ c ∈ r2.output := by
  have e1 : (smallMerge catGlobals
      [[1, 2, 3, 4, 5, 6], [1, 2, 10, 11, 12, 13, 14], [3, 4, 10, 11, 12, 13, 15]] []).map
        (fun r => r.output)
      = some [[1, 2, 3, 4, 5, 6], [1, 2, 3, 4, 10, 11, 12, 13, 14, 15]] := by decide!
  have e2 : (smallMerge catGlobals
      [[1, 2, 10, 11, 12, 13, 14], [3, 4, 10, 11, 12, 13, 15], [1, 2, 3, 4, 5, 6]] []).map
        (fun r => r.output)
      = some [[1, 2, 3, 4, 5, 6, 10, 11, 12, 13, 14, 15]] := by decide!
  obtain ⟨r1, h1, o1⟩ := Option.map_eq_some'.mp e1
  obtain ⟨r2, h2, o2⟩ := Option.map_eq_some'.mp e2
  refine ⟨_, _, catGlobals, r1, r2, ?_, h1, h2, ?_⟩
  · decide
  · intro h
    have := (h [1, 2, 3, 4, 5, 6]).mp (by rw [o1]; decide)
    rw [o2] at this
    exact absurd this (by decide)

/-! ## The two ratios -/

/-- C19 fails as stated: for `classes[i] = 1, 2, 3` and `classes[j] = 2, 3, 4, 5` the value
of `lratio` is the `double` nearest to `2 / 3`, the share of the common words in
`classes[i]`, not their share `2 / 4` in `classes[j]`; and `rratio` is `2 / 4`, not
`2 / 3`. -/
theorem ratio_claim_counterexample :
    ratio (set_comparison [1, 2, 3] [2, 3, 4, 5]).2.2 (set_comparison [1, 2, 3] [2, 3, 4, 5]).1
        ≠ (commonCount [1, 2, 3] [2, 3, 4, 5] : ℚ) / (([2, 3, 4, 5] : List Nat).length : ℚ) ∧
    ratio (set_comparison [1, 2, 3] [2, 3, 4, 5]).2.2
        (set_comparison [1, 2, 3] [2, 3, 4, 5]).2.1
        ≠ (commonCount [1, 2, 3] [2, 3, 4, 5] : ℚ) / (([1, 2, 3] : List Nat).length : ℚ) :=
  ⟨by decide!, by decide!⟩

/-- C19 (amended): for strictly ascending classes, `common` holds the common words, the
divisor `common.size() + left.size()` of `lratio` is the size of `classes[i]` and the divisor
`common.size() + right.size()` of `rratio` is the size of `classes[j]`. So `lratio` is the
number of common words divided by the size of `classes[i]`, and `rratio` is the number of
common words divided by the size of `classes[j]`, each rounded to `double` by the
division. -/
theorem ratio_eq (ci cj : List α) (hi : ci.Sorted (· < ·)) (hj : cj.Sorted (· < ·)) :
    (set_comparison ci cj).2.2.length = commonCount ci cj ∧
    (set_comparison ci cj).2.2.length + (set_comparison ci cj).1.length = ci.length ∧
    (set_comparison ci cj).2.2.length + (set_comparison ci cj).2.1.length = cj.length ∧
    ratio (set_comparison ci cj).2.2 (set_comparison ci cj).1
        = toDouble ((commonCount ci cj : ℚ) / (ci.length : ℚ)) ∧
    ratio (set_comparison ci cj).2.2 (set_comparison ci cj).2.1
        = toDouble ((commonCount ci cj : ℚ) / (cj.length : ℚ)) := by
  have hlen := set_comparison_lengths ci cj
  have hc : (set_comparison ci cj).2.2 = ci.filter (fun w => decide (w ∈ cj)) := by
    rw [set_comparison_eq hi hj]
  refine ⟨?_, hlen.1, hlen.2, ?_, ?_⟩
  · rw [hc]; rfl
  · unfold ratio commonCount
    rw [hlen.1, hc]
  · unfold ratio commonCount
    rw [hlen.2, hc]

/-- Instance of `ratio_eq`: the classes `1, 2, 3` and `2, 3, 4, 5`, with two common words;
`lratio` is the `double` nearest to `2 / 3` and `rratio` is `2 / 4`. -/
theorem ratio_eq_witness :
    [1, 2, 3].Sorted (· < ·) ∧ [2, 3, 4, 5].Sorted (· < ·) ∧
    ((set_comparison [1, 2, 3] [2, 3, 4, 5]).2.2.length = commonCount [1, 2, 3] [2, 3, 4, 5] ∧
    (set_comparison [1, 2, 3] [2, 3, 4, 5]).2.2.length
        + (set_comparison [1, 2, 3] [2, 3, 4, 5]).1.length = [1, 2, 3].length ∧
    (set_comparison [1, 2, 3] [2, 3, 4, 5]).2.2.length
        + (set_comparison [1, 2, 3] [2, 3, 4, 5]).2.1.length = [2, 3, 4, 5].length ∧
    ratio (set_comparison [1, 2, 3] [2, 3, 4, 5]).2.2 (set_comparison [1, 2, 3] [2, 3, 4, 5]).1
        = toDouble ((commonCount [1, 2, 3] [2, 3, 4, 5] : ℚ)
            / (([1, 2, 3] : List Nat).length : ℚ)) ∧
    ratio (set_comparison [1, 2, 3] [2, 3, 4, 5]).2.2
        (set_comparison [1, 2, 3] [2, 3, 4, 5]).2.1
        = toDouble ((commonCount [1, 2, 3] [2, 3, 4, 5] : ℚ)
            / (([2, 3, 4, 5] : List Nat).length : ℚ))) ∧
    ratio (set_comparison [1, 2, 3] [2, 3, 4, 5]).2.2 (set_comparison [1, 2, 3] [2, 3, 4, 5]).1
        = 6004799503160661 / 9007199254740992 ∧
    ratio (set_comparison [1, 2, 3] [2, 3, 4, 5]).2.2
        (set_comparison [1, 2, 3] [2, 3, 4, 5]).2.1 = 1 / 2 :=
  ⟨by decide, by decide, ratio_eq [1, 2, 3] [2, 3, 4, 5] (by decide) (by decide),
    by decide!, by decide!⟩

/-! ## Classes are cleared or grown -/

theorem mem_mergeWords_left : ∀ (cj ci : List α) (w : α), w ∈ ci → w ∈ mergeWords ci cj := by
  intro cj
  induction cj with
  | nil => intro ci w h; exact h
  | cons x cj ih =>
    intro ci w h
    rw [mergeWords_cons]
    apply ih
    by_cases hx : binary_search ci x = true
    · rw [if_pos hx]; exact h
    · rw [if_neg hx, mem_sort]
      exact List.mem_append_left _ h

theorem step_grown_any {t : ℚ} {first : MeaningFamily α} {s s' : LoopState α}
    (h : Step t s s') (hg : Grown first s) : Grown first s' := by
  intro k c0 c hc0 hc hcn w hw
  cases h with
  | subsetJ i j ci cj left right common hij hci hcj hcin hcjn hsc hr =>
    obtain ⟨cb, hcb, hcbn, h⟩ := high_eliminate first s j k c hc hcn
    rcases h with rfl | ⟨hsub, _⟩
    · exact hg k c0 c hc0 hcb hcn w hw
    · exact hsub w (hg k c0 cb hc0 hcb hcbn w hw)
  | subsetI i j ci cj left right common hij hci hcj hcin hcjn hsc hr hl =>
    obtain ⟨cb, hcb, hcbn, h⟩ := high_eliminate first s i k c hc hcn
    rcases h with rfl | ⟨hsub, _⟩
    · exact hg k c0 c hc0 hcb hcn w hw
    · exact hsub w (hg k c0 cb hc0 hcb hcbn w hw)
  | merge i j ci cj left right common hij hci hcj hcin hcjn hsc hr hl hsim =>
    have hc' : ((s.classes.set i (mergeWords ci cj)).set j [])[k]? = some c := hc
    rw [List.getElem?_set] at hc'
    split at hc'
    · split at hc'
      · exact absurd (Option.some.inj hc').symm hcn
      · exact absurd hc' (by simp)
    · rw [List.getElem?_set] at hc'
      split at hc'
      · next hik =>
        subst hik
        split at hc'
        · have hm : c = mergeWords ci cj := (Option.some.inj hc').symm
          subst hm
          exact mem_mergeWords_left cj ci w (hg i c0 ci hc0 hci hcin w hw)
        · exact absurd hc' (by simp)
      · exact hg k c0 c hc0 hc' hcn w hw

theorem steps_grown_any {t : ℚ} {first : MeaningFamily α} {s s' : LoopState α}
    (h : Steps t s s') (hg : Grown first s) : Grown first s' := by
  induction h with
  | refl => exact hg
  | tail _ hstep ih => exact step_grown_any hstep ih

theorem grown_refl (first : MeaningFamily α) (S M : Nat) :
    Grown first { SUBSETS := S, MERGES := M, classes := first } := by
  intro k c0 c hc0 hc _ w hw
  have : c0 = c := Option.some.inj (hc0.symm.trans hc)
  exact this ▸ hw

/-- C12: after the call the collection has its old length, and the class at every index is
either empty or contains every word the input class at that index had. -/
theorem smallMerge_cleared_or_grown (g : Globals) (classes output : MeaningFamily α)
    (hsize : classes.length < UINT_RANGE) :
    ∃ r, smallMerge g classes output = some r ∧ r.classes.length = classes.length ∧
      ∀ (k : Nat) (c0 c : List α), classes[k]? = some c0 → r.classes[k]? = some c →
        c = [] ∨ ∀ w ∈ c0, w ∈ c := by
  obtain ⟨st, hsteps, _, h⟩ := smallMerge_eq g classes output hsize
  refine ⟨_, h, by rw [steps_length_eq hsteps]; exact phase1_length classes, ?_⟩
  intro k c0 c hc0 hc
  by_cases hcn : c = []
  · exact Or.inl hcn
  · right
    have hg := steps_grown_any hsteps (grown_refl (phase1 classes) 0 0)
    have hp : (phase1 classes)[k]? = some (normalize c0) := by
      rw [phase1_getElem?, hc0]; rfl
    by_cases h2 : c0.length = 2
    · rw [normalize_of_two h2] at hp
      have := steps_empty_stays hsteps (k := k) hp
      exact absurd (Option.some.inj (this.symm.trans hc)).symm hcn
    · rw [normalize_of_ne_two h2] at hp
      intro w hw
      exact hg k (sort c0) c hp hc hcn w (mem_sort.mpr hw)

/-- Instance of `smallMerge_cleared_or_grown` on the merge scenario. -/
theorem smallMerge_cleared_or_grown_witness :
    catFamilies.length < UINT_RANGE ∧
    ∃ r, smallMerge catGlobals catFamilies [] = some r ∧
      r.classes.length = catFamilies.length ∧
      ∀ (k : Nat) (c0 c : List String), catFamilies[k]? = some c0 → r.classes[k]? = some c →
        c = [] ∨ ∀ w ∈ c0, w ∈ c :=
  ⟨by decide, smallMerge_cleared_or_grown catGlobals catFamilies [] (by decide)⟩

/-! ## The two counters -/

theorem uint_incr {k m : Nat} (hm : m < UINT_RANGE) (hk : k < m) :
    (k + 1) % UINT_RANGE = k + 1 :=
  Nat.mod_eq_of_lt (by omega)

theorem step_count {t : ℚ} {s s' : LoopState α} (h : Step t s s') {total : Nat}
    (htotal : total < UINT_RANGE)
    (hc : s.SUBSETS + s.MERGES + nonEmptyCount s.classes = total) :
    s'.SUBSETS + s'.MERGES + nonEmptyCount s'.classes = total := by
  have hne := step_nonEmptyCount_succ h
  cases h with
  | subsetJ i j ci cj left right common hij hci hcj hcin hcjn hsc hr =>
    show (s.SUBSETS + 1) % UINT_RANGE + s.MERGES + nonEmptyCount (eliminate s j).classes = total
    rw [uint_incr htotal (by omega)]
    omega
  | subsetI i j ci cj left right common hij hci hcj hcin hcjn hsc hr hl =>
    show (s.SUBSETS + 1) % UINT_RANGE + s.MERGES + nonEmptyCount (eliminate s i).classes = total
    rw [uint_incr htotal (by omega)]
    omega
  | merge i j ci cj left right common hij hci hcj hcin hcjn hsc hr hl hsim =>
    show s.SUBSETS + (s.MERGES + 1) % UINT_RANGE
      + nonEmptyCount (absorb s i j ci cj).classes = total
    rw [uint_incr htotal (by omega)]
    omega

theorem steps_count {t : ℚ} {s s' : LoopState α} (h : Steps t s s') {total : Nat}
    (htotal : total < UINT_RANGE)
    (hc : s.SUBSETS + s.MERGES + nonEmptyCount s.classes = total) :
    s'.SUBSETS + s'.MERGES + nonEmptyCount s'.classes = total := by
  induction h with
  | refl => exact hc
  | tail _ hstep ih => exact step_count hstep htotal ih

/-- C16: whatever the globals held before the call, afterwards the two counters add up to
the number of classes that were non-empty after the first loop minus the number of classes
that are non-empty at the end. -/
theorem smallMerge_counters (g : Globals) (classes output : MeaningFamily α)
    (hsize : classes.length < UINT_RANGE) :
    ∃ r, smallMerge g classes output = some r ∧
      r.globals.SUBSETS + r.globals.MERGES + nonEmptyCount r.classes
        = nonEmptyCount (phase1 classes) ∧
      r.globals.SUBSETS + r.globals.MERGES
        = nonEmptyCount (phase1 classes) - nonEmptyCount r.classes := by
  obtain ⟨st, hsteps, _, h⟩ := smallMerge_eq g classes output hsize
  have hlt : nonEmptyCount (phase1 classes) < UINT_RANGE := by
    have := nonEmptyCount_le_length (phase1 classes)
    rw [phase1_length] at this
    omega
  have := steps_count hsteps hlt (by simp)
  refine ⟨_, h, this, ?_⟩
  show st.SUBSETS + st.MERGES
    = nonEmptyCount (phase1 classes) - nonEmptyCount st.classes
  have h' : st.SUBSETS + st.MERGES + nonEmptyCount st.classes
      = nonEmptyCount (phase1 classes) := this
  omega

/-- Instance of `smallMerge_counters` on the merge scenario, entered with globals that hold
the counts of an earlier call. -/
theorem smallMerge_counters_witness :
    catFamilies.length < UINT_RANGE ∧
    ∃ r, smallMerge { catGlobals with SUBSETS := 7, MERGES := 9 } catFamilies [] = some r ∧
      r.globals.SUBSETS + r.globals.MERGES + nonEmptyCount r.classes
        = nonEmptyCount (phase1 catFamilies) ∧
      r.globals.SUBSETS + r.globals.MERGES
        = nonEmptyCount (phase1 catFamilies) - nonEmptyCount r.classes :=
  ⟨by decide, smallMerge_counters { catGlobals with SUBSETS := 7, MERGES := 9 } catFamilies []
    (by decide)⟩

/-! ## The words of the collection -/

theorem eliminate_getElem?_self (s : LoopState α) {k : Nat} (hk : k < s.classes.length) :
    (eliminate s k).classes[k]? = some [] :=
  List.getElem?_set_self hk

theorem absorb_getElem?_left (s : LoopState α) {i j : Nat} (ci cj : List α) (hij : i < j)
    (hi : i < s.classes.length) :
    (absorb s i j ci cj).classes[i]? = some (mergeWords ci cj) := by
  show ((s.classes.set i (mergeWords ci cj)).set j [])[i]? = _
  rw [List.getElem?_set_ne (by omega), List.getElem?_set_self hi]

theorem step_words {t : ℚ} {s s' : LoopState α} (h : Step t s s') (hs : AllSorted s)
    (w : α) : (∃ c ∈ s'.classes, w ∈ c) ↔ (∃ c ∈ s.classes, w ∈ c) := by
  cases h with
  | subsetJ i j ci cj left right common hij hci hcj hcin hcjn hsc hr =>
    have hsub : ∀ x ∈ cj, x ∈ ci := by
      have := set_comparison_right_nil (hs ci (List.getElem?_mem hci))
        (hs cj (List.getElem?_mem hcj))
      rw [hsc] at this
      exact this.mp hr
    constructor
    · rintro ⟨c, hc, hw⟩
      rcases mem_eliminate hc with h | h
      · exact ⟨c, h, hw⟩
      · subst h; exact absurd hw (List.not_mem_nil w)
    · rintro ⟨c, hc, hw⟩
      obtain ⟨k, hk⟩ := List.getElem?_of_mem hc
      by_cases hkj : k = j
      · subst hkj
        have : c = cj := Option.some.inj (hk.symm.trans hcj)
        subst this
        refine ⟨ci, List.getElem?_mem (?_ : (eliminate s k).classes[i]? = some ci),
          hsub w hw⟩
        rw [eliminate_getElem?_ne s (by omega)]; exact hci
      · refine ⟨c, List.getElem?_mem (?_ : (eliminate s j).classes[k]? = some c), hw⟩
        rw [eliminate_getElem?_ne s (Ne.symm hkj)]; exact hk
  | subsetI i j ci cj left right common hij hci hcj hcin hcjn hsc hr hl =>
    have hsub : ∀ x ∈ ci, x ∈ cj := by
      have := set_comparison_left_nil (hs ci (List.getElem?_mem hci))
        (hs cj (List.getElem?_mem hcj))
      rw [hsc] at this
      exact this.mp hl
    constructor
    · rintro ⟨c, hc, hw⟩
      rcases mem_eliminate hc with h | h
      · exact ⟨c, h, hw⟩
      · subst h; exact absurd hw (List.not_mem_nil w)
    · rintro ⟨c, hc, hw⟩
      obtain ⟨k, hk⟩ := List.getElem?_of_mem hc
      by_cases hki : k = i
      · subst hki
        have : c = ci := Option.some.inj (hk.symm.trans hci)
        subst this
        refine ⟨cj, List.getElem?_mem (?_ : (eliminate s k).classes[j]? = some cj),
          hsub w hw⟩
        rw [eliminate_getElem?_ne s (by omega)]; exact hcj
      · refine ⟨c, List.getElem?_mem (?_ : (eliminate s i).classes[k]? = some c), hw⟩
        rw [eliminate_getElem?_ne s (Ne.symm hki)]; exact hk
  | merge i j ci cj left right common hij hci hcj hcin hcjn hsc hr hl hsim =>
    have hspec := (mergeWords_spec cj ci (hs ci (List.getElem?_mem hci))).2
    have hi : i < s.classes.length := (List.getElem?_eq_some.mp hci).1
    have hm := absorb_getElem?_left s ci cj hij hi
    constructor
    · rintro ⟨c, hc, hw⟩
      rcases mem_absorb hc with h | h | h
      · exact ⟨c, h, hw⟩
      · subst h
        rcases (hspec w).mp hw with h | h
        · exact ⟨ci, List.getElem?_mem hci, h⟩
        · exact ⟨cj, List.getElem?_mem hcj, h⟩
      · subst h; exact absurd hw (List.not_mem_nil w)
    · rintro ⟨c, hc, hw⟩
      obtain ⟨k, hk⟩ := List.getElem?_of_mem hc
      by_cases hki : k = i
      · subst hki
        have : c = ci := Option.some.inj (hk.symm.trans hci)
        subst this
        exact ⟨_, List.getElem?_mem hm, (hspec w).mpr (Or.inl hw)⟩
      · by_cases hkj : k = j
        · subst hkj
          have : c = cj := Option.some.inj (hk.symm.trans hcj)
          subst this
          exact ⟨_, List.getElem?_mem hm, (hspec w).mpr (Or.inr hw)⟩
        · refine ⟨c, List.getElem?_mem (?_ : (absorb s i j ci cj).classes[k]? = some c), hw⟩
          rw [absorb_getElem?_ne s ci cj (Ne.symm hki) (Ne.symm hkj)]; exact hk

theorem steps_words {t : ℚ} {s s' : LoopState α} (h : Steps t s s') (hs : AllSorted s)
    (w : α) : (∃ c ∈ s'.classes, w ∈ c) ↔ (∃ c ∈ s.classes, w ∈ c) := by
  induction h with
  | refl => exact Iff.rfl
  | tail hsteps hstep ih =>
    exact (step_words hstep (steps_sorted hsteps hs) w).trans ih

theorem phase1_words (classes : MeaningFamily α) (w : α) :
    (∃ c ∈ phase1 classes, w ∈ c) ↔ (∃ c ∈ classes, c.length ≠ 2 ∧ w ∈ c) := by
  constructor
  · rintro ⟨c, hc, hw⟩
    obtain ⟨c0, hc0, rfl⟩ := List.mem_map.mp hc
    by_cases h2 : c0.length = 2
    · rw [normalize_of_two h2] at hw
      exact absurd hw (List.not_mem_nil w)
    · exact ⟨c0, hc0, h2, mem_normalize hw⟩
  · rintro ⟨c, hc, h2, hw⟩
    refine ⟨normalize c, List.mem_map.mpr ⟨c, hc, rfl⟩, ?_⟩
    rw [normalize_of_ne_two h2]
    exact mem_sort.mpr hw

/-- C15: when every input class has distinct words, a word occurs in some class of the
final collection exactly when it occurs in some class after the first loop, that is, in
some input class whose size is not 2; and if some class is non-empty after the first loop,
some class is non-empty at the end. -/
theorem smallMerge_words (g : Globals) (classes output : MeaningFamily α)
    (hsize : classes.length < UINT_RANGE) (hd : ∀ c ∈ classes, c.Nodup) :
    ∃ r, smallMerge g classes output = some r ∧
      (∀ w, (∃ c ∈ r.classes, w ∈ c) ↔ (∃ c ∈ phase1 classes, w ∈ c)) ∧
      (∀ w, (∃ c ∈ r.classes, w ∈ c) ↔ (∃ c ∈ classes, c.length ≠ 2 ∧ w ∈ c)) ∧
      ((∃ c ∈ phase1 classes, c ≠ []) → ∃ c ∈ r.classes, c ≠ []) := by
  obtain ⟨st, hsteps, _, h⟩ := smallMerge_eq g classes output hsize
  have hw := steps_words hsteps (phase1_sorted hd)
  refine ⟨_, h, hw, fun w => (hw w).trans (phase1_words classes w), ?_⟩
  rintro ⟨c, hc, hne⟩
  obtain ⟨w, hwc⟩ := List.exists_mem_of_ne_nil c hne
  obtain ⟨c', hc', hw'⟩ := (hw w).mpr ⟨c, hc, hwc⟩
  exact ⟨c', hc', List.ne_nil_of_mem hw'⟩

/-- Instance of `smallMerge_words` on the merge scenario. -/
theorem smallMerge_words_witness :
    catFamilies.length < UINT_RANGE ∧ (∀ c ∈ catFamilies, c.Nodup) ∧
    ∃ r, smallMerge catGlobals catFamilies [] = some r ∧
      (∀ w, (∃ c ∈ r.classes, w ∈ c) ↔ (∃ c ∈ phase1 catFamilies, w ∈ c)) ∧
      (∀ w, (∃ c ∈ r.classes, w ∈ c) ↔ (∃ c ∈ catFamilies, c.length ≠ 2 ∧ w ∈ c)) ∧
      ((∃ c ∈ phase1 catFamilies, c ≠ []) → ∃ c ∈ r.classes, c ≠ []) :=
  have hd : ∀ c ∈ catFamilies, c.Nodup := by decide!
  ⟨by decide, hd, smallMerge_words catGlobals catFamilies [] (by decide) hd⟩

/-! ## No class of exactly two words -/

theorem length_le_of_nodup_subset {a b : List α} (ha : a.Nodup) (h : ∀ w ∈ a, w ∈ b) :
    a.length ≤ b.length :=
  (List.subperm_of_subset ha h).length_le

theorem mergeWords_length_ne_two {t : ℚ} (ht : 0 < t) {ci cj left right common : List α}
    (hsi : ci.Sorted (· < ·)) (hcin : ci ≠ []) (h2 : ci.length ≠ 2)
    (hsc : set_comparison ci cj = (left, right, common)) (hl : left ≠ [])
    (hsim : similar t left right common) : (mergeWords ci cj).length ≠ 2 := by
  have hle : ci.length ≤ (mergeWords ci cj).length :=
    length_le_of_nodup_subset hsi.nodup (fun w hw => mem_mergeWords_left cj ci w hw)
  have hpos : 0 < ci.length := List.length_pos.mpr hcin
  have hlen := (set_comparison_lengths ci cj).1
  rw [hsc] at hlen
  have hlpos : 0 < left.length := List.length_pos.mpr hl
  by_cases h1 : ci.length = 1
  · exfalso
    have hc0 : common = [] := List.length_eq_zero.mp (by simp only [] at hlen; omega)
    subst hc0
    exact not_similar_nil ht _ _ hsim
  · omega

theorem step_no_pair {t : ℚ} (ht : 0 < t) {s s' : LoopState α} (h : Step t s s')
    (hs : AllSorted s) (h2 : ∀ c ∈ s.classes, c.length ≠ 2) :
    ∀ c ∈ s'.classes, c.length ≠ 2 := by
  cases h with
  | subsetJ i j ci cj left right common hij hci hcj hcin hcjn hsc hr =>
    intro c hc
    rcases mem_eliminate hc with h | h
    · exact h2 c h
    · subst h; simp
  | subsetI i j ci cj left right common hij hci hcj hcin hcjn hsc hr hl =>
    intro c hc
    rcases mem_eliminate hc with h | h
    · exact h2 c h
    · subst h; simp
  | merge i j ci cj left right common hij hci hcj hcin hcjn hsc hr hl hsim =>
    intro c hc
    rcases mem_absorb hc with h | h | h
    · exact h2 c h
    · subst h
      exact mergeWords_length_ne_two ht (hs ci (List.getElem?_mem hci)) hcin
        (h2 ci (List.getElem?_mem hci)) hsc hl hsim
    · subst h; simp

theorem steps_no_pair {t : ℚ} (ht : 0 < t) {s s' : LoopState α} (h : Steps t s s')
    (hs : AllSorted s) (h2 : ∀ c ∈ s.classes, c.length ≠ 2) :
    ∀ c ∈ s'.classes, c.length ≠ 2 := by
  induction h with
  | refl => exact h2
  | tail hsteps hstep ih => exact step_no_pair ht hstep (steps_sorted hsteps hs) ih

theorem phase1_no_pair (classes : MeaningFamily α) : ∀ c ∈ phase1 classes, c.length ≠ 2 := by
  intro c hc
  obtain ⟨c0, _, rfl⟩ := List.mem_map.mp hc
  by_cases h2 : c0.length = 2
  · rw [normalize_of_two h2]; simp
  · rw [normalize_of_ne_two h2, sort_length]; exact h2

/-- C17: with distinct words in every input class and a positive threshold, no class has
exactly two words after the first loop, nor in any state reached from there by subset
eliminations and merges of the pairwise loop, nor in the collection the call leaves. -/
theorem smallMerge_no_two_words (g : Globals) (classes output : MeaningFamily α)
    (hsize : classes.length < UINT_RANGE) (hd : ∀ c ∈ classes, c.Nodup)
    (ht : 0 < g.SMALLMERGE_RATIO) :
    (∀ c ∈ phase1 classes, c.length = 0 ∨ c.length = 1 ∨ 3 ≤ c.length) ∧
    (∀ st, Steps g.SMALLMERGE_RATIO { SUBSETS := 0, MERGES := 0, classes := phase1 classes } st →
      ∀ c ∈ st.classes, c.length = 0 ∨ c.length = 1 ∨ 3 ≤ c.length) ∧
    ∃ r, smallMerge g classes output = some r ∧
      ∀ c ∈ r.classes, c.length = 0 ∨ c.length = 1 ∨ 3 ≤ c.length := by
  have hsplit : ∀ n : Nat, n ≠ 2 → n = 0 ∨ n = 1 ∨ 3 ≤ n := fun n h => by omega
  have hall : ∀ st, Steps g.SMALLMERGE_RATIO
      { SUBSETS := 0, MERGES := 0, classes := phase1 classes } st →
      ∀ c ∈ st.classes, c.length ≠ 2 :=
    fun st hst => steps_no_pair ht hst (phase1_sorted hd) (phase1_no_pair classes)
  obtain ⟨st, hsteps, _, h⟩ := smallMerge_eq g classes output hsize
  exact ⟨fun c hc => hsplit _ (phase1_no_pair classes c hc),
    fun st hst c hc => hsplit _ (hall st hst c hc),
    _, h, fun c hc => hsplit _ (hall st hsteps c hc)⟩

/-- Instance of `smallMerge_no_two_words` on the merge scenario. -/
theorem smallMerge_no_two_words_witness :
    catFamilies.length < UINT_RANGE ∧ (∀ c ∈ catFamilies, c.Nodup) ∧
    0 < catGlobals.SMALLMERGE_RATIO ∧
    (∀ c ∈ phase1 catFamilies, c.length = 0 ∨ c.length = 1 ∨ 3 ≤ c.length) ∧
    (∀ st, Steps catGlobals.SMALLMERGE_RATIO
        { SUBSETS := 0, MERGES := 0, classes := phase1 catFamilies } st →
      ∀ c ∈ st.classes, c.length = 0 ∨ c.length = 1 ∨ 3 ≤ c.length) ∧
    ∃ r, smallMerge catGlobals catFamilies [] = some r ∧
      ∀ c ∈ r.classes, c.length = 0 ∨ c.length = 1 ∨ 3 ≤ c.length :=
  have hd : ∀ c ∈ catFamilies, c.Nodup := by decide!
  have ht : 0 < catGlobals.SMALLMERGE_RATIO := by decide!
  ⟨by decide, hd, ht, smallMerge_no_two_words catGlobals catFamilies [] (by decide) hd ht⟩

/-! ## Termination of the pairwise loop -/

theorem outerLoop_fuel_mono (t : ℚ) : ∀ (fuel i : Nat) (st r : LoopState α),
    outerLoop t fuel i st = some r → ∀ k, outerLoop t (fuel + k) i st = some r := by
  intro fuel
  induction fuel with
  | zero => intro i st r h; simp [outerLoop] at h
  | succ fuel ih =>
    intro i st r h k
    have hk : fuel + 1 + k = (fuel + k) + 1 := by omega
    rw [hk]
    unfold outerLoop at h ⊢
    by_cases hi : i < st.classes.length
    · rw [if_pos hi] at h ⊢
      cases hci : st.classes[i]? with
      | none => rw [hci] at h; simp at h
      | some ci =>
        rw [hci] at h
        simp only [] at h ⊢
        by_cases hce : ci.isEmpty = true
        · rw [if_pos hce] at h ⊢
          exact ih _ _ _ h k
        · rw [if_neg hce] at h ⊢
          cases hin : innerLoop t (st.classes.length + 1) i ((i + 1) % UINT_RANGE) st with
          | none => rw [hin] at h; simp at h
          | some p =>
            rw [hin] at h
            simp only [] at h ⊢
            exact ih _ _ _ h k
    · rw [if_neg hi] at h ⊢
      exact h

/-- C13: for every collection whose size fits the index type and every threshold, the
pairwise loop returns, and it returns the same state under every iteration budget above the
number of non-empty classes plus the number of indices. The reason is in the inner loop: for
a non-empty `classes[i]` it always returns, either with `i` unchanged and no more non-empty
classes than before, or with `i` decremented and strictly fewer non-empty classes. -/
theorem phase2_terminates (t : ℚ) (classes : MeaningFamily α)
    (hsize : classes.length < UINT_RANGE) :
    (∃ st, phase2 t classes = some st ∧
      ∀ fuel, nonEmptyCount classes + classes.length < fuel →
        outerLoop t fuel 0 { SUBSETS := 0, MERGES := 0, classes := classes } = some st) ∧
    (∀ (st : LoopState α) (i : Nat) (ci : List α), st.classes.length = classes.length →
      i < classes.length → st.classes[i]? = some ci → ci ≠ [] →
      ∃ r, innerLoop t (classes.length + 1) i (i + 1) st = some r ∧
        r.2.classes.length = classes.length ∧
        ((r.1 = i ∧ nonEmptyCount r.2.classes ≤ nonEmptyCount st.classes) ∨
          (r.1 = (i + UINT_RANGE - 1) % UINT_RANGE ∧
            nonEmptyCount r.2.classes < nonEmptyCount st.classes))) := by
  constructor
  · obtain ⟨st, h, _⟩ := phase2_steps t classes hsize
    refine ⟨st, h, ?_⟩
    intro fuel hf
    obtain ⟨st', h', _⟩ := outerLoop_rule t classes.length hsize
      (fun _ (s : LoopState α) => s.classes.length = classes.length)
      (fun _ _ h => h) (fun _ _ h _ _ => h)
      (by
        intro i s ci r h1 hi hci hne hr
        obtain ⟨r', hr', hs, _⟩ := innerLoop_steps t hsize hi h1 hci hne
        rw [hr] at hr'
        cases hr'
        rw [steps_length_eq hs, h1])
      fuel 0 { SUBSETS := 0, MERGES := 0, classes := classes } (Nat.zero_le _)
      (by simp only []; omega) rfl
    have e1 := outerLoop_fuel_mono t _ _ _ _ h' (2 * classes.length + 1)
    have e2 := outerLoop_fuel_mono t _ _ _ _ h fuel
    unfold phase2 at h
    rw [show fuel + (2 * classes.length + 1) = 2 * classes.length + 1 + fuel by omega] at e1
    rw [e1] at e2
    rw [h', e2]
  · intro st i ci hlen hi hci hne
    obtain ⟨r, hr, hs, hidx⟩ := innerLoop_steps t hsize hi hlen hci hne
    refine ⟨r, hr, by rw [steps_length_eq hs, hlen], ?_⟩
    rcases hidx with h | h
    · exact Or.inl ⟨h, steps_nonEmptyCount_le hs⟩
    · exact Or.inr h

/-- Instance of `phase2_terminates` on the normalised merge scenario. -/
theorem phase2_terminates_witness :
    (phase1 catFamilies).length < UINT_RANGE ∧
    (∃ st, phase2 (1 / 2) (phase1 catFamilies) = some st ∧
      ∀ fuel, nonEmptyCount (phase1 catFamilies) + (phase1 catFamilies).length < fuel →
        outerLoop (1 / 2) fuel 0 { SUBSETS := 0, MERGES := 0, classes := phase1 catFamilies }
          = some st) ∧
    (∀ (st : LoopState String) (i : Nat) (ci : List String),
      st.classes.length = (phase1 catFamilies).length →
      i < (phase1 catFamilies).length → st.classes[i]? = some ci → ci ≠ [] →
      ∃ r, innerLoop (1 / 2) ((phase1 catFamilies).length + 1) i (i + 1) st = some r ∧
        r.2.classes.length = (phase1 catFamilies).length ∧
        ((r.1 = i ∧ nonEmptyCount r.2.classes ≤ nonEmptyCount st.classes) ∨
          (r.1 = (i + UINT_RANGE - 1) % UINT_RANGE ∧
            nonEmptyCount r.2.classes < nonEmptyCount st.classes))) :=
  ⟨by decide, phase2_terminates (1 / 2) (phase1 catFamilies) (by decide)⟩

/-! ## The rewind of the outer index -/

theorem uint_incr_ne (m : Nat) : (m + 1) % UINT_RANGE ≠ m := by
  unfold UINT_RANGE
  omega

theorem uint_pred_zero : (0 + UINT_RANGE - 1) % UINT_RANGE = 2 ^ 32 - 1 := by
  unfold UINT_RANGE
  omega

/-- The inner loop leaves `MERGES` alone and `i` unchanged, or it has merged a later class
into `classes[i]`, counted the merge and decremented `i`. -/
theorem innerLoop_exit (t : ℚ) {n i : Nat} (hn : n < UINT_RANGE) (hi : i < n)
    {st : LoopState α} (hlen : st.classes.length = n) :
    ∃ r, innerLoop t (n + 1) i (i + 1) st = some r ∧ r.2.classes.length = n ∧
      ((r.2.MERGES = st.MERGES ∧ r.1 = i) ∨
        (r.2.MERGES = (st.MERGES + 1) % UINT_RANGE ∧ r.1 = (i + UINT_RANGE - 1) % UINT_RANGE ∧
          ∃ (s : LoopState α) (j : Nat) (ci cj : List α), i < j ∧ j < n ∧
            s.classes.length = n ∧ ci ≠ [] ∧ r.2 = absorb s i j ci cj)) := by
  apply innerLoop_rule t n i hn hi
    (fun _ s => s.classes.length = n ∧ s.MERGES = st.MERGES ∧
      ∀ c, st.classes[i]? = some c → s.classes[i]? = some c)
    (fun r => r.2.classes.length = n ∧
      ((r.2.MERGES = st.MERGES ∧ r.1 = i) ∨
        (r.2.MERGES = (st.MERGES + 1) % UINT_RANGE ∧ r.1 = (i + UINT_RANGE - 1) % UINT_RANGE ∧
          ∃ (s : LoopState α) (j : Nat) (ci cj : List α), i < j ∧ j < n ∧
            s.classes.length = n ∧ ci ≠ [] ∧ r.2 = absorb s i j ci cj)))
  · intro j s h; exact h.1
  · intro j s h _ _ _; exact h
  · rintro j s ci cj left right common ⟨h1, h2, h3⟩ hij _ _ _ _ _ _
    refine ⟨by rw [eliminate_length]; exact h1, h2, ?_⟩
    intro c hc
    rw [eliminate_getElem?_ne s (by omega)]
    exact h3 c hc
  · rintro j s ci cj left right common ⟨h1, h2, _⟩ _ _ _ _ _ _ _ _
    exact ⟨by rw [eliminate_length]; exact h1, Or.inl ⟨h2, rfl⟩⟩
  · rintro j s ci cj left right common ⟨h1, h2, _⟩ hij hj hci _ _ hsc _ hl _
    refine ⟨by rw [absorb_length]; exact h1, Or.inr ⟨?_, rfl, s, j, ci, cj, hij, hj, h1, ?_,
      rfl⟩⟩
    · show (s.MERGES + 1) % UINT_RANGE = _
      rw [h2]
    · rintro rfl
      have := (set_comparison_lengths ([] : List α) cj).1
      rw [hsc] at this
      have : left.length = 0 := by simp only [List.length_nil] at this; omega
      exact hl (List.length_eq_zero.mp this)
  · intro j s ci cj left right common h _ _ _ _ _ _ _ _ _; exact h
  · rintro s ⟨h1, h2, _⟩
    exact ⟨h1, Or.inl ⟨h2, rfl⟩⟩
  · omega
  · omega
  · omega
  · exact ⟨hlen, rfl, fun c hc => hc⟩

/-- C14: let the inner loop for a non-empty `classes[i]` end with a merge, that is, with
`MERGES` changed. Then `i` has been decremented modulo `2 ^ 32` (to `2 ^ 32 - 1` when
`i = 0`), the increment of the outer loop brings it back to `i`, and the outer loop goes on
from the merged state with the same `i`: index `i` is still inside the collection and holds
a non-empty class, so the next iteration runs the inner loop again from `j = i + 1`, which
does not wrap. -/
theorem outerLoop_rewind (t : ℚ) (n i : Nat) (hn : n < UINT_RANGE) (hi : i < n)
    (st : LoopState α) (hlen : st.classes.length = n) (ci : List α)
    (hci : st.classes[i]? = some ci) (hne : ci ≠ []) :
    ∃ r, innerLoop t (n + 1) i (i + 1) st = some r ∧
      (r.2.MERGES ≠ st.MERGES →
        r.1 = (i + UINT_RANGE - 1) % UINT_RANGE ∧ (i = 0 → r.1 = 2 ^ 32 - 1) ∧
        (r.1 + 1) % UINT_RANGE = i ∧ (i + 1) % UINT_RANGE = i + 1 ∧
        r.2.classes.length = n ∧
        (∃ c, r.2.classes[i]? = some c ∧ c ≠ []) ∧
        (∀ fuel, outerLoop t (fuel + 1) i st = outerLoop t fuel i r.2) ∧
        (∀ fuel, outerLoop t (fuel + 1) i r.2 =
          (innerLoop t (n + 1) i (i + 1) r.2).bind
            (fun r' => outerLoop t fuel ((r'.1 + 1) % UINT_RANGE) r'.2))) := by
  obtain ⟨r, hr, hrlen, hcase⟩ := innerLoop_exit t hn hi hlen
  refine ⟨r, hr, ?_⟩
  intro hm
  rcases hcase with ⟨h, _⟩ | ⟨_, hidx, s, j, ci', cj, hij, hj, hslen, hcin, hrs⟩
  · exact absurd h hm
  · have hback : (r.1 + 1) % UINT_RANGE = i := by
      rw [hidx]; exact uint_pred_succ (by omega)
    have hsucc := uint_succ hn hi
    have hcls : r.2.classes[i]? = some (mergeWords ci' cj) := by
      rw [hrs]
      exact absorb_getElem?_left s ci' cj hij (by omega)
    have hmne : mergeWords ci' cj ≠ [] := mergeWords_ne_nil cj ci' hcin
    have hemp : (mergeWords ci' cj).isEmpty = false := by
      cases hmw : mergeWords ci' cj with
      | nil => exact absurd hmw hmne
      | cons _ _ => rfl
    have hcie : ci.isEmpty = false := by
      cases ci with
      | nil => exact absurd rfl hne
      | cons _ _ => rfl
    refine ⟨hidx, ?_, hback, hsucc, hrlen, ⟨_, hcls, hmne⟩, ?_, ?_⟩
    · intro h0
      rw [hidx, h0]
      exact uint_pred_zero
    · intro fuel
      conv_lhs => unfold outerLoop
      rw [if_pos (by omega), hci]
      simp only [hcie, Bool.false_eq_true, if_false, hsucc, hlen, hr, hback]
    · intro fuel
      conv_lhs => unfold outerLoop
      rw [if_pos (by omega), hcls]
      simp only [hemp, Bool.false_eq_true, if_false, hsucc, hrlen]
      cases innerLoop t (n + 1) i (i + 1) r.2 <;> rfl

/-- Instance of `outerLoop_rewind` at `i = 0`: the classes `1, 2, 3` and `2, 3, 4, 5` merge
under the ratio `.5`. -/
theorem outerLoop_rewind_witness :
    2 < UINT_RANGE ∧ 0 < 2 ∧
    (⟨0, 0, [[1, 2, 3], [2, 3, 4, 5]]⟩ : LoopState Nat).classes.length = 2 ∧
    (⟨0, 0, [[1, 2, 3], [2, 3, 4, 5]]⟩ : LoopState Nat).classes[0]? = some [1, 2, 3] ∧
    [1, 2, 3] ≠ [] ∧
    (innerLoop (1 / 2) (2 + 1) 0 (0 + 1)
        (⟨0, 0, [[1, 2, 3], [2, 3, 4, 5]]⟩ : LoopState Nat)).map
          (fun r => (r.1, r.2.MERGES, r.2.classes))
      = some (2 ^ 32 - 1, 1, [[1, 2, 3, 4, 5], []]) ∧
    ∃ r, innerLoop (1 / 2) (2 + 1) 0 (0 + 1)
        (⟨0, 0, [[1, 2, 3], [2, 3, 4, 5]]⟩ : LoopState Nat) = some r ∧
      (r.2.MERGES ≠ (⟨0, 0, [[1, 2, 3], [2, 3, 4, 5]]⟩ : LoopState Nat).MERGES →
        r.1 = (0 + UINT_RANGE - 1) % UINT_RANGE ∧ (0 = 0 → r.1 = 2 ^ 32 - 1) ∧
        (r.1 + 1) % UINT_RANGE = 0 ∧ (0 + 1) % UINT_RANGE = 0 + 1 ∧
        r.2.classes.length = 2 ∧
        (∃ c, r.2.classes[0]? = some c ∧ c ≠ []) ∧
        (∀ fuel, outerLoop (1 / 2) (fuel + 1) 0
            (⟨0, 0, [[1, 2, 3], [2, 3, 4, 5]]⟩ : LoopState Nat)
          = outerLoop (1 / 2) fuel 0 r.2) ∧
        (∀ fuel, outerLoop (1 / 2) (fuel + 1) 0 r.2 =
          (innerLoop (1 / 2) (2 + 1) 0 (0 + 1) r.2).bind
            (fun r' => outerLoop (1 / 2) fuel ((r'.1 + 1) % UINT_RANGE) r'.2))) :=
  ⟨by decide, by decide, rfl, rfl, List.cons_ne_nil _ _, by decide!,
    outerLoop_rewind (1 / 2) 2 0 (by decide) (by decide)
      (⟨0, 0, [[1, 2, 3], [2, 3, 4, 5]]⟩ : LoopState Nat) rfl [1, 2, 3] rfl
      (List.cons_ne_nil _ _)⟩

/-! ## Sortedness at every comparison and every search -/

theorem mergeWords_eq_foldl (ci cj : List α) : mergeWords ci cj = cj.foldl pushWord ci := rfl

theorem pushWord_sorted {acc : List α} (h : acc.Sorted (· ≤ ·)) (word : α) :
    (pushWord acc word).Sorted (· ≤ ·) := by
  unfold pushWord
  split
  · exact h
  · exact sort_sorted _

theorem mergeWordsChecked_cons (ci cj : List α) (x : α) (h : ci.Sorted (· ≤ ·)) :
    mergeWordsChecked ci (x :: cj) = mergeWordsChecked (pushWord ci x) cj := by
  unfold mergeWordsChecked
  rw [List.foldl_cons]
  simp only [Option.some_bind, if_pos h]

theorem mergeWordsChecked_eq : ∀ (cj ci : List α), ci.Sorted (· ≤ ·) →
    mergeWordsChecked ci cj = some (mergeWords ci cj) ∧
      (mergeWords ci cj).Sorted (· ≤ ·) ∧
      ∀ acc ∈ List.scanl pushWord ci cj, acc.Sorted (· ≤ ·) := by
  intro cj
  induction cj with
  | nil =>
    intro ci h
    refine ⟨rfl, h, ?_⟩
    intro acc hacc
    simp only [List.scanl_nil, List.mem_singleton] at hacc
    exact hacc ▸ h
  | cons x cj ih =>
    intro ci h
    obtain ⟨h1, h2, h3⟩ := ih (pushWord ci x) (pushWord_sorted h x)
    rw [mergeWordsChecked_cons ci cj x h, h1]
    refine ⟨rfl, h2, ?_⟩
    intro acc hacc
    rw [List.scanl_cons, List.mem_append, List.mem_singleton] at hacc
    rcases hacc with rfl | hacc
    · exact h
    · exact h3 acc hacc

theorem ascending_eliminate {st : LoopState α} (h : AllAscending st) (k : Nat) :
    AllAscending (eliminate st k) := by
  intro c hc
  rcases mem_eliminate hc with h' | h'
  · exact h c h'
  · subst h'; exact List.sorted_nil

theorem ascending_absorb {st : LoopState α} (h : AllAscending st) (i j : Nat)
    {ci : List α} (cj : List α) (hci : ci.Sorted (· ≤ ·)) :
    AllAscending (absorb st i j ci cj) := by
  intro c hc
  rcases mem_absorb hc with h' | h' | h'
  · exact h c h'
  · subst h'; exact (mergeWordsChecked_eq cj ci hci).2.1
  · subst h'; exact List.sorted_nil

theorem step_ascending {t : ℚ} {st st' : LoopState α} (h : Step t st st')
    (hs : AllAscending st) : AllAscending st' := by
  cases h with
  | subsetJ i j ci cj left right common hij hci hcj hcin hcjn hsc hr =>
    exact ascending_eliminate hs j
  | subsetI i j ci cj left right common hij hci hcj hcin hcjn hsc hr hl =>
    exact ascending_eliminate hs i
  | merge i j ci cj left right common hij hci hcj hcin hcjn hsc hr hl hsim =>
    exact ascending_absorb hs i j cj (hs ci (List.getElem?_mem hci))

theorem steps_ascending {t : ℚ} {st st' : LoopState α} (h : Steps t st st')
    (hs : AllAscending st) : AllAscending st' := by
  induction h with
  | refl => exact hs
  | tail _ hstep ih => exact step_ascending hstep ih

theorem phase1_ascending (classes : MeaningFamily α) :
    AllAscending { SUBSETS := 0, MERGES := 0, classes := phase1 classes } := by
  intro c hc
  obtain ⟨c0, _, rfl⟩ := List.mem_map.mp hc
  exact sort_sorted _

theorem innerLoopChecked_eq (t : ℚ) : ∀ (fuel i j : Nat) (st : LoopState α),
    AllAscending st →
    innerLoopChecked t fuel i j st = innerLoop t fuel i j st ∧
      ∀ r, innerLoop t fuel i j st = some r → AllAscending r.2 := by
  intro fuel
  induction fuel with
  | zero =>
    intro i j st _
    exact ⟨rfl, fun r h => by simp [innerLoop] at h⟩
  | succ fuel ih =>
    intro i j st hs
    unfold innerLoopChecked innerLoop
    by_cases hj : j < st.classes.length
    · rw [if_pos hj, if_pos hj]
      cases hci : st.classes[i]? with
      | none => exact ⟨rfl, fun r h => by simp at h⟩
      | some ci =>
        cases hcj : st.classes[j]? with
        | none => exact ⟨rfl, fun r h => by simp at h⟩
        | some cj =>
          simp only []
          have hsi := hs ci (List.getElem?_mem hci)
          have hsj := hs cj (List.getElem?_mem hcj)
          by_cases hcje : cj.isEmpty = true
          · rw [if_pos hcje, if_pos hcje]
            exact ih i _ st hs
          · rw [if_neg hcje, if_neg hcje, if_pos ⟨hsi, hsj⟩]
            rcases set_comparison ci cj with ⟨left, right, common⟩
            simp only []
            by_cases hr : right.isEmpty = true
            · rw [if_pos hr, if_pos hr]
              exact ih i _ _ (ascending_eliminate hs j)
            · rw [if_neg hr, if_neg hr]
              by_cases hl : left.isEmpty = true
              · rw [if_pos hl, if_pos hl]
                refine ⟨rfl, fun r h => ?_⟩
                cases h
                exact ascending_eliminate hs i
              · rw [if_neg hl, if_neg hl]
                by_cases hsim : similar t left right common
                · rw [if_pos hsim, if_pos hsim, (mergeWordsChecked_eq cj ci hsi).1]
                  refine ⟨rfl, fun r h => ?_⟩
                  have hr2 : r.2 = absorb st i j ci cj := by
                    have := Option.some.inj h
                    rw [← this]
                  rw [hr2]
                  exact ascending_absorb hs i j cj hsi
                · rw [if_neg hsim, if_neg hsim]
                  exact ih i _ st hs
    · rw [if_neg hj, if_neg hj]
      refine ⟨rfl, fun r h => ?_⟩
      cases h
      exact hs

theorem outerLoopChecked_eq (t : ℚ) : ∀ (fuel i : Nat) (st : LoopState α),
    AllAscending st → outerLoopChecked t fuel i st = outerLoop t fuel i st := by
  intro fuel
  induction fuel with
  | zero =>
    intro i st _
    unfold outerLoopChecked outerLoop
    rfl
  | succ fuel ih =>
    intro i st hs
    unfold outerLoopChecked outerLoop
    by_cases hi : i < st.classes.length
    · rw [if_pos hi, if_pos hi]
      cases hci : st.classes[i]? with
      | none => rfl
      | some ci =>
        simp only []
        by_cases hce : ci.isEmpty = true
        · rw [if_pos hce, if_pos hce]
          exact ih _ st hs
        · rw [if_neg hce, if_neg hce]
          obtain ⟨h1, h2⟩ := innerLoopChecked_eq t (st.classes.length + 1) i
            ((i + 1) % UINT_RANGE) st hs
          rw [h1]
          cases hin : innerLoop t (st.classes.length + 1) i ((i + 1) % UINT_RANGE) st with
          | none => rfl
          | some r =>
            simp only []
            exact ih _ r.2 (h2 r hin)
    · rw [if_neg hi, if_neg hi]

theorem smallMergeChecked_eq (g : Globals) (classes output : MeaningFamily α) :
    smallMergeChecked g classes output = smallMerge g classes output := by
  unfold smallMergeChecked smallMerge phase2
  rw [outerLoopChecked_eq _ _ _ _ (phase1_ascending classes)]

/-- C18: for every input collection the call runs through with an assertion of ascending
order in front of every `set_comparison` (both classes) and every `binary_search` (the class
searched, also after each single append): the checked call returns what the plain call
returns. Every class is ascending after the first loop, in every state reached from there by
mutations of the pairwise loop, in every intermediate class of a merge into an ascending
class, and in the final collection. -/
theorem smallMerge_keeps_sorted (g : Globals) (classes output : MeaningFamily α)
    (hsize : classes.length < UINT_RANGE) :
    (∃ r, smallMergeChecked g classes output = some r ∧
      smallMerge g classes output = some r ∧ ∀ c ∈ r.classes, c.Sorted (· ≤ ·)) ∧
    (∀ c ∈ phase1 classes, c.Sorted (· ≤ ·)) ∧
    (∀ st, Steps g.SMALLMERGE_RATIO { SUBSETS := 0, MERGES := 0, classes := phase1 classes } st →
      ∀ c ∈ st.classes, c.Sorted (· ≤ ·)) ∧
    (∀ ci cj : List α, ci.Sorted (· ≤ ·) →
      mergeWordsChecked ci cj = some (mergeWords ci cj) ∧
      ∀ acc ∈ List.scanl pushWord ci cj, acc.Sorted (· ≤ ·)) := by
  obtain ⟨st, hsteps, _, h⟩ := smallMerge_eq g classes output hsize
  refine ⟨⟨_, by rw [smallMergeChecked_eq]; exact h, h,
      steps_ascending hsteps (phase1_ascending classes)⟩,
    phase1_ascending classes,
    fun st hst => steps_ascending hst (phase1_ascending classes),
    fun ci cj hci => ⟨(mergeWordsChecked_eq cj ci hci).1, (mergeWordsChecked_eq cj ci hci).2.2⟩⟩

/-- Instance of `smallMerge_keeps_sorted` on the merge scenario. -/
theorem smallMerge_keeps_sorted_witness :
    catFamilies.length < UINT_RANGE ∧
    (∃ r, smallMergeChecked catGlobals catFamilies [] = some r ∧
      smallMerge catGlobals catFamilies [] = some r ∧ ∀ c ∈ r.classes, c.Sorted (· ≤ ·)) ∧
    (∀ c ∈ phase1 catFamilies, c.Sorted (· ≤ ·)) ∧
    (∀ st, Steps catGlobals.SMALLMERGE_RATIO
        { SUBSETS := 0, MERGES := 0, classes := phase1 catFamilies } st →
      ∀ c ∈ st.classes, c.Sorted (· ≤ ·)) ∧
    (∀ ci cj : List String, ci.Sorted (· ≤ ·) →
      mergeWordsChecked ci cj = some (mergeWords ci cj) ∧
      ∀ acc ∈ List.scanl pushWord ci cj, acc.Sorted (· ≤ ·)) :=
  ⟨by decide, smallMerge_keeps_sorted catGlobals catFamilies [] (by decide)⟩

/-! ## A contained class next to classes that do not touch it -/

theorem mem_mergeWords : ∀ (cj ci : List α) (w : α), w ∈ mergeWords ci cj →
    w ∈ ci ∨ w ∈ cj := by
  intro cj
  induction cj with
  | nil => intro ci w h; exact Or.inl h
  | cons x cj ih =>
    intro ci w h
    rw [mergeWords_cons] at h
    rcases ih _ w h with h' | h'
    · by_cases hx : binary_search ci x = true
      · rw [if_pos hx] at h'; exact Or.inl h'
      · rw [if_neg hx, mem_sort, List.mem_append, List.mem_singleton] at h'
        rcases h' with h' | h'
        · exact Or.inl h'
        · exact Or.inr (h' ▸ List.mem_cons_self _ _)
    · exact Or.inr (List.mem_cons_of_mem _ h')

/-- Two non-empty classes without a common word pass none of the tests of the inner loop
when the threshold is positive. -/
theorem no_test_of_disjoint {t : ℚ} (ht : 0 < t) {x y left right common : List α}
    (hx : x ≠ []) (hy : y ≠ []) (hd : ∀ w ∈ x, w ∉ y)
    (hsc : set_comparison x y = (left, right, common)) :
    right ≠ [] ∧ left ≠ [] ∧ ¬ similar t left right common := by
  rw [set_comparison_disjoint hd] at hsc
  cases hsc
  exact ⟨hy, hx, not_similar_nil ht _ _⟩

theorem bystanders_eliminate {t : ℚ} {iA iB : Nat} {B : List α} {s : LoopState α}
    (h : Bystanders t iA iB B s) (k : Nat) : Bystanders t iA iB B (eliminate s k) := by
  intro k' c h1 h2 hc
  have hc' : (s.classes.set k [])[k']? = some c := hc
  rw [List.getElem?_set] at hc'
  split at hc'
  · split at hc'
    · exact Or.inl (Option.some.inj hc').symm
    · exact absurd hc' (by simp)
  · exact h k' c h1 h2 hc'

theorem bystanders_absorb {t : ℚ} {iA iB : Nat} {B : List α} {s : LoopState α}
    (h : Bystanders t iA iB B s) (i j : Nat) (ci cj : List α)
    (hm : 0 < t ∧ ∀ w ∈ mergeWords ci cj, w ∉ B) :
    Bystanders t iA iB B (absorb s i j ci cj) := by
  intro k' c h1 h2 hc
  have hc' : ((s.classes.set i (mergeWords ci cj)).set j [])[k']? = some c := hc
  rw [List.getElem?_set] at hc'
  split at hc'
  · split at hc'
    · exact Or.inl (Option.some.inj hc').symm
    · exact absurd hc' (by simp)
  · rw [List.getElem?_set] at hc'
    split at hc'
    · split at hc'
      · exact Or.inr ((Option.some.inj hc') ▸ hm)
      · exact absurd hc' (by simp)
    · exact h k' c h1 h2 hc'

/-- The inner loop for a class outside the pair leaves the pair alone. -/
theorem innerLoop_bystander (t : ℚ) {n i iA iB : Nat} (hn : n < UINT_RANGE) (hi : i < n)
    (hiA : i ≠ iA) (hiB : i ≠ iB) {B : List α} {s : LoopState α}
    (hlen : s.classes.length = n) (hby : Bystanders t iA iB B s)
    {ci : List α} (hci : s.classes[i]? = some ci) (hcin : ci ≠ [])
    (hwA : ∀ c, s.classes[iA]? = some c → ∀ w ∈ c, w ∈ B)
    (hwB : ∀ c, s.classes[iB]? = some c → ∀ w ∈ c, w ∈ B) :
    ∃ r, innerLoop t (n + 1) i (i + 1) s = some r ∧ r.2.classes.length = n ∧
      Bystanders t iA iB B r.2 ∧ r.2.classes[iA]? = s.classes[iA]? ∧
      r.2.classes[iB]? = s.classes[iB]? ∧
      (r.1 = i ∨ r.1 = (i + UINT_RANGE - 1) % UINT_RANGE) := by
  have hlive : 0 < t ∧ ∀ w ∈ ci, w ∉ B := by
    rcases hby i ci hiA hiB hci with h | h
    · exact absurd h hcin
    · exact h
  -- a non-empty class of the pair passes no test against `ci`
  have hpair : ∀ (x : LoopState α) (j : Nat) (cj left right common : List α),
      x.classes[iA]? = s.classes[iA]? → x.classes[iB]? = s.classes[iB]? →
      (j = iA ∨ j = iB) → x.classes[j]? = some cj → cj ≠ [] →
      set_comparison ci cj = (left, right, common) →
      right ≠ [] ∧ left ≠ [] ∧ ¬ similar t left right common := by
    intro x j cj left right common e1 e2 hj hcj hcjn hsc
    have hw : ∀ w ∈ cj, w ∈ B := by
      rcases hj with rfl | rfl
      · exact hwA cj (e1 ▸ hcj)
      · exact hwB cj (e2 ▸ hcj)
    exact no_test_of_disjoint hlive.1 hcin hcjn (fun w hw1 hw2 => hlive.2 w hw1 (hw w hw2)) hsc
  apply innerLoop_rule t n i hn hi
    (fun _ x => x.classes.length = n ∧ Bystanders t iA iB B x ∧
      x.classes[iA]? = s.classes[iA]? ∧ x.classes[iB]? = s.classes[iB]? ∧
      x.classes[i]? = some ci)
    (fun r => r.2.classes.length = n ∧ Bystanders t iA iB B r.2 ∧
      r.2.classes[iA]? = s.classes[iA]? ∧ r.2.classes[iB]? = s.classes[iB]? ∧
      (r.1 = i ∨ r.1 = (i + UINT_RANGE - 1) % UINT_RANGE))
  · intro j x h; exact h.1
  · intro j x h _ _ _; exact h
  · rintro j x ci' cj left right common ⟨h1, h2, h3, h4, h5⟩ hij hj hci' hcj hcjn hsc hr
    have hce : ci' = ci := Option.some.inj (hci'.symm.trans h5)
    subst hce
    by_cases hjp : j = iA ∨ j = iB
    · exact absurd hr (hpair x j cj left right common h3 h4 hjp hcj hcjn hsc).1
    · push_neg at hjp
      refine ⟨by rw [eliminate_length]; exact h1, bystanders_eliminate h2 j, ?_, ?_, ?_⟩
      · rw [eliminate_getElem?_ne x hjp.1]; exact h3
      · rw [eliminate_getElem?_ne x hjp.2]; exact h4
      · rw [eliminate_getElem?_ne x (by omega)]; exact h5
  · rintro j x ci' cj left right common ⟨h1, h2, h3, h4, h5⟩ hij hj hci' hcj hcjn hsc hr hl
    have hce : ci' = ci := Option.some.inj (hci'.symm.trans h5)
    subst hce
    by_cases hjp : j = iA ∨ j = iB
    · exact absurd hl (hpair x j cj left right common h3 h4 hjp hcj hcjn hsc).2.1
    · refine ⟨by rw [eliminate_length]; exact h1, bystanders_eliminate h2 i, ?_, ?_,
        Or.inl rfl⟩
      · rw [eliminate_getElem?_ne x hiA]; exact h3
      · rw [eliminate_getElem?_ne x hiB]; exact h4
  · rintro j x ci' cj left right common ⟨h1, h2, h3, h4, h5⟩ hij hj hci' hcj hcjn hsc hr hl
      hsim
    have hce : ci' = ci := Option.some.inj (hci'.symm.trans h5)
    subst hce
    by_cases hjp : j = iA ∨ j = iB
    · exact absurd hsim (hpair x j cj left right common h3 h4 hjp hcj hcjn hsc).2.2
    · push_neg at hjp
      have hcjl : ∀ w ∈ cj, w ∉ B := by
        rcases h2 j cj hjp.1 hjp.2 hcj with h | h
        · exact absurd h hcjn
        · exact h.2
      refine ⟨by rw [absorb_length]; exact h1, bystanders_absorb h2 i j ci' cj
        ⟨hlive.1, ?_⟩, ?_, ?_, Or.inr rfl⟩
      · intro w hw
        rcases mem_mergeWords cj ci' w hw with h | h
        · exact hlive.2 w h
        · exact hcjl w h
      · rw [absorb_getElem?_ne x ci' cj hiA hjp.1]; exact h3
      · rw [absorb_getElem?_ne x ci' cj hiB hjp.2]; exact h4
  · intro j x ci' cj left right common h _ _ _ _ _ _ _ _ _; exact h
  · rintro x ⟨h1, h2, h3, h4, _⟩
    exact ⟨h1, h2, h3, h4, Or.inl rfl⟩
  · omega
  · omega
  · omega
  · exact ⟨hlen, hby, rfl, rfl, hci⟩

theorem pairSettled_words {iA iB : Nat} {A B : List α} {s : LoopState α}
    (hAB : ∀ w ∈ A, w ∈ B) (h : PairSettled iA iB A B s) :
    (∀ c, s.classes[iA]? = some c → ∀ w ∈ c, w ∈ B) ∧
    (∀ c, s.classes[iB]? = some c → ∀ w ∈ c, w ∈ B) := by
  rcases h with ⟨h1, h2⟩ | ⟨h1, h2, _, _⟩
  · constructor
    · intro c hc w hw
      rw [h1] at hc
      exact absurd ((Option.some.inj hc) ▸ hw) (List.not_mem_nil w)
    · intro c hc w hw
      rw [h2] at hc
      exact (Option.some.inj hc) ▸ hw
  · constructor
    · intro c hc w hw
      rw [h2] at hc
      exact hAB w ((Option.some.inj hc) ▸ hw)
    · intro c hc w hw
      rw [h1] at hc
      exact absurd ((Option.some.inj hc) ▸ hw) (List.not_mem_nil w)

theorem pairLive_words {iA iB : Nat} {A B : List α} {s : LoopState α}
    (hAB : ∀ w ∈ A, w ∈ B) (h : PairLive iA iB A B s) :
    (∀ c, s.classes[iA]? = some c → ∀ w ∈ c, w ∈ B) ∧
    (∀ c, s.classes[iB]? = some c → ∀ w ∈ c, w ∈ B) := by
  obtain ⟨h1, h2, _⟩ := h
  constructor
  · intro c hc w hw
    rw [h1] at hc
    exact hAB w ((Option.some.inj hc) ▸ hw)
  · intro c hc w hw
    rw [h2] at hc
    exact (Option.some.inj hc) ▸ hw

/-- The inner loop for a class of the pair settles the pair and leaves the rest alone. -/
theorem innerLoop_member (t : ℚ) {n i iA iB p q : Nat} (hn : n < UINT_RANGE) (hi : i < n)
    (hne : iA ≠ iB) (hpq : p < q) (hp : (p = iA ∧ q = iB) ∨ (p = iB ∧ q = iA))
    (him : i = iA ∨ i = iB) {A B : List α} (hAs : A.Sorted (· < ·))
    (hBs : B.Sorted (· < ·)) (hBne : B ≠ []) (hAB : ∀ w ∈ A, w ∈ B) {s : LoopState α}
    (hlen : s.classes.length = n) (hby : Bystanders t iA iB B s)
    {ci : List α} (hci : s.classes[i]? = some ci) (hcin : ci ≠ [])
    (hst : PairSettled iA iB A B s ∨ (PairLive iA iB A B s ∧ i = p)) :
    ∃ r, innerLoop t (n + 1) i (i + 1) s = some r ∧ r.1 = i ∧ r.2.classes.length = n ∧
      Bystanders t iA iB B r.2 ∧ PairSettled iA iB A B r.2 := by
  have hciB : ∀ w ∈ ci, w ∈ B := by
    have := hst.elim (pairSettled_words hAB) (fun h => pairLive_words hAB h.1)
    rcases him with rfl | rfl
    · exact this.1 ci hci
    · exact this.2 ci hci
  have hother : ∀ (x : LoopState α) (j : Nat) (cj left right common : List α),
      Bystanders t iA iB B x → j ≠ iA → j ≠ iB → x.classes[j]? = some cj → cj ≠ [] →
      set_comparison ci cj = (left, right, common) →
      right ≠ [] ∧ left ≠ [] ∧ ¬ similar t left right common := by
    intro x j cj left right common hbx h1 h2 hcj hcjn hsc
    rcases hbx j cj h1 h2 hcj with h | h
    · exact absurd h hcjn
    · exact no_test_of_disjoint h.1 hcin hcjn (fun w hw1 hw2 => h.2 w hw2 (hciB w hw1)) hsc
  have hlive : ∀ (x : LoopState α) (j : Nat) (cj : List α),
      x.classes[i]? = some ci →
      (PairSettled iA iB A B x ∨ (PairLive iA iB A B x ∧ i = p ∧ j ≤ q)) →
      (j = iA ∨ j = iB) → i < j → x.classes[j]? = some cj → cj ≠ [] →
      PairLive iA iB A B x ∧
        ((i = iA ∧ j = iB ∧ ci = A ∧ cj = B) ∨ (i = iB ∧ j = iA ∧ ci = B ∧ cj = A)) := by
    intro x j cj hxi hx hj hij hcj hcjn
    have hcase : (i = iA ∧ j = iB) ∨ (i = iB ∧ j = iA) := by
      rcases him with h1 | h1 <;> rcases hj with h2 | h2
      · omega
      · exact Or.inl ⟨h1, h2⟩
      · exact Or.inr ⟨h1, h2⟩
      · omega
    rcases hx with hs | ⟨hl, _, _⟩
    · exfalso
      rcases hs with ⟨h1, _⟩ | ⟨h1, _⟩
      · rcases hcase with ⟨e1, _⟩ | ⟨_, e2⟩
        · rw [e1, h1] at hxi
          exact hcin (Option.some.inj hxi).symm
        · rw [e2, h1] at hcj
          exact hcjn (Option.some.inj hcj).symm
      · rcases hcase with ⟨_, e2⟩ | ⟨e1, _⟩
        · rw [e2, h1] at hcj
          exact hcjn (Option.some.inj hcj).symm
        · rw [e1, h1] at hxi
          exact hcin (Option.some.inj hxi).symm
    · refine ⟨hl, ?_⟩
      obtain ⟨l1, l2, _⟩ := hl
      rcases hcase with ⟨e1, e2⟩ | ⟨e1, e2⟩
      · left
        rw [e1, l1] at hxi
        rw [e2, l2] at hcj
        exact ⟨e1, e2, (Option.some.inj hxi).symm, (Option.some.inj hcj).symm⟩
      · right
        rw [e1, l2] at hxi
        rw [e2, l1] at hcj
        exact ⟨e1, e2, (Option.some.inj hxi).symm, (Option.some.inj hcj).symm⟩
  have hleft : (set_comparison A B).1 = [] := (set_comparison_left_nil hAs hBs).mpr hAB
  have hright : (set_comparison B A).2.1 = [] := (set_comparison_right_nil hBs hAs).mpr hAB
  apply innerLoop_rule t n i hn hi
    (fun j x => x.classes.length = n ∧ Bystanders t iA iB B x ∧ x.classes[i]? = some ci ∧
      (PairSettled iA iB A B x ∨ (PairLive iA iB A B x ∧ i = p ∧ j ≤ q)))
    (fun r => r.1 = i ∧ r.2.classes.length = n ∧ Bystanders t iA iB B r.2 ∧
      PairSettled iA iB A B r.2)
  · intro j x h; exact h.1
  · rintro j x ⟨h1, h2, h3, h4⟩ hij hj hcj
    refine ⟨h1, h2, h3, h4.imp id ?_⟩
    rintro ⟨hl, e, hjq⟩
    refine ⟨hl, e, ?_⟩
    have : j ≠ q := by
      rintro rfl
      obtain ⟨l1, l2, l3⟩ := hl
      rcases hp with ⟨_, e2⟩ | ⟨_, e2⟩
      · rw [e2, l2] at hcj
        exact hBne (Option.some.inj hcj)
      · rw [e2, l1] at hcj
        exact l3 (Option.some.inj hcj)
    omega
  · rintro j x ci' cj left right common ⟨h1, h2, h3, h4⟩ hij hj hci' hcj hcjn hsc hr
    have hce : ci' = ci := Option.some.inj (hci'.symm.trans h3)
    subst hce
    by_cases hjp : j = iA ∨ j = iB
    · obtain ⟨⟨l1, l2, l3⟩, hc⟩ := hlive x j cj h3 h4 hjp hij hcj hcjn
      have hjn : j < x.classes.length := (List.getElem?_eq_some.mp hcj).1
      refine ⟨by rw [eliminate_length]; exact h1, bystanders_eliminate h2 j,
        by rw [eliminate_getElem?_ne x (by omega)]; exact h3, Or.inl ?_⟩
      rcases hc with ⟨e1, e2, e3, e4⟩ | ⟨e1, e2, e3, e4⟩
      · subst e3; subst e4
        right
        have hBA : ∀ w ∈ cj, w ∈ ci' := by
          have := set_comparison_right_nil hAs hBs
          rw [hsc] at this
          exact this.mp hr
        refine ⟨?_, ?_, l3, hBA⟩
        · rw [← e2]; exact eliminate_getElem?_self x hjn
        · rw [eliminate_getElem?_ne x (by omega)]; exact l1
      · left
        refine ⟨?_, ?_⟩
        · rw [← e2]; exact eliminate_getElem?_self x hjn
        · rw [eliminate_getElem?_ne x (by omega)]; exact l2
    · push_neg at hjp
      exact absurd hr (hother x j cj left right common h2 hjp.1 hjp.2 hcj hcjn hsc).1
  · rintro j x ci' cj left right common ⟨h1, h2, h3, h4⟩ hij hj hci' hcj hcjn hsc hr hl
    have hce : ci' = ci := Option.some.inj (hci'.symm.trans h3)
    subst hce
    by_cases hjp : j = iA ∨ j = iB
    · obtain ⟨⟨l1, l2, l3⟩, hc⟩ := hlive x j cj h3 h4 hjp hij hcj hcjn
      have hin : i < x.classes.length := by omega
      rcases hc with ⟨e1, e2, e3, e4⟩ | ⟨e1, e2, e3, e4⟩
      · refine ⟨rfl, by rw [eliminate_length]; exact h1, bystanders_eliminate h2 i,
          Or.inl ⟨?_, ?_⟩⟩
        · rw [← e1]; exact eliminate_getElem?_self x hin
        · rw [eliminate_getElem?_ne x (by omega)]; exact l2
      · exfalso
        subst e3; subst e4
        rw [hsc] at hright
        exact hr hright
    · push_neg at hjp
      exact absurd hl (hother x j cj left right common h2 hjp.1 hjp.2 hcj hcjn hsc).2.1
  · rintro j x ci' cj left right common ⟨h1, h2, h3, h4⟩ hij hj hci' hcj hcjn hsc hr hl hsim
    have hce : ci' = ci := Option.some.inj (hci'.symm.trans h3)
    subst hce
    exfalso
    by_cases hjp : j = iA ∨ j = iB
    · obtain ⟨_, hc⟩ := hlive x j cj h3 h4 hjp hij hcj hcjn
      rcases hc with ⟨e1, e2, e3, e4⟩ | ⟨e1, e2, e3, e4⟩
      · subst e3; subst e4
        rw [hsc] at hleft
        exact hl hleft
      · subst e3; subst e4
        rw [hsc] at hright
        exact hr hright
    · push_neg at hjp
      exact (hother x j cj left right common h2 hjp.1 hjp.2 hcj hcjn hsc).2.2 hsim
  · rintro j x ci' cj left right common ⟨h1, h2, h3, h4⟩ hij hj hci' hcj hcjn hsc hr hl hsim
    have hce : ci' = ci := Option.some.inj (hci'.symm.trans h3)
    subst hce
    by_cases hjp : j = iA ∨ j = iB
    · exfalso
      obtain ⟨_, hc⟩ := hlive x j cj h3 h4 hjp hij hcj hcjn
      rcases hc with ⟨e1, e2, e3, e4⟩ | ⟨e1, e2, e3, e4⟩
      · subst e3; subst e4
        rw [hsc] at hleft
        exact hl hleft
      · subst e3; subst e4
        rw [hsc] at hright
        exact hr hright
    · push_neg at hjp
      refine ⟨h1, h2, h3, h4.imp id ?_⟩
      rintro ⟨hlv, e, hjq⟩
      refine ⟨hlv, e, ?_⟩
      have : j ≠ q := by
        rcases hp with ⟨_, e2⟩ | ⟨_, e2⟩
        · rw [e2]; exact hjp.2
        · rw [e2]; exact hjp.1
      omega
  · rintro x ⟨h1, h2, h3, h4⟩
    refine ⟨rfl, h1, h2, ?_⟩
    rcases h4 with h | ⟨hl, _, hq⟩
    · exact h
    · exfalso
      obtain ⟨l1, l2, _⟩ := hl
      have : q < x.classes.length := by
        rcases hp with ⟨_, e2⟩ | ⟨_, e2⟩
        · rw [e2]; exact (List.getElem?_eq_some.mp l2).1
        · rw [e2]; exact (List.getElem?_eq_some.mp l1).1
      omega
  · omega
  · omega
  · omega
  · refine ⟨hlen, hby, hci, hst.imp id ?_⟩
    rintro ⟨hl, e⟩
    exact ⟨hl, e, by omega⟩

/-- The pairwise loop on a collection in which `A` is contained in `B` and every other
class is empty or, the threshold being positive, shares no word with `B`: it ends with the
pair settled. -/
theorem outerLoop_contained (t : ℚ) {n iA iB p q : Nat} (hn : n < UINT_RANGE)
    (hne : iA ≠ iB) (hpq : p < q) (hp : (p = iA ∧ q = iB) ∨ (p = iB ∧ q = iA))
    {A B : List α} (hAs : A.Sorted (· < ·)) (hBs : B.Sorted (· < ·)) (hBne : B ≠ [])
    (hAB : ∀ w ∈ A, w ∈ B) {s : LoopState α} (hlen : s.classes.length = n)
    (hby : Bystanders t iA iB B s)
    (hst : PairSettled iA iB A B s ∨ PairLive iA iB A B s)
    (fuel : Nat) (hf : nonEmptyCount s.classes + n < fuel) :
    ∃ r, outerLoop t fuel 0 s = some r ∧ PairSettled iA iB A B r := by
  have := outerLoop_rule t n hn
    (fun i x => x.classes.length = n ∧ Bystanders t iA iB B x ∧
      (PairSettled iA iB A B x ∨ (PairLive iA iB A B x ∧ i ≤ p)))
    (fun _ _ h => h.1)
    (by
      rintro i x ⟨h1, h2, h3⟩ hi hci
      refine ⟨h1, h2, h3.imp id ?_⟩
      rintro ⟨hl, hip⟩
      refine ⟨hl, ?_⟩
      have : i ≠ p := by
        rintro rfl
        obtain ⟨l1, l2, l3⟩ := hl
        rcases hp with ⟨e1, _⟩ | ⟨e1, _⟩
        · rw [e1, l1] at hci
          exact l3 (Option.some.inj hci)
        · rw [e1, l2] at hci
          exact hBne (Option.some.inj hci)
      omega)
    (by
      rintro i x ci r ⟨h1, h2, h3⟩ hi hci hcin hr
      by_cases him : i = iA ∨ i = iB
      · have hst' : PairSettled iA iB A B x ∨ (PairLive iA iB A B x ∧ i = p) := by
          refine h3.imp id ?_
          rintro ⟨hl, hip⟩
          refine ⟨hl, ?_⟩
          rcases hp with ⟨e1, e2⟩ | ⟨e1, e2⟩ <;> rcases him with h | h <;> omega
        obtain ⟨r', hr', e, hl', hb', hs'⟩ := innerLoop_member t hn hi hne hpq hp him hAs hBs
          hBne hAB h1 h2 hci hcin hst'
        rw [hr] at hr'
        cases hr'
        exact ⟨hl', hb', Or.inl hs'⟩
      · push_neg at him
        have hw := h3.elim (pairSettled_words hAB) (fun h => pairLive_words hAB h.1)
        obtain ⟨r', hr', hl', hb', eA, eB, hidx⟩ := innerLoop_bystander t hn hi him.1 him.2
          h1 h2 hci hcin hw.1 hw.2
        rw [hr] at hr'
        cases hr'
        refine ⟨hl', hb', ?_⟩
        rcases h3 with hs | ⟨hlv, hip⟩
        · left
          unfold PairSettled at hs ⊢
          rw [eA, eB]
          exact hs
        · right
          have hlt : i < p := by
            rcases hp with ⟨e1, _⟩ | ⟨e1, _⟩ <;> omega
          refine ⟨?_, ?_⟩
          · unfold PairLive at hlv ⊢
            rw [eA, eB]
            exact hlv
          · rcases hidx with h | h
            · rw [h, uint_succ hn hi]; omega
            · rw [h, uint_pred_succ (by omega)]; omega)
    fuel 0 s (Nat.zero_le _) (by omega)
    ⟨hlen, hby, hst.imp id (fun h => ⟨h, Nat.zero_le _⟩)⟩
  obtain ⟨r, h1, hl, _, h3⟩ := this
  refine ⟨r, h1, ?_⟩
  rcases h3 with h | ⟨hlv, hnp⟩
  · exact h
  · exfalso
    obtain ⟨l1, l2, _⟩ := hlv
    have : p < r.classes.length := by
      rcases hp with ⟨e1, _⟩ | ⟨e1, _⟩
      · rw [e1]; exact (List.getElem?_eq_some.mp l1).1
      · rw [e1]; exact (List.getElem?_eq_some.mp l2).1
    omega

/-- C5 fails as stated. In `[[1], [1, 2]]` the first class is a subset of the second, yet
the second is destroyed for having two words and the survivor `[1]` lacks the word `2`. In
`[[1, 2, 3, 4], [1, 2, 3], [1, 2, 3, 4]]` the class at index 1 is a subset of the class at
index 2 and both end up empty, eliminated by the class at index 0. With the threshold `0`
every pair that is compared and is not a subset pair is merged: in
`[[7, 8, 9], [1, 2, 3], [1, 2, 3, 4, 5]]` the class at index 0, which shares no word with
the other two, absorbs both. -/
theorem subset_claim_counterexample :
    ((∀ w ∈ [1], w ∈ [1, 2]) ∧
      ¬ ∃ r cA cB, smallMerge defaults [[1], [1, 2]] [] = some r ∧
        r.classes[0]? = some cA ∧ r.classes[1]? = some cB ∧
        ((cA = [] ∧ cB ≠ [] ∧ ∀ w, w ∈ [1] ∨ w ∈ [1, 2] → w ∈ cB) ∨
          (cB = [] ∧ cA ≠ [] ∧ ∀ w, w ∈ [1] ∨ w ∈ [1, 2] → w ∈ cA))) ∧
    ((∀ w ∈ [1, 2, 3], w ∈ [1, 2, 3, 4]) ∧
      ¬ ∃ r cA cB, smallMerge defaults [[1, 2, 3, 4], [1, 2, 3], [1, 2, 3, 4]] [] = some r ∧
        r.classes[1]? = some cA ∧ r.classes[2]? = some cB ∧
        ((cA = [] ∧ cB ≠ [] ∧ ∀ w, w ∈ [1, 2, 3] ∨ w ∈ [1, 2, 3, 4] → w ∈ cB) ∨
          (cB = [] ∧ cA ≠ [] ∧ ∀ w, w ∈ [1, 2, 3] ∨ w ∈ [1, 2, 3, 4] → w ∈ cA))) ∧
    ((∀ w ∈ [1, 2, 3], w ∈ [1, 2, 3, 4, 5]) ∧
      ¬ ∃ r cA cB, smallMerge { defaults with SMALLMERGE_RATIO := 0 }
          [[7, 8, 9], [1, 2, 3], [1, 2, 3, 4, 5]] [] = some r ∧
        r.classes[1]? = some cA ∧ r.classes[2]? = some cB ∧
        ((cA = [] ∧ cB ≠ [] ∧ ∀ w, w ∈ [1, 2, 3] ∨ w ∈ [1, 2, 3, 4, 5] → w ∈ cB) ∨
          (cB = [] ∧ cA ≠ [] ∧ ∀ w, w ∈ [1, 2, 3] ∨ w ∈ [1, 2, 3, 4, 5] → w ∈ cA))) := by
  have e1 : (smallMerge defaults [[1], [1, 2]] []).map (fun r => r.classes)
      = some [[1], []] := by decide!
  have e2 : (smallMerge defaults [[1, 2, 3, 4], [1, 2, 3], [1, 2, 3, 4]] []).map
      (fun r => r.classes) = some [[1, 2, 3, 4], [], []] := by decide!
  have e3 : (smallMerge { defaults with SMALLMERGE_RATIO := 0 }
      [[7, 8, 9], [1, 2, 3], [1, 2, 3, 4, 5]] []).map
      (fun r => r.classes) = some [[1, 2, 3, 4, 5, 7, 8, 9], [], []] := by decide!
  refine ⟨⟨by decide, ?_⟩, ⟨by decide, ?_⟩, ⟨by decide, ?_⟩⟩
  · rintro ⟨r, cA, cB, hr, hA, hB, h⟩
    rw [hr] at e1
    have hc : r.classes = [[1], []] := Option.some.inj e1
    rw [hc] at hA hB
    have hA' : cA = [1] := (Option.some.inj hA).symm
    have hB' : cB = [] := (Option.some.inj hB).symm
    subst hA'; subst hB'
    rcases h with ⟨h, _⟩ | ⟨_, _, h⟩
    · exact absurd h (by decide)
    · exact absurd (h 2 (Or.inr (by decide))) (by decide)
  · rintro ⟨r, cA, cB, hr, hA, hB, h⟩
    rw [hr] at e2
    have hc : r.classes = [[1, 2, 3, 4], [], []] := Option.some.inj e2
    rw [hc] at hA hB
    have hA' : cA = [] := (Option.some.inj hA).symm
    have hB' : cB = [] := (Option.some.inj hB).symm
    subst hA'; subst hB'
    rcases h with ⟨_, h, _⟩ | ⟨_, h, _⟩
    · exact h rfl
    · exact h rfl
  · rintro ⟨r, cA, cB, hr, hA, hB, h⟩
    rw [hr] at e3
    have hc : r.classes = [[1, 2, 3, 4, 5, 7, 8, 9], [], []] := Option.some.inj e3
    rw [hc] at hA hB
    have hA' : cA = [] := (Option.some.inj hA).symm
    have hB' : cB = [] := (Option.some.inj hB).symm
    subst hA'; subst hB'
    rcases h with ⟨_, h, _⟩ | ⟨_, h, _⟩
    · exact h rfl
    · exact h rfl

/-- C5 (amended): let `A ⊆ B` sit at two distinct indices of the input, both with distinct
words, `B` non-empty and not of exactly two words, while every other class is empty, has
exactly two words, or, the threshold being positive, shares no word with `B`. Then the call
leaves exactly one of the two indices empty, and the class at the other index has exactly the
words of `A` and `B`. -/
theorem smallMerge_subset_elimination (g : Globals) (classes output : MeaningFamily α)
    (hsize : classes.length < UINT_RANGE) (iA iB : Nat) (A B : List α) (hne : iA ≠ iB)
    (hA : classes[iA]? = some A) (hB : classes[iB]? = some B)
    (hAd : A.Nodup) (hBd : B.Nodup) (hB2 : B.length ≠ 2)
    (hBne : B ≠ []) (hAB : ∀ w ∈ A, w ∈ B)
    (hrest : ∀ (k : Nat) (c : List α), k ≠ iA → k ≠ iB → classes[k]? = some c →
      c = [] ∨ c.length = 2 ∨ (0 < g.SMALLMERGE_RATIO ∧ ∀ w ∈ c, w ∉ B)) :
    ∃ r cA cB, smallMerge g classes output = some r ∧
      r.classes[iA]? = some cA ∧ r.classes[iB]? = some cB ∧
      ((cA = [] ∧ cB ≠ [] ∧ ∀ w, w ∈ cB ↔ w ∈ A ∨ w ∈ B) ∨
        (cB = [] ∧ cA ≠ [] ∧ ∀ w, w ∈ cA ↔ w ∈ A ∨ w ∈ B)) := by
  have hsize' : (phase1 classes).length < UINT_RANGE := by rw [phase1_length]; exact hsize
  have hpA : (phase1 classes)[iA]? = some (normalize A) := by
    rw [phase1_getElem?, hA, Option.map_some']
  have hpB : (phase1 classes)[iB]? = some (sort B) := by
    rw [phase1_getElem?, hB, Option.map_some', normalize_of_ne_two hB2]
  have hsB : sort B ≠ [] := fun h => hBne (sort_eq_nil.mp h)
  have hsAs : (normalize A).Sorted (· < ·) := normalize_sorted hAd
  have hsBs := sort_sorted_lt hBd
  have hAB' : ∀ w ∈ normalize A, w ∈ sort B :=
    fun w hw => mem_sort.mpr (hAB w (mem_normalize hw))
  have hby : Bystanders g.SMALLMERGE_RATIO iA iB (sort B)
      ({ SUBSETS := 0, MERGES := 0, classes := phase1 classes } : LoopState α) := by
    intro k c h1 h2 h
    have h' : (phase1 classes)[k]? = some c := h
    rw [phase1_getElem?] at h'
    obtain ⟨c0, hc0, rfl⟩ := Option.map_eq_some'.mp h'
    rcases hrest k c0 h1 h2 hc0 with h0 | h0 | ⟨ht, h0⟩
    · subst h0; exact Or.inl rfl
    · exact Or.inl (normalize_of_two h0)
    · exact Or.inr ⟨ht, fun w hw hwB => h0 w (mem_normalize hw) (mem_sort.mp hwB)⟩
  have hst : PairSettled iA iB (normalize A) (sort B)
        ({ SUBSETS := 0, MERGES := 0, classes := phase1 classes } : LoopState α) ∨
      PairLive iA iB (normalize A) (sort B)
        ({ SUBSETS := 0, MERGES := 0, classes := phase1 classes } : LoopState α) := by
    by_cases hAe : normalize A = []
    · left; left
      exact ⟨by rw [← hAe]; exact hpA, hpB⟩
    · right
      exact ⟨hpA, hpB, hAe⟩
  have hp : ∃ p q, p < q ∧ ((p = iA ∧ q = iB) ∨ (p = iB ∧ q = iA)) := by
    rcases Nat.lt_or_gt_of_ne hne with h | h
    · exact ⟨iA, iB, h, Or.inl ⟨rfl, rfl⟩⟩
    · exact ⟨iB, iA, h, Or.inr ⟨rfl, rfl⟩⟩
  obtain ⟨p, q, hpq, hp⟩ := hp
  have hcount := nonEmptyCount_le_length (phase1 classes)
  obtain ⟨r, hr, hfin⟩ := outerLoop_contained g.SMALLMERGE_RATIO hsize' hne hpq hp hsAs hsBs hsB
    hAB' (s := { SUBSETS := 0, MERGES := 0, classes := phase1 classes }) rfl hby hst
    (2 * (phase1 classes).length + 1) (by
      show nonEmptyCount (phase1 classes) + (phase1 classes).length < _
      omega)
  have h2 : phase2 g.SMALLMERGE_RATIO (phase1 classes) = some r := hr
  rcases hfin with ⟨h1, h3⟩ | ⟨h1, h3, h4, h5⟩
  · refine ⟨_, [], sort B, by unfold smallMerge; rw [h2], h1, h3, Or.inl ⟨rfl, hsB, ?_⟩⟩
    intro w
    rw [mem_sort]
    exact ⟨Or.inr, fun h => h.elim (hAB w) id⟩
  · refine ⟨_, normalize A, [], by unfold smallMerge; rw [h2], h3, h1, Or.inr ⟨rfl, h4, ?_⟩⟩
    intro w
    constructor
    · intro h; exact Or.inl (mem_normalize h)
    · rintro (h | h)
      · exact h5 w (mem_sort.mpr (hAB w h))
      · exact h5 w (mem_sort.mpr h)

/-- Instance of `smallMerge_subset_elimination`: `1, 2, 3` and `1, 2, 3, 4, 5` among two
classes that share no word with them. -/
theorem smallMerge_subset_elimination_witness :
    ([[7, 8, 9], [1, 2, 3], [20, 21, 22, 23], [1, 2, 3, 4, 5]] : MeaningFamily Nat).length
      < UINT_RANGE ∧
    1 ≠ 3 ∧
    ([[7, 8, 9], [1, 2, 3], [20, 21, 22, 23], [1, 2, 3, 4, 5]] : MeaningFamily Nat)[1]?
      = some [1, 2, 3] ∧
    ([[7, 8, 9], [1, 2, 3], [20, 21, 22, 23], [1, 2, 3, 4, 5]] : MeaningFamily Nat)[3]?
      = some [1, 2, 3, 4, 5] ∧
    [1, 2, 3].Nodup ∧ [1, 2, 3, 4, 5].Nodup ∧
    [1, 2, 3, 4, 5].length ≠ 2 ∧ [1, 2, 3, 4, 5] ≠ [] ∧
    (∀ w ∈ [1, 2, 3], w ∈ [1, 2, 3, 4, 5]) ∧
    (∀ (k : Nat) (c : List Nat), k ≠ 1 → k ≠ 3 →
      ([[7, 8, 9], [1, 2, 3], [20, 21, 22, 23], [1, 2, 3, 4, 5]] : MeaningFamily Nat)[k]?
        = some c →
      c = [] ∨ c.length = 2 ∨
        (0 < defaults.SMALLMERGE_RATIO ∧ ∀ w ∈ c, w ∉ [1, 2, 3, 4, 5])) ∧
    ∃ r cA cB, smallMerge defaults
        [[7, 8, 9], [1, 2, 3], [20, 21, 22, 23], [1, 2, 3, 4, 5]] [] = some r ∧
      r.classes[1]? = some cA ∧ r.classes[3]? = some cB ∧
      ((cA = [] ∧ cB ≠ [] ∧ ∀ w, w ∈ cB ↔ w ∈ [1, 2, 3] ∨ w ∈ [1, 2, 3, 4, 5]) ∨
        (cB = [] ∧ cA ≠ [] ∧ ∀ w, w ∈ cA ↔ w ∈ [1, 2, 3] ∨ w ∈ [1, 2, 3, 4, 5])) :=
  have ht : 0 < defaults.SMALLMERGE_RATIO := by decide!
  have hrest : ∀ (k : Nat) (c : List Nat), k ≠ 1 → k ≠ 3 →
      ([[7, 8, 9], [1, 2, 3], [20, 21, 22, 23], [1, 2, 3, 4, 5]] : MeaningFamily Nat)[k]?
        = some c →
      c = [] ∨ c.length = 2 ∨
        (0 < defaults.SMALLMERGE_RATIO ∧ ∀ w ∈ c, w ∉ [1, 2, 3, 4, 5]) := by
    intro k c h1 h3 h
    match k, h1, h3, h with
    | 0, _, _, h => exact Or.inr (Or.inr ⟨ht, (Option.some.inj h) ▸ (by decide)⟩)
    | 1, h1, _, _ => exact absurd rfl h1
    | 2, _, _, h => exact Or.inr (Or.inr ⟨ht, (Option.some.inj h) ▸ (by decide)⟩)
    | 3, _, h3, _ => exact absurd rfl h3
    | k + 4, _, _, h => simp at h
  ⟨by decide, by decide, rfl, rfl, by decide, by decide, by decide, by decide,
    by decide, hrest,
    smallMerge_subset_elimination defaults _ [] (by decide) 1 3 [1, 2, 3] [1, 2, 3, 4, 5]
      (by decide) rfl rfl (by decide) (by decide) (by decide) (by decide)
      (by decide) hrest⟩

end SmallMerge
